import Mathlib

/-!
Propositional-logic expression engine (script.js / script2.js).

A shallow embedding of the algorithmic core of the two scripts: the
shunting-yard parser and stack evaluator of `script.js`, its assignment
enumerator and parenthesis check, and the recursive evaluator, textual
normaliser, truth-table generator, classifier and gate-graph builder of
`script2.js`.

JavaScript strings are modelled as lists of characters (`Str`), JavaScript
objects used as finite maps as association lists, and a `throw` as
`Except.error`.
-/

namespace LogicEngine

/-! ## Strings and values -/

/-- A JavaScript string, as its sequence of characters. -/
abbrev Str := List Char

/-- A JavaScript value as it can occur on the evaluation stack of
`evaluateParsedExpression`: a boolean or `undefined`. -/
inductive JSVal where
  | bool (b : Bool)
  | undef
  deriving DecidableEq, Repr

namespace JSVal

/-- JavaScript truthiness (`ToBoolean`). -/
def truthy : JSVal → Bool
  | bool b => b
  | undef => false

/-- The operator `!a`. -/
def not (a : JSVal) : JSVal := bool (!a.truthy)

/-- The operator `a && b`. -/
def and (a b : JSVal) : JSVal := if a.truthy then b else a

/-- The operator `a || b`. -/
def or (a b : JSVal) : JSVal := if a.truthy then a else b

/-- The operator `a === b`. -/
def strictEq (a b : JSVal) : JSVal := bool (decide (a = b))

/-- The operator `a !== b`. -/
def strictNe (a b : JSVal) : JSVal := bool (!decide (a = b))

end JSVal

/-- An exception: `throw new Error(message)`, or a `TypeError` raised by the
JavaScript runtime. -/
inductive JSError where
  | error (message : Str)
  | typeError
  deriving DecidableEq, Repr

deriving instance DecidableEq for Except

/-- The characters matched by `[A-Za-z]`. -/
def isAsciiLetter (c : Char) : Bool :=
  (65 ≤ c.toNat && c.toNat ≤ 90) || (97 ≤ c.toNat && c.toNat ≤ 122)

/-- The characters matched by `\s` in a JavaScript regular expression. -/
def isJsWhitespace (c : Char) : Bool :=
  let n := c.toNat
  (9 ≤ n && n ≤ 13) || n = 32 || n = 160 || n = 5760 || (8192 ≤ n && n ≤ 8202) ||
    n = 8232 || n = 8233 || n = 8239 || n = 8287 || n = 12288 || n = 65279

/-- The property `length` of a string: its number of UTF-16 code units. -/
def jsLength (s : Str) : Nat :=
  (s.map fun c => if c.toNat < 65536 then 1 else 2).sum

/-- A JavaScript object with boolean-valued own properties, as the list of
its (key, value) pairs in insertion order. -/
abbrev Obj := List (Str × Bool)

/-- The own property `o[key]`, `none` when the object has no such key. -/
def Obj.get (o : Obj) (key : Str) : Option Bool := o.lookup key

/-- The assignment `o[key] = value` of an own property: an existing key keeps
its place. -/
def Obj.setOwn : Obj → Str → Bool → Obj
  | [], key, value => [(key, value)]
  | (k, v) :: o, key, value =>
    if k = key then (k, value) :: o else (k, v) :: Obj.setOwn o key value

/-- The assignment `o[key] = value` on an object created by `{}`, for a
boolean `value`. The key `__proto__` is the accessor inherited from
`Object.prototype`, whose setter ignores a value that is neither an object
nor `null`: the assignment then stores nothing. Every other key becomes an
own property. -/
def Obj.set (o : Obj) (key : Str) (value : Bool) : Obj :=
  if key = "__proto__".toList then o else Obj.setOwn o key value

namespace Script

/-! ## script.js : constants -/

/-- The constant `MAX_VARIABLES` of script.js. -/
def MAX_VARIABLES : Nat := 6

/-- Associativity field of an `OPERATORS` entry. -/
inductive Assoc where
  | left
  | right
  deriving DecidableEq, Repr

/-- The own keys of the object literal `OPERATORS`, in source order. -/
def operatorKeys : List Str := [['¬'], ['∧'], ['∨'], ['→'], ['△'], ['↔']]

/-- The property names every object literal inherits from `Object.prototype`
that consist of ASCII letters only (the other inherited names contain
underscores and can never be tokens of the tokenizer). -/
def objectPrototypeKeys : List Str :=
  ["constructor".toList, "hasOwnProperty".toList, "isPrototypeOf".toList,
   "propertyIsEnumerable".toList, "toLocaleString".toList, "toString".toList,
   "valueOf".toList]

/-- The test `token in OPERATORS`: own keys and inherited property names. -/
def inOPERATORS (token : Str) : Bool :=
  operatorKeys.contains token || objectPrototypeKeys.contains token

/-- The value of `OPERATORS[token].prec`; `none` stands for `undefined`
(inherited properties are functions without a `prec` field). -/
def prec (token : Str) : Option Nat :=
  if token = ['¬'] then some 4
  else if token = ['∧'] then some 3
  else if token = ['∨'] then some 2
  else if token = ['→'] then some 1
  else if token = ['△'] then some 2
  else if token = ['↔'] then some 1
  else none

/-- The value of `OPERATORS[token].assoc`; `none` stands for `undefined`. -/
def assoc (token : Str) : Option Assoc :=
  if token = ['¬'] then some Assoc.right
  else if token = ['∧'] then some Assoc.left
  else if token = ['∨'] then some Assoc.left
  else if token = ['→'] then some Assoc.right
  else if token = ['△'] then some Assoc.left
  else if token = ['↔'] then some Assoc.left
  else none

/-- The call `OPERATORS[token].fn(a, b)` for a token other than `¬`; `none`
stands for the `TypeError` raised when `fn` is `undefined`. -/
def applyBinary (token : Str) (a b : JSVal) : Option JSVal :=
  if token = ['∧'] then some (JSVal.and a b)
  else if token = ['∨'] then some (JSVal.or a b)
  else if token = ['→'] then some (JSVal.or (JSVal.not a) b)
  else if token = ['△'] then some (JSVal.strictNe a b)
  else if token = ['↔'] then some (JSVal.strictEq a b)
  else none

/-! ## script.js : shuntingYard -/

/-- The characters matched by the class `[∧∨¬→△↔()]`. -/
def isSymbolChar (c : Char) : Bool :=
  c = '∧' || c = '∨' || c = '¬' || c = '→' || c = '△' || c = '↔' || c = '(' || c = ')'

/-- A finished letter run becomes one token; an empty run gives none. -/
def flushRun (run : Str) : List Str := if run = [] then [] else [run]

/-- The scan behind `expr.match(/[∧∨¬→△↔()]|[A-Za-z]+/g)`, left to right:
`run` is the letter run being read. A letter extends the run (the `+` is
greedy, so a run is maximal); any other character ends it, and is a token of
its own when it is in the symbol class and skipped otherwise. -/
def matchTokensFrom : Str → Str → List Str
  | run, [] => flushRun run
  | run, c :: cs =>
    if isAsciiLetter c then matchTokensFrom (run ++ [c]) cs
    else if isSymbolChar c then flushRun run ++ [c] :: matchTokensFrom [] cs
    else flushRun run ++ matchTokensFrom [] cs

/-- The token list `expr.match(/[∧∨¬→△↔()]|[A-Za-z]+/g) || []`. -/
def matchTokens (expr : Str) : List Str := matchTokensFrom [] expr

/-- The comparison `a > b` of two `prec` values: false when either is
`undefined`. -/
def precGt : Option Nat → Option Nat → Bool
  | some a, some b => decide (b < a)
  | _, _ => false

/-- The condition of the `while` loop run on an operator token, for the
operator `top` on top of the stack. -/
def shouldPop (top token : Str) : Bool :=
  top ≠ ['('] &&
    (precGt (prec top) (prec token) ||
      (decide (prec top = prec token) && decide (assoc token = some Assoc.left)))

/-- The `while` loop run on an operator token: `operators` has its top
first; popped operators are appended to `output`. -/
def popOperators (token : Str) : List Str → List Str → List Str × List Str
  | output, [] => (output, [])
  | output, top :: operators =>
    if shouldPop top token then popOperators token (output ++ [top]) operators
    else (output, top :: operators)

/-- The `while` loop run on `)`: pops to `output` until the stack is empty or
its top is `(`. -/
def popToParen : List Str → List Str → List Str × List Str
  | output, [] => (output, [])
  | output, top :: operators =>
    if top ≠ ['('] then popToParen (output ++ [top]) operators
    else (output, top :: operators)

/-- One iteration of the `for` loop of `shuntingYard` on the state
`(output, operators)`. -/
def shuntingStep (state : List Str × List Str) (token : Str) : List Str × List Str :=
  if inOPERATORS token then
    let popped := popOperators token state.1 state.2
    (popped.1, token :: popped.2)
  else if token = ['('] then (state.1, token :: state.2)
  else if token = [')'] then
    let popped := popToParen state.1 state.2
    (popped.1, popped.2.tail)
  else (state.1 ++ [token], state.2)

/-- The function `shuntingYard(expr)`: the postfix token sequence. -/
def shuntingYard (expr : Str) : List Str :=
  let final := (matchTokens expr).foldl shuntingStep ([], [])
  final.1 ++ final.2

/-! ## script.js : evaluateParsedExpression -/

/-- The call `stack.pop()`, the stack having its top first: the popped value
(`undefined` on an empty stack) and the remaining stack. -/
def stackPop : List JSVal → JSVal × List JSVal
  | [] => (JSVal.undef, [])
  | v :: stack => (v, stack)

/-- The read `context[token]` for a token that is not `in OPERATORS` (so
that it names no inherited property): the own property or `undefined`. -/
def contextGet (context : Obj) (token : Str) : JSVal :=
  match context.get token with
  | some b => JSVal.bool b
  | none => JSVal.undef

/-- One iteration of the `for` loop of `evaluateParsedExpression`. An
inherited property name passes the test `token in OPERATORS` and then fails
at `op.fn(a, b)` with a `TypeError`. -/
def evalStep (context : Obj) (stack : List JSVal) (token : Str) :
    Except JSError (List JSVal) :=
  if inOPERATORS token then
    if token = ['¬'] then
      let a := stackPop stack
      Except.ok (JSVal.not a.1 :: a.2)
    else
      let b := stackPop stack
      let a := stackPop b.2
      match applyBinary token a.1 b.1 with
      | some v => Except.ok (v :: a.2)
      | none => Except.error JSError.typeError
  else Except.ok (contextGet context token :: stack)

/-- The `for` loop of `evaluateParsedExpression` over the postfix tokens. -/
def evalTokens (context : Obj) : List JSVal → List Str → Except JSError (List JSVal)
  | stack, [] => Except.ok stack
  | stack, token :: tokens =>
    match evalStep context stack token with
    | Except.ok stack1 => evalTokens context stack1 tokens
    | Except.error e => Except.error e

/-- The read `stack[0]`: the bottom of the stack, `undefined` when empty. -/
def stackBottom (stack : List JSVal) : JSVal := stack.getLast?.getD JSVal.undef

/-- The function `evaluateParsedExpression(expr, context)`. -/
def evaluateParsedExpression (expr : Str) (context : Obj) : Except JSError JSVal :=
  match evalTokens context [] (shuntingYard expr) with
  | Except.ok stack => Except.ok (stackBottom stack)
  | Except.error e => Except.error e

/-! ## script.js : parseExpression -/

/-- The result object of `parseExpression`. -/
inductive ParseResult where
  | ok (subExpressions : List Str) (finalExpression : Str)
  | invalid (error : Str)
  deriving DecidableEq, Repr

/-- The field `valid` of the result object. -/
def ParseResult.valid : ParseResult → Bool
  | ParseResult.ok _ _ => true
  | ParseResult.invalid _ => false

/-- The field `subExpressions` of the result object (absent when invalid). -/
def ParseResult.subExpressions : ParseResult → List Str
  | ParseResult.ok subs _ => subs
  | ParseResult.invalid _ => []

/-- The loop `tokens.forEach(...)` of `parseExpression`: the first token
that is neither `in OPERATORS` nor a parenthesis nor declared, if any. -/
def firstUndeclared (vars : List Str) : List Str → Option Str
  | [] => none
  | token :: tokens =>
    if !inOPERATORS token && !([['('], [')']].contains token) && !vars.contains token
    then some token
    else firstUndeclared vars tokens

/-- The scan behind the loop over `/(\([^()]+\))/g`: `body` is `none`
outside a candidate and `some b` after a `(` followed by the non-parenthesis
characters `b`. A `)` after a non-empty body completes a match. -/
def parenMatchesFrom : Option Str → Str → List Str
  | _, [] => []
  | body, c :: cs =>
    if c = '(' then parenMatchesFrom (some []) cs
    else if c = ')' then
      match body with
      | some (b :: bs) => ('(' :: (b :: bs) ++ [')']) :: parenMatchesFrom none cs
      | _ => parenMatchesFrom none cs
    else
      match body with
      | some b => parenMatchesFrom (some (b ++ [c])) cs
      | none => parenMatchesFrom none cs

/-- The call `set.add(x)` on a `Set` kept as its list of elements in
insertion order. -/
def setAdd (set : List Str) (x : Str) : List Str :=
  if set.contains x then set else set ++ [x]

/-- The loop `variables.forEach(v => { add(v); add('¬' + v) })`. -/
def addAtoms (set : List Str) (vars : List Str) : List Str :=
  vars.foldl (fun acc v => setAdd (setAdd acc v) ('¬' :: v)) set

/-- The call `.sort((a, b) => a.length - b.length)`: a stable sort by
`length`. -/
def sortByLength (l : List Str) : List Str :=
  l.insertionSort fun a b => jsLength a ≤ jsLength b

/-- The function `parseExpression(expr, variables)`. -/
def parseExpression (expr : Str) (vars : List Str) : ParseResult :=
  let tokens := shuntingYard expr
  match firstUndeclared vars tokens with
  | some token => ParseResult.invalid ("Variable no declarada: ".toList ++ token)
  | none =>
    let found := (parenMatchesFrom none expr).foldl setAdd []
    ParseResult.ok (sortByLength (addAtoms found vars)) expr

/-! ## script.js : generateOrderedCombinations -/

/-- The function `generateOrderedCombinations(variables)`: one row per
`row` in `0 .. 2^count - 1`, and in each row one entry per variable index,
`Math.floor(row / 2^(count - index - 1)) % 2 === 0`. -/
def generateOrderedCombinations (vars : List Str) : List (List Bool) :=
  let count := vars.length
  let totalRows := 2 ^ count
  (List.range totalRows).map fun row =>
    vars.enum.map fun (index, _) =>
      let groupSize := 2 ^ (count - index - 1)
      decide (row / groupSize % 2 = 0)

/-! ## script.js : areParenthesesBalanced -/

/-- The `for` loop of `areParenthesesBalanced` from the running `balance`,
and the final test `balance === 0`. -/
def balanceLoop : Int → Str → Bool
  | balance, [] => decide (balance = 0)
  | balance, char :: rest =>
    let b1 := if char = '(' ∨ char = '{' then balance + 1 else balance
    let b2 := if char = ')' ∨ char = '}' then b1 - 1 else b1
    if b2 < 0 then false else balanceLoop b2 rest

/-- The function `areParenthesesBalanced(expr)`. -/
def areParenthesesBalanced (expr : Str) : Bool := balanceLoop 0 expr

/-! ## script.js : generateTruthTable -/

/-- One data row of the table built by `generateTruthTable`: the values of
the variables, the value of every sub-expression column (empty unless
`showSteps`) and the value of the final expression. -/
structure TableRow where
  values : List Bool
  results : List JSVal
  finalResult : JSVal
  deriving DecidableEq, Repr

/-- The object `context` built by `variables.forEach((v, i) => { context[v] =
row[i]; })`, starting from `{}`. -/
def buildContext (vars : List Str) (row : List Bool) : Obj :=
  (vars.zip row).foldl (fun context vb => Obj.set context vb.1 vb.2) []

/-- The calls `evaluateParsedExpression(exp, context)` over a list of
expressions, in order; the first exception ends the loop. -/
def evaluateAll (context : Obj) : List Str → Except JSError (List JSVal)
  | [] => Except.ok []
  | exp :: exps =>
    match evaluateParsedExpression exp context with
    | Except.error e => Except.error e
    | Except.ok v =>
      match evaluateAll context exps with
      | Except.error e => Except.error e
      | Except.ok vs => Except.ok (v :: vs)

/-- The body of `rows.forEach(row => ...)` of `generateTruthTable`. -/
def tableRow (vars : List Str) (subExpressions : List Str) (finalExpression : Str)
    (showSteps : Bool) (row : List Bool) : Except JSError TableRow :=
  let context := buildContext vars row
  match evaluateAll context (if showSteps then subExpressions else []) with
  | Except.error e => Except.error e
  | Except.ok results =>
    match evaluateParsedExpression finalExpression context with
    | Except.error e => Except.error e
    | Except.ok finalResult => Except.ok ⟨row, results, finalResult⟩

/-- The loop `rows.forEach(...)`; the first exception ends it. -/
def tableRows (vars : List Str) (subExpressions : List Str) (finalExpression : Str)
    (showSteps : Bool) : List (List Bool) → Except JSError (List TableRow)
  | [] => Except.ok []
  | row :: rows =>
    match tableRow vars subExpressions finalExpression showSteps row with
    | Except.error e => Except.error e
    | Except.ok r =>
      match tableRows vars subExpressions finalExpression showSteps rows with
      | Except.error e => Except.error e
      | Except.ok rs => Except.ok (r :: rs)

/-- The replacement `expression.replace(/{/g, '(').replace(/}/g, ')')`. -/
def normalizeBraces (expression : Str) : Str :=
  expression.map fun c => if c = '{' then '(' else if c = '}' then ')' else c

/-- The function `generateTruthTable()` of script.js, from the variable list
obtained from the input field (split at commas, trimmed, empty names
dropped) and the expression text; the result is the data of the rendered
table, or the exception caught by the `try` block. -/
def generateTruthTable (vars : List Str) (expression : Str) (showSteps : Bool) :
    Except JSError (List TableRow) :=
  if vars.length = 0 then
    Except.error (JSError.error "Por favor ingresa al menos una variable".toList)
  else if vars.length > MAX_VARIABLES then
    Except.error (JSError.error
      "Por razones de rendimiento, el máximo es 6 variables".toList)
  else if expression = [] then
    Except.error (JSError.error "Por favor ingresa una expresión lógica".toList)
  else
    let expression := normalizeBraces expression
    if !areParenthesesBalanced expression then
      Except.error (JSError.error
        "Paréntesis/llaves desbalanceados en la expresión".toList)
    else
      let rows := generateOrderedCombinations vars
      match parseExpression expression vars with
      | ParseResult.invalid _ =>
        Except.error (JSError.error "Expresión lógica no válida".toList)
      | ParseResult.ok subExpressions finalExpression =>
        tableRows vars subExpressions finalExpression showSteps rows

end Script

namespace Script2

/-! ## script2.js : evaluateLogicalExpression -/

/-- The replacement `s.replace(/\s+/g, '')`. -/
def stripWhitespace (s : Str) : Str := s.filter fun c => !isJsWhitespace c

/-- The call `s.slice(1, -1)`. -/
def sliceInner (s : Str) : Str := (s.drop 1).dropLast

/-- The inner `for` loop of the parenthesis-stripping loop of `evaluate`,
from the running `balance`: `valid` stays true unless the balance returns to
zero before the last character. -/
def wrapsWhole : Int → Str → Bool
  | _, [] => true
  | balance, c :: cs =>
    let b1 := if c = '(' then balance + 1 else balance
    let b2 := if c = ')' then b1 - 1 else b1
    if b2 = 0 ∧ cs ≠ [] then false else wrapsWhole b2 cs

/-- The `while` loop of `evaluate` that removes outer parentheses; every
iteration shortens the text, so `subExpr.length` iterations always suffice. -/
def stripOuter : Nat → Str → Str
  | 0, subExpr => subExpr
  | fuel + 1, subExpr =>
    if subExpr.head? = some '(' ∧ subExpr.getLast? = some ')' ∧ wrapsWhole 0 subExpr
    then stripOuter fuel (sliceInner subExpr)
    else subExpr

/-- The constant `binaryOps`. -/
def binaryOps : List Char := ['↔', '→', '∨', '∧']

/-- The inner `for` loop of the operator search, for one `binaryOp`, from
index `i` with the running `depth`: the index of the first occurrence of
`binaryOp` at depth zero, or else the depth at the end of the text. -/
def scanOp (binaryOp : Char) : Int → Nat → Str → Option Nat × Int
  | depth, _, [] => (none, depth)
  | depth, i, c :: cs =>
    let d1 := if c = '(' then depth + 1 else depth
    let d2 := if c = ')' then d1 - 1 else d1
    if d2 = 0 ∧ c = binaryOp then (some i, d2) else scanOp binaryOp d2 (i + 1) cs

/-- The outer `for` loop of the operator search; `depth` is declared outside
both loops and so carries over from one operator to the next. The result is
`(opPos, op)`. -/
def findOp : List Char → Int → Str → Option (Nat × Char)
  | [], _, _ => none
  | binaryOp :: ops, depth, subExpr =>
    match scanOp binaryOp depth 0 subExpr with
    | (some i, _) => some (i, binaryOp)
    | (none, d) => findOp ops d subExpr

/-- The `switch (op)` of `evaluate` on two booleans. -/
def applyOp (op : Char) (leftVal rightVal : Bool) : Bool :=
  if op = '∧' then leftVal && rightVal
  else if op = '∨' then leftVal || rightVal
  else if op = '→' then !leftVal || rightVal
  else decide (leftVal = rightVal)

/-- The inner function `evaluate(subExpr)` of `evaluateLogicalExpression`.
The recursion is on strictly shorter texts; `fuel` bounds its depth and
`none` means the bound was reached. A context that has an own property
`hasOwnProperty` makes the call `context.hasOwnProperty(...)` a `TypeError`. -/
def evaluate (context : Obj) : Nat → Str → Option (Except JSError Bool)
  | 0, _ => none
  | fuel + 1, subExpr =>
    let subExpr := stripOuter subExpr.length subExpr
    match findOp binaryOps 0 subExpr with
    | some (opPos, op) =>
      let left := subExpr.take opPos
      let right := subExpr.drop (opPos + 1)
      match evaluate context fuel left with
      | none => none
      | some (Except.error e) => some (Except.error e)
      | some (Except.ok leftVal) =>
        match evaluate context fuel right with
        | none => none
        | some (Except.error e) => some (Except.error e)
        | some (Except.ok rightVal) => some (Except.ok (applyOp op leftVal rightVal))
    | none =>
      if subExpr.head? = some '¬' then
        match evaluate context fuel (subExpr.drop 1) with
        | none => none
        | some (Except.error e) => some (Except.error e)
        | some (Except.ok v) => some (Except.ok (!v))
      else if (context.get "hasOwnProperty".toList).isSome then
        some (Except.error JSError.typeError)
      else
        match context.get subExpr with
        | some b => some (Except.ok b)
        | none => some (Except.error
            (JSError.error ("Variable desconocida: ".toList ++ subExpr)))

/-- The function `evaluateLogicalExpression(expr, context)`. -/
def evaluateLogicalExpression (expr : Str) (context : Obj) :
    Option (Except JSError Bool) :=
  let expr := stripWhitespace expr
  evaluate context (expr.length + 1) expr

/-! ## script2.js : normalizeExpression -/

/-- The characters that `.` does not match. -/
def isLineTerminator (c : Char) : Bool :=
  c.toNat = 10 || c.toNat = 13 || c.toNat = 8232 || c.toNat = 8233

/-- The pattern `(.+?)(?=\)|$)` at the start of a text: the shortest
non-empty prefix without line terminator after which the text ends or a `)`
follows, and the text after it. -/
def lazyToClose : Str → Option (Str × Str)
  | [] => none
  | c :: cs =>
    if isLineTerminator c then none
    else if cs.head? = none ∨ cs.head? = some ')' then some ([c], cs)
    else
      match lazyToClose cs with
      | some (g2, rest) => some (c :: g2, rest)
      | none => none

/-- The pattern `(.+?)op(.+?)(?=\)|$)` continued after the non-empty first
group `g1`: the lazy group takes the first `op` after which the second group
matches, and grows by one character otherwise. -/
def matchBinaryFrom (op : Char) : Str → Str → Option (Str × Str × Str)
  | _, [] => none
  | g1, c :: cs =>
    match (if c = op then lazyToClose cs else none) with
    | some (g2, rest) => some (g1, g2, rest)
    | none =>
      if isLineTerminator c then none else matchBinaryFrom op (g1 ++ [c]) cs

/-- The pattern `(.+?)op(.+?)(?=\)|$)` at the start of a text: the two
groups and the text after the match. -/
def matchBinary (op : Char) : Str → Option (Str × Str × Str)
  | [] => none
  | c :: cs => if isLineTerminator c then none else matchBinaryFrom op [c] cs

/-- The global replacement of the pattern `(.+?)op(.+?)(?=\)|$)`: at each
position the match is replaced and the scan goes on after it, or else the
character is kept. The text left to scan gets shorter at every step. -/
def replaceBinary (op : Char) (template : Str → Str → Str) : Nat → Str → Str
  | 0, s => s
  | _ + 1, [] => []
  | fuel + 1, c :: cs =>
    match matchBinary op (c :: cs) with
    | some (g1, g2, rest) => template g1 g2 ++ replaceBinary op template fuel rest
    | none => c :: replaceBinary op template fuel cs

/-- The replacement text `(¬($1) ∨ ($2))`. -/
def impliesTemplate (g1 g2 : Str) : Str :=
  "(¬(".toList ++ g1 ++ ") ∨ (".toList ++ g2 ++ "))".toList

/-- The replacement text `((¬($1) ∨ ($2)) ∧ (¬($2) ∨ ($1)))`. -/
def iffTemplate (g1 g2 : Str) : Str :=
  "((¬(".toList ++ g1 ++ ") ∨ (".toList ++ g2 ++ ")) ∧ (¬(".toList ++ g2 ++
    ") ∨ (".toList ++ g1 ++ ")))".toList

/-- The characters matched by `[A-Z]`. -/
def isUpperLetter (c : Char) : Bool := 65 ≤ c.toNat && c.toNat ≤ 90

/-- The global replacement of `¬¬([A-Z])` by `$1`: at each position the
match is replaced by its letter, or else the character is kept. -/
def replaceDoubleNeg : Nat → Str → Str
  | 0, s => s
  | _ + 1, [] => []
  | fuel + 1, c :: cs =>
    match cs with
    | d :: e :: rest =>
      if c = '¬' ∧ d = '¬' ∧ isUpperLetter e then e :: replaceDoubleNeg fuel rest
      else c :: replaceDoubleNeg fuel cs
    | _ => c :: replaceDoubleNeg fuel cs

/-- The function `normalizeExpression(expr)`. -/
def normalizeExpression (expr : Str) : Str :=
  let expr := replaceBinary '→' impliesTemplate expr.length expr
  let expr := replaceBinary '↔' iffTemplate expr.length expr
  replaceDoubleNeg expr.length expr

/-! ## script2.js : generateTruthTable and checkLogicType -/

/-- The inner `for` loop of `generateTruthTable` from index `j`: `rest` are
the variables from position `j` on and `count` is `variables.length`. -/
def fillRow (count i : Nat) : Obj → Nat → List Str → Obj
  | row, _, [] => row
  | row, j, v :: rest =>
    fillRow count i (Obj.set row v (i &&& (1 <<< (count - 1 - j)) != 0)) (j + 1) rest

/-- The rows `i, i + 1, ...` of the outer `for` loop of `generateTruthTable`;
an exception of the evaluator ends the loop. -/
def tableFrom (expression : Str) (vars : List Str) : List Nat →
    Option (Except JSError (List Obj))
  | [] => some (Except.ok [])
  | i :: is =>
    let row := fillRow vars.length i [] 0 vars
    match evaluateLogicalExpression expression row with
    | none => none
    | some (Except.error e) => some (Except.error e)
    | some (Except.ok result) =>
      match tableFrom expression vars is with
      | none => none
      | some (Except.error e) => some (Except.error e)
      | some (Except.ok table) =>
        some (Except.ok (Obj.set row "RESULT".toList result :: table))

/-- The function `generateTruthTable(expression, variables)` of script2.js. -/
def generateTruthTable (expression : Str) (vars : List Str) :
    Option (Except JSError (List Obj)) :=
  tableFrom expression vars (List.range (2 ^ vars.length))

/-- The first label of `checkLogicType`. -/
def tautologyLabel : Str := "🔵 Tautología (siempre verdadera)".toList

/-- The second label of `checkLogicType`. -/
def contradictionLabel : Str := "🔴 Contradicción (siempre falsa)".toList

/-- The third label of `checkLogicType`. -/
def contingencyLabel : Str := "🟡 Contingencia (a veces verdadera)".toList

/-- The function `checkLogicType(truthTable)`; `row.RESULT` is `none` for a
row without that property. -/
def checkLogicType (truthTable : List Obj) : Str :=
  let results := truthTable.map fun row => row.get "RESULT".toList
  if results.all fun val => val = some true then tautologyLabel
  else if results.all fun val => val = some false then contradictionLabel
  else contingencyLabel

/-! ## script2.js : generateCircuitDiagram -/

/-- The gate types, the keys of `gateCounts`. -/
inductive GateType where
  | NOT | AND | OR | NOR | NAND | XOR | XNOR
  deriving DecidableEq, Repr

/-- The read `gateMap[op]`; it is only ever read at one of the five keys of
`gateMap`, the last of which is `↔`. -/
def gateMap (op : Char) : GateType :=
  if op = '¬' then GateType.NOT
  else if op = '∧' then GateType.AND
  else if op = '∨' then GateType.OR
  else if op = '→' then GateType.OR
  else GateType.XNOR

/-- An element of `gates` (its field `output` is always `null`). -/
structure Gate where
  id : Str
  type : GateType
  inputs : List Str
  deriving DecidableEq, Repr

/-- An element of `connections`: the fields `from`, `to` and `toInput`. -/
structure Connection where
  fromGate : Str
  toGate : Str
  toInput : Str
  deriving DecidableEq, Repr

/-- The object `gateCounts`. -/
structure GateCounts where
  NOT : Nat
  AND : Nat
  OR : Nat
  NOR : Nat
  NAND : Nat
  XOR : Nat
  XNOR : Nat
  deriving DecidableEq, Repr

/-- The statement `gateCounts[gateType]++`. -/
def GateCounts.bump (c : GateCounts) : GateType → GateCounts
  | GateType.NOT => { c with NOT := c.NOT + 1 }
  | GateType.AND => { c with AND := c.AND + 1 }
  | GateType.OR => { c with OR := c.OR + 1 }
  | GateType.NOR => { c with NOR := c.NOR + 1 }
  | GateType.NAND => { c with NAND := c.NAND + 1 }
  | GateType.XOR => { c with XOR := c.XOR + 1 }
  | GateType.XNOR => { c with XNOR := c.XNOR + 1 }

/-- The variables `gates`, `connections`, `gateCount` and `gateCounts` of
`generateCircuitDiagram`, which `processSubExpression` updates. -/
structure Builder where
  gates : List Gate
  connections : List Connection
  gateCount : Nat
  gateCounts : GateCounts
  deriving DecidableEq, Repr

/-- The state before the first call of `processSubExpression`. -/
def Builder.initial : Builder := ⟨[], [], 0, ⟨0, 0, 0, 0, 0, 0, 0⟩⟩

/-- The template text of a gate id, "gate" followed by the decimal number. -/
def gateIdOf (n : Nat) : Str := "gate".toList ++ Nat.toDigits 10 n

/-- The `for` loop of the auxiliary `isBalanced`, from the running balance. -/
def isBalancedFrom : Int → Str → Bool
  | balance, [] => decide (balance = 0)
  | balance, ch :: rest =>
    let b := if ch = '(' then balance + 1 else if ch = ')' then balance - 1 else balance
    if b < 0 then false else isBalancedFrom b rest

/-- The auxiliary function `isBalanced(str)`. -/
def isBalanced (str : Str) : Bool := isBalancedFrom 0 str

/-- The `while` loop of `processSubExpression` that removes balanced outer
parentheses; every iteration shortens the text. -/
def stripBalanced : Nat → Str → Str
  | 0, subExpr => subExpr
  | fuel + 1, subExpr =>
    if subExpr.head? = some '(' ∧ subExpr.getLast? = some ')' ∧ isBalanced (sliceInner subExpr)
    then stripBalanced fuel (sliceInner subExpr)
    else subExpr

/-- The test `parentGate` (a non-empty string is truthy, `null` is not). -/
def parentTruthy (parentGate : Option Str) : Bool :=
  match parentGate with
  | some (_ :: _) => true
  | _ => false

/-- The test `parentGate && gates.find(g => g.id === parentGate)?.type ===
'NOT'`. -/
def parentIsNot (gates : List Gate) (parentGate : Option Str) : Bool :=
  match parentGate with
  | some (c :: cs) =>
    match gates.find? fun g => g.id = c :: cs with
    | some g => g.type = GateType.NOT
    | none => false
  | _ => false

/-- The statement `gates.find(g => g.id === gateId).inputs = inputs`. -/
def setInputs : List Gate → Str → List Str → List Gate
  | [], _, _ => []
  | g :: gs, gateId, inputs =>
    if g.id = gateId then { g with inputs := inputs } :: gs
    else g :: setInputs gs gateId inputs

/-- The statement `if (parentGate) connections.push({from: gateId, to:
parentGate, toInput: inputSide})`. -/
def pushConnection (connections : List Connection) (gateId : Str)
    (parentGate : Option Str) (inputSide : Str) : List Connection :=
  match parentGate with
  | some (c :: cs) => connections ++ [⟨gateId, c :: cs, inputSide⟩]
  | _ => connections

/-- The function `processSubExpression(subExpr, parentGate, inputSide)` as a
state transformer on `Builder`, for the declared `variables`. The result is
the returned gate id or variable name. The recursion is on strictly shorter
texts; `fuel` bounds its depth and `none` means the bound was reached. -/
def processSubExpression (vars : List Str) :
    Nat → Builder → Str → Option Str → Str → Option (Except JSError (Str × Builder))
  | 0, _, _, _, _ => none
  | fuel + 1, st, subExpr, parentGate, inputSide =>
    let subExpr := stripWhitespace subExpr
    let subExpr := stripBalanced subExpr.length subExpr
    match findOp binaryOps 0 subExpr with
    | some (opPos, op) =>
      let left := subExpr.take opPos
      let right := subExpr.drop (opPos + 1)
      let gateCount := st.gateCount + 1
      let gateId := gateIdOf gateCount
      let gateType :=
        if op = '∨' ∧ parentIsNot st.gates parentGate then GateType.NOR
        else if op = '∧' ∧ parentIsNot st.gates parentGate then GateType.NAND
        else gateMap op
      let st1 : Builder :=
        { gates := st.gates ++ [⟨gateId, gateType, []⟩]
          connections := st.connections
          gateCount := gateCount
          gateCounts := st.gateCounts.bump gateType }
      match processSubExpression vars fuel st1 left (some gateId) "left".toList with
      | none => none
      | some (Except.error e) => some (Except.error e)
      | some (Except.ok (leftInput, st2)) =>
        match processSubExpression vars fuel st2 right (some gateId) "right".toList with
        | none => none
        | some (Except.error e) => some (Except.error e)
        | some (Except.ok (rightInput, st3)) =>
          some (Except.ok (gateId,
            { st3 with
              gates := setInputs st3.gates gateId [leftInput, rightInput]
              connections := pushConnection st3.connections gateId parentGate inputSide }))
    | none =>
      if subExpr.head? = some '¬' then
        let inner := subExpr.drop 1
        let gateCount := st.gateCount + 1
        let gateId := gateIdOf gateCount
        let st1 : Builder :=
          { gates := st.gates ++ [⟨gateId, GateType.NOT, []⟩]
            connections := st.connections
            gateCount := gateCount
            gateCounts := st.gateCounts.bump GateType.NOT }
        match processSubExpression vars fuel st1 inner (some gateId) "single".toList with
        | none => none
        | some (Except.error e) => some (Except.error e)
        | some (Except.ok (innerInput, st2)) =>
          some (Except.ok (gateId,
            { st2 with
              gates := setInputs st2.gates gateId [innerInput]
              connections := pushConnection st2.connections gateId parentGate inputSide }))
      else if vars.contains subExpr then some (Except.ok (subExpr, st))
      else some (Except.error
        (JSError.error ("Expresión no reconocida: ".toList ++ subExpr)))

/-- The call `processSubExpression(expression)` of `generateCircuitDiagram`
on the initial state: the output gate and the final `gates`, `connections`,
`gateCount` and `gateCounts`. -/
def generateCircuitDiagram (expression : Str) (vars : List Str) :
    Option (Except JSError (Str × Builder)) :=
  processSubExpression vars ((stripWhitespace expression).length + 1) Builder.initial
    expression none []

/-! ## script2.js : evaluateExpression, character validation and aliases -/

/-- The constant `operatorMap`, as its entries `[alt, std]` in the order of
`Object.entries` (the insertion order of the keys). -/
def operatorMap : List (Str × Str) :=
  [("¬".toList, "¬".toList), ("~".toList, "¬".toList),
   ("·".toList, "∧".toList), ("*".toList, "∧".toList), ("×".toList, "∧".toList),
   ("&&".toList, "∧".toList),
   ("+".toList, "∨".toList), ("||".toList, "∨".toList),
   ("→".toList, "→".toList), ("->".toList, "→".toList),
   ("↔".toList, "↔".toList), ("<->".toList, "↔".toList)]

/-- The characters that `escapeRegExp` escapes: `. * + ? ^ $ { } ( ) | [ ] \`. -/
def regExpSpecials : List Char :=
  ['.', '*', '+', '?', '^', '$', '{', '}', '(', ')', '|', '[', ']', '\\']

/-- The function `escapeRegExp(string)`: a backslash is put before every
special character. -/
def escapeRegExp (string : Str) : Str :=
  string.flatMap fun c => if regExpSpecials.contains c then ['\\', c] else [c]

/-- The scan of a global replacement of the literal text `alt` (the pattern
`new RegExp(escapeRegExp(alt), 'g')` matches `alt` itself) by `std`: `skip`
counts the characters of a match still to be passed over. At a position
where `alt` starts, `std` is written and the scan goes on after the match;
elsewhere the character is kept. -/
def replaceAllFrom (alt std : Str) : Nat → Str → Str
  | _, [] => []
  | skip + 1, _ :: cs => replaceAllFrom alt std skip cs
  | 0, c :: cs =>
    if alt.isPrefixOf (c :: cs) then std ++ replaceAllFrom alt std (alt.length - 1) cs
    else c :: replaceAllFrom alt std 0 cs

/-- The call `text.replace(new RegExp(escapeRegExp(alt), 'g'), std)`. -/
def replaceAll (alt std text : Str) : Str := replaceAllFrom alt std 0 text

/-- The alias loop `for (const [alt, std] of Object.entries(operatorMap))` of
`evaluateExpression`, from `normalizedExpr = expression`. -/
def normalizeAliases (expression : Str) : Str :=
  operatorMap.foldl (fun normalizedExpr entry => replaceAll entry.1 entry.2 normalizedExpr)
    expression

/-- The characters of a character class whose body is the given pattern
text, for a body in which a backslash only precedes a special character (it
then stands for that character) and which has no range and no leading `^`. -/
def classChars : Str → List Char
  | [] => []
  | [c] => [c]
  | c :: d :: rest => if c = '\\' then d :: classChars rest else c :: classChars (d :: rest)

/-- The class of the pattern `validChars`, built from the literal
`'¬~·*×+→↔()\\s'` (which ends in a backslash and the letter s) through
`escapeRegExp`. -/
def validCharsClass : List Char := classChars (escapeRegExp "¬~·*×+→↔()\\s".toList)

/-- The class of `variablePattern`, whose body is `variables.join('')`
unescaped; `none` when the joined names hold a character with a meaning of
its own inside a class (`\`, `]`, `^`, `-`), a case this model leaves out. -/
def variableClass (vars : List Str) : Option (List Char) :=
  if vars.flatten.any fun c => c = '\\' || c = ']' || c = '^' || c = '-' then none
  else some vars.flatten

/-- The characters matched by `\w`. -/
def isWordChar (c : Char) : Bool :=
  isAsciiLetter c || (48 ≤ c.toNat && c.toNat ≤ 57) || c = '_'

/-- The replacement `expression.replace(variablePattern, '')` for the pattern
`\b[class]\b`: a character is removed when it is in the class and has a word
boundary on both sides; `prev` is the character before the current one. The
pattern works on UTF-16 code units, so a character outside the basic plane
is never removed. -/
def removeVariables (cls : List Char) : Option Char → Str → Str
  | _, [] => []
  | prev, c :: cs =>
    let before := (prev.map isWordChar).getD false
    let after := (cs.head?.map isWordChar).getD false
    if cls.contains c && decide (c.toNat < 65536) && (before != isWordChar c) &&
        (isWordChar c != after)
    then removeVariables cls (some c) cs
    else c :: removeVariables cls (some c) cs

/-- The value `invalidChars` of `evaluateExpression` for a given class of
`variablePattern`. -/
def invalidChars (cls : List Char) (expression : Str) : Str :=
  (removeVariables cls none expression).filter fun c => !validCharsClass.contains c

/-- Lines 73 to 83 of `evaluateExpression`: the character validation, which
throws when `invalidChars` is not empty, and then the alias loop; the result
is `normalizedExpr`. `none` when the class of `variablePattern` is left out
of the model. -/
def normalizedExpr (expression : Str) (vars : List Str) : Option (Except JSError Str) :=
  match variableClass vars with
  | none => none
  | some cls =>
    if (invalidChars cls expression).length > 0 then
      some (Except.error (JSError.error
        ("Caracteres no válidos en la expresión: ".toList ++ invalidChars cls expression)))
    else some (Except.ok (normalizeAliases expression))

end Script2

/-! ## Specification-side notions -/

namespace Spec

/-- An opening bracket: `(` or `{`. -/
def isOpener (c : Char) : Bool := c = '(' || c = '{'

/-- A closing bracket: `)` or `}`. -/
def isCloser (c : Char) : Bool := c = ')' || c = '}'

/-- Number of opening brackets of a text. -/
def openers (s : Str) : Nat := s.countP isOpener

/-- Number of closing brackets of a text. -/
def closers (s : Str) : Nat := s.countP isCloser

/-- A text is balanced when no prefix has more closers than openers and the
whole text has as many openers as closers. -/
def Balanced (e : Str) : Prop :=
  (∀ k, closers (e.take k) ≤ openers (e.take k)) ∧ openers e = closers e

/-- A variable name of the tokenizer: a non-empty run of ASCII letters that is
not a key of the operator table. -/
def IsVariableName (v : Str) : Prop :=
  v ≠ [] ∧ (∀ c ∈ v, isAsciiLetter c = true) ∧ Script.inOPERATORS v = false

instance (v : Str) : Decidable (IsVariableName v) := by
  unfold IsVariableName; infer_instance

/-- A maximal run of ASCII letters of a text: a non-empty block of letters
that has no letter right before it and no letter right after it. -/
def IsMaximalLetterRun (expr run : Str) : Prop :=
  run ≠ [] ∧ (∀ c ∈ run, isAsciiLetter c = true) ∧
    ∃ pre post, expr = pre ++ run ++ post ∧
      (∀ c, pre.getLast? = some c → isAsciiLetter c = false) ∧
      (∀ c, post.head? = some c → isAsciiLetter c = false)

/-- A text without parenthesis and without binary operator of the builder of
script2.js. -/
def PlainText (s : Str) : Prop := ∀ c ∈ s, c ≠ '(' ∧ c ≠ ')' ∧ c ∉ Script2.binaryOps

/-- The gate type expected for a binary operator: AND for ∧, OR for ∨, OR for
→ and XNOR for ↔. -/
def binaryGateType (op : Char) : Script2.GateType :=
  if op = '∧' then Script2.GateType.AND
  else if op = '∨' then Script2.GateType.OR
  else if op = '→' then Script2.GateType.OR
  else Script2.GateType.XNOR

/-- The binary operator symbols. -/
def binarySymbols : List Char := ['∧', '∨', '△', '→', '↔']

/-- The precedence table of the binary operators: ∧ = 3, ∨ = 2, △ = 2,
→ = 1, ↔ = 1. -/
def specPrec (o : Char) : Nat :=
  if o = '∧' then 3 else if o = '∨' then 2 else if o = '△' then 2 else 1

/-- Associativity of the binary operators: `→` is right-associative, the
others are left-associative. -/
def specLeftAssoc (o : Char) : Bool := o != '→'

/-- The binary connectives of a formula tree. -/
inductive BinOp where
  | AND | OR | XOR | IMPLIES | IFF
  deriving DecidableEq, Repr

/-- The symbol of a binary connective. -/
def BinOp.symbol : BinOp → Char
  | BinOp.AND => '∧'
  | BinOp.OR => '∨'
  | BinOp.XOR => '△'
  | BinOp.IMPLIES => '→'
  | BinOp.IFF => '↔'

/-- The truth function of a binary connective: AND = a∧b, OR = a∨b,
XOR = a≠b, IMPLIES = ¬a∨b, IFF = (a=b). -/
def BinOp.apply : BinOp → Bool → Bool → Bool
  | BinOp.AND, a, b => a && b
  | BinOp.OR, a, b => a || b
  | BinOp.XOR, a, b => a != b
  | BinOp.IMPLIES, a, b => !a || b
  | BinOp.IFF, a, b => a == b

/-- A formula tree. -/
inductive Formula where
  | var (name : Str)
  | not (a : Formula)
  | bin (op : BinOp) (a b : Formula)
  deriving DecidableEq, Repr

/-- The variable names of a formula tree. -/
def Formula.vars : Formula → List Str
  | Formula.var v => [v]
  | Formula.not a => a.vars
  | Formula.bin _ a b => a.vars ++ b.vars

/-- The fully parenthesized rendering: a binary node is `(` left op right
`)`, a negation is `¬` followed by its operand. -/
def Formula.render : Formula → Str
  | Formula.var v => v
  | Formula.not a => '¬' :: a.render
  | Formula.bin op a b => '(' :: a.render ++ op.symbol :: b.render ++ [')']

/-- The value of a formula tree under a valuation. -/
def Formula.value (σ : Str → Bool) : Formula → Bool
  | Formula.var v => σ v
  | Formula.not a => !a.value σ
  | Formula.bin op a b => op.apply (a.value σ) (b.value σ)

/-- The tokens of the rendering, in order. -/
def Formula.tokens : Formula → List Str
  | Formula.var v => [v]
  | Formula.not a => ['¬'] :: a.tokens
  | Formula.bin op a b => ['('] :: a.tokens ++ [op.symbol] :: b.tokens ++ [[')']]

/-- The postfix form of a formula tree. -/
def Formula.postfixForm : Formula → List Str
  | Formula.var v => [v]
  | Formula.not a => a.postfixForm ++ [['¬']]
  | Formula.bin op a b => a.postfixForm ++ b.postfixForm ++ [[op.symbol]]

/-- Number of negations at the root of a formula tree: while its rendering is
read they wait on the operator stack. -/
def Formula.pending : Formula → Nat
  | Formula.not a => a.pending + 1
  | _ => 0

/-- The postfix form without the negations at the root. -/
def Formula.core : Formula → List Str
  | Formula.var v => [v]
  | Formula.not a => a.core
  | Formula.bin op a b => a.postfixForm ++ b.postfixForm ++ [[op.symbol]]

/-- The text with every character that is neither an ASCII letter nor a
symbol of the tokenizer replaced by a blank. -/
def blankOut (c : Char) : Char :=
  if isAsciiLetter c || Script.isSymbolChar c then c else ' '

/-- The alias spellings of the operators. -/
def aliasSpellings : List Str :=
  ["~".toList, "·".toList, "*".toList, "×".toList, "+".toList, "&&".toList, "||".toList,
   "->".toList, "<->".toList]

/-- The characters of the operators and of their alias spellings. -/
def operatorAlphabet : List Char :=
  ['¬', '~', '·', '*', '×', '&', '+', '|', '→', '-', '>', '↔', '<', '∧', '∨']


/-! ### The graph expected for a formula tree -/

/-- The number written by a run of decimal digits. -/
def digitsValue (ds : Str) : Nat := ds.foldl (fun acc c => acc * 10 + (c.toNat - 48)) 0

/-- Number of connectives of a formula tree. -/
def Formula.size : Formula → Nat
  | Formula.var _ => 0
  | Formula.not a => a.size + 1
  | Formula.bin _ a b => a.size + b.size + 1

/-- The gate type of a binary connective in the builder: under a NOT gate ∨
becomes NOR and ∧ becomes NAND, otherwise the type is read from `gateMap`. -/
def builderGateType (op : Char) (underNot : Bool) : Script2.GateType :=
  if op = '∨' ∧ underNot then Script2.GateType.NOR
  else if op = '∧' ∧ underNot then Script2.GateType.NAND
  else Script2.gateMap op

/-- The builder of script2.js run on a formula tree instead of a text: the
same state updates as `processSubExpression`, with the splitting of the text
replaced by the shape of the tree. -/
def Formula.emit : Formula → Script2.Builder → Option Str → Str → Str × Script2.Builder
  | Formula.var v, st, _, _ => (v, st)
  | Formula.not a, st, parentGate, inputSide =>
    let gateId := Script2.gateIdOf (st.gateCount + 1)
    let st1 : Script2.Builder :=
      { gates := st.gates ++ [⟨gateId, Script2.GateType.NOT, []⟩]
        connections := st.connections
        gateCount := st.gateCount + 1
        gateCounts := st.gateCounts.bump Script2.GateType.NOT }
    let r := a.emit st1 (some gateId) "single".toList
    (gateId,
      { r.2 with
        gates := Script2.setInputs r.2.gates gateId [r.1]
        connections := Script2.pushConnection r.2.connections gateId parentGate inputSide })
  | Formula.bin op a b, st, parentGate, inputSide =>
    let gateId := Script2.gateIdOf (st.gateCount + 1)
    let gateType := builderGateType op.symbol (Script2.parentIsNot st.gates parentGate)
    let st1 : Script2.Builder :=
      { gates := st.gates ++ [⟨gateId, gateType, []⟩]
        connections := st.connections
        gateCount := st.gateCount + 1
        gateCounts := st.gateCounts.bump gateType }
    let l := a.emit st1 (some gateId) "left".toList
    let r := b.emit l.2 (some gateId) "right".toList
    (gateId,
      { r.2 with
        gates := Script2.setInputs r.2.gates gateId [l.1, r.1]
        connections := Script2.pushConnection r.2.connections gateId parentGate inputSide })

/-- The output of the graph of a formula tree built from gate count `c`: the
variable itself, or the gate of the root, which is numbered `c + 1`. -/
def Formula.outOf : Formula → Nat → Str
  | Formula.var v, _ => v
  | _, c => Script2.gateIdOf (c + 1)

/-- The gates of a formula tree built from gate count `c`, in pre-order: the
root is numbered `c + 1`, then come the gates of the left operand, then those
of the right operand. -/
def Formula.gatesOf : Formula → Nat → Bool → List Script2.Gate
  | Formula.var _, _, _ => []
  | Formula.not a, c, _ =>
    ⟨Script2.gateIdOf (c + 1), Script2.GateType.NOT, [a.outOf (c + 1)]⟩ :: a.gatesOf (c + 1) true
  | Formula.bin op a b, c, underNot =>
    ⟨Script2.gateIdOf (c + 1), builderGateType op.symbol underNot,
      [a.outOf (c + 1), b.outOf (c + 1 + a.size)]⟩ ::
      (a.gatesOf (c + 1) false ++ b.gatesOf (c + 1 + a.size) false)

/-- The connections of a formula tree built from gate count `c` below the
gate `parentGate`: those of the operands, then the connection of the root to
its parent. -/
def Formula.connsOf : Formula → Nat → Option Str → Str → List Script2.Connection
  | Formula.var _, _, _, _ => []
  | Formula.not a, c, parentGate, inputSide =>
    Script2.pushConnection (a.connsOf (c + 1) (some (Script2.gateIdOf (c + 1))) "single".toList)
      (Script2.gateIdOf (c + 1)) parentGate inputSide
  | Formula.bin _ a b, c, parentGate, inputSide =>
    Script2.pushConnection
      (a.connsOf (c + 1) (some (Script2.gateIdOf (c + 1))) "left".toList ++
        b.connsOf (c + 1 + a.size) (some (Script2.gateIdOf (c + 1))) "right".toList)
      (Script2.gateIdOf (c + 1)) parentGate inputSide

/-- A connection enters the gate at the slot it names: `single` is the only
input of the gate, `left` its first of two inputs, `right` its second. -/
def SlotOf (g : Script2.Gate) (conn : Script2.Connection) : Prop :=
  (conn.toInput = "single".toList ∧ g.inputs = [conn.fromGate]) ∨
  (conn.toInput = "left".toList ∧ ∃ r, g.inputs = [conn.fromGate, r]) ∨
  (conn.toInput = "right".toList ∧ ∃ l, g.inputs = [l, conn.fromGate])


/-! ### The grammar of expressions -/

/-- The binary connectives of the grammar `E ::= v | ¬E | (E) | E∧E | E∨E |
E→E | E↔E`. -/
inductive Connective where
  | IFF | IMPLIES | OR | AND
  deriving DecidableEq, Repr

/-- The symbol of a connective. -/
def Connective.symbol : Connective → Char
  | Connective.IFF => '↔'
  | Connective.IMPLIES => '→'
  | Connective.OR => '∨'
  | Connective.AND => '∧'

/-- The rank of a connective in the operator search of script2.js, which is
its rank in `binaryOps`: ↔ is searched first, then →, ∨ and ∧. -/
def Connective.level : Connective → Nat
  | Connective.IFF => 0
  | Connective.IMPLIES => 1
  | Connective.OR => 2
  | Connective.AND => 3

/-- The connective as a connective of formula trees. -/
def Connective.toBinOp : Connective → BinOp
  | Connective.IFF => BinOp.IFF
  | Connective.IMPLIES => BinOp.IMPLIES
  | Connective.OR => BinOp.OR
  | Connective.AND => BinOp.AND

/-- A derivation of the grammar `E ::= v | ¬E | (E) | E∧E | E∨E | E→E |
E↔E`. -/
inductive Expr where
  | var (name : Str)
  | neg (e : Expr)
  | paren (e : Expr)
  | bin (op : Connective) (a b : Expr)
  deriving DecidableEq, Repr

/-- The expression string that a derivation generates. -/
def Expr.render : Expr → Str
  | Expr.var v => v
  | Expr.neg e => '¬' :: e.render
  | Expr.paren e => '(' :: e.render ++ [')']
  | Expr.bin op a b => a.render ++ op.symbol :: b.render

/-- The variable names of a derivation. -/
def Expr.vars : Expr → List Str
  | Expr.var v => [v]
  | Expr.neg e => e.vars
  | Expr.paren e => e.vars
  | Expr.bin _ a b => a.vars ++ b.vars

/-- Number of nodes of a derivation. -/
def Expr.nodes : Expr → Nat
  | Expr.var _ => 1
  | Expr.neg e => e.nodes + 1
  | Expr.paren e => e.nodes + 1
  | Expr.bin _ a b => a.nodes + b.nodes + 1

/-- The rank of the root of a derivation: that of its connective for a binary
node, 4 for a negation, 5 for a variable and for a parenthesized
expression. -/
def Expr.level : Expr → Nat
  | Expr.bin op _ _ => op.level
  | Expr.neg _ => 4
  | _ => 5

/-- The derivations that script2.js reads off an expression string: a binary
node splits at the leftmost top-level connective of lowest rank, so its left
operand has a higher rank and its right operand no lower rank; a negation
applies to an operand with no top-level connective. -/
def Expr.Shaped : Expr → Prop
  | Expr.var _ => True
  | Expr.neg e => 4 ≤ e.level ∧ e.Shaped
  | Expr.paren e => e.Shaped
  | Expr.bin op a b => op.level < a.level ∧ op.level ≤ b.level ∧ a.Shaped ∧ b.Shaped

/-- The derivation, in the shape read by script2.js, of `¬` followed by the
string of a derivation of that shape. -/
def Expr.negInto : Expr → Expr
  | Expr.bin op a b => Expr.bin op a.negInto b
  | e => Expr.neg e

/-- The derivation, in the shape read by script2.js, of the string of `a`
followed by the connective and the string of `b`, for `a` and `b` of that
shape; `fuel` bounds the number of nodes of `a` and `b`. -/
def Expr.joinAux : Nat → Connective → Expr → Expr → Expr
  | 0, op, a, b => Expr.bin op a b
  | fuel + 1, op, a, b =>
    match a with
    | Expr.bin oa al ar =>
      if oa.level ≤ op.level ∧ oa.level ≤ b.level then
        Expr.bin oa al (Expr.joinAux fuel op ar b)
      else if op.level ≤ b.level then Expr.bin op a b
      else
        match b with
        | Expr.bin ob bl br => Expr.bin ob (Expr.joinAux fuel op a bl) br
        | _ => Expr.bin op a b
    | _ =>
      if op.level ≤ b.level then Expr.bin op a b
      else
        match b with
        | Expr.bin ob bl br => Expr.bin ob (Expr.joinAux fuel op a bl) br
        | _ => Expr.bin op a b

/-- The derivation, in the shape read by script2.js, of the string of `a`
followed by the connective and the string of `b`. -/
def Expr.join (op : Connective) (a b : Expr) : Expr :=
  Expr.joinAux (a.nodes + b.nodes) op a b

/-- The derivation of the same string in the shape read by script2.js. -/
def Expr.norm : Expr → Expr
  | Expr.var v => Expr.var v
  | Expr.neg e => e.norm.negInto
  | Expr.paren e => Expr.paren e.norm
  | Expr.bin op a b => Expr.join op a.norm b.norm

/-- The formula tree of a derivation: parentheses are dropped. -/
def Expr.erase : Expr → Formula
  | Expr.var v => Formula.var v
  | Expr.neg e => Formula.not e.erase
  | Expr.paren e => e.erase
  | Expr.bin op a b => Formula.bin op.toBinOp a.erase b.erase

/-- The derivation without its outer parentheses. -/
def Expr.core : Expr → Expr
  | Expr.paren e => e.core
  | e => e

/-- The operator symbols of the grammar. -/
def connectiveSymbols : List Char := ['¬', '∧', '∨', '→', '↔']


/-! ### The shunting-yard loop on a derivation -/

/-- The tokens of the string of a derivation. -/
def Expr.tokens : Expr → List Str
  | Expr.var v => [v]
  | Expr.neg e => ['¬'] :: e.tokens
  | Expr.paren e => ['('] :: e.tokens ++ [[')']]
  | Expr.bin op a b => a.tokens ++ [op.symbol] :: b.tokens

/-- The rank of an operator symbol: ↔ 0, → 1, ∨ 2, ∧ 3, ¬ 4. -/
def rank (c : Char) : Nat :=
  if c = '↔' then 0 else if c = '→' then 1 else if c = '∨' then 2 else if c = '∧' then 3 else 4

/-- The root of the derivation is a right-associative operator: → or ¬. -/
def Expr.rootRight : Expr → Bool
  | Expr.bin Connective.IMPLIES _ _ => true
  | Expr.neg _ => true
  | _ => false

/-- The operator below a derivation read as the rest of a chain. -/
def pendOf : Option Connective → List Str
  | none => []
  | some op => [[op.symbol]]

/-- What the shunting-yard loop of script.js does while it reads the tokens
of a derivation in the shape read by script2.js: the tokens it appends to the
output and the operators it leaves on the stack, top first. With `some op`
the derivation is read right after a left-associative connective `op` that is
on top of the stack: a derivation with the same connective at its root
continues the chain, so that the waiting `op` is moved to the output when the
next `op` arrives; otherwise `op` stays below the operators left on the
stack. -/
def Expr.syOut : Expr → Option Connective → List Str × List Str
  | Expr.var v, p => ([v], pendOf p)
  | Expr.neg e, p => ((e.syOut none).1, (e.syOut none).2 ++ ['¬'] :: pendOf p)
  | Expr.paren e, p => ((e.syOut none).1 ++ (e.syOut none).2, pendOf p)
  | Expr.bin op a b, p =>
    if p = some op then
      ((a.syOut none).1 ++ (a.syOut none).2 ++ [op.symbol] :: (b.syOut (some op)).1,
        (b.syOut (some op)).2)
    else if op = Connective.IMPLIES then
      ((a.syOut none).1 ++ (a.syOut none).2 ++ (b.syOut none).1,
        (b.syOut none).2 ++ [op.symbol] :: pendOf p)
    else
      ((a.syOut none).1 ++ (a.syOut none).2 ++ (b.syOut (some op)).1,
        (b.syOut (some op)).2 ++ pendOf p)

/-- The operator stack lets the derivation be read without losing an
operator: its top is `(`, or an operator of lower rank than the root of the
derivation, or of the same rank when that root is right-associative. -/
def Admits (ctx : List Str) (T : Expr) : Prop :=
  ∀ top rest, ctx = top :: rest →
    top = ['('] ∨ ∃ c, top = [c] ∧ c ∈ connectiveSymbols ∧
      (rank c < T.level ∨ (rank c = T.level ∧ T.rootRight = true))

/-- The `while` loop run on the operator `token` pops nothing from the
stack. -/
def StopsAt (ctx : List Str) (token : Str) : Prop :=
  ∀ top rest, ctx = top :: rest → Script.shouldPop top token = false


/-- An edge of a gate graph: some connection goes from `x` to `y`. -/
def Edge (conns : List Script2.Connection) (x y : Str) : Prop :=
  ∃ conn ∈ conns, conn.fromGate = x ∧ conn.toGate = y

/-- The pre-order traversal of a gate graph from `node`, along the inputs of
the gates: a gate is listed before the gates reached from its inputs, and
these are visited from the first input to the last; a node that is not the
id of a gate (a variable) lists nothing. `fuel` bounds the depth. -/
def preorderFrom (gates : List Script2.Gate) : Nat → Str → List Str
  | 0, _ => []
  | fuel + 1, node =>
    match gates.find? (fun g => g.id = node) with
    | none => []
    | some g => node :: g.inputs.flatMap (preorderFrom gates fuel)

end Spec

namespace Script

/-! ## Properties of generateOrderedCombinations -/

theorem div_pow_mod_two_eq_zero_iff (r k : Nat) :
    decide (r / 2 ^ k % 2 = 0) = !r.testBit k := by
  rw [Nat.testBit_to_div_mod]
  rcases Nat.mod_two_eq_zero_or_one (r / 2 ^ k) with h | h <;> simp [h]

theorem generateOrderedCombinations_length (vars : List Str) :
    (generateOrderedCombinations vars).length = 2 ^ vars.length := by
  simp [generateOrderedCombinations]

/-- The row built for index `r`, by bits. -/
theorem generateOrderedCombinations_eq (vars : List Str) :
    generateOrderedCombinations vars =
      (List.range (2 ^ vars.length)).map fun r =>
        (List.range vars.length).map fun i => !r.testBit (vars.length - 1 - i) := by
  unfold generateOrderedCombinations
  simp only
  refine List.map_congr_left fun r _ => ?_
  have h : (vars.enum.map fun x : Nat × Str =>
        decide (r / 2 ^ (vars.length - x.1 - 1) % 2 = 0)) =
      (vars.enum.map Prod.fst).map fun i =>
        decide (r / 2 ^ (vars.length - i - 1) % 2 = 0) := by
    rw [List.map_map]; rfl
  rw [h, List.enum_map_fst]
  refine List.map_congr_left fun i _ => ?_
  rw [div_pow_mod_two_eq_zero_iff, Nat.sub_right_comm]

theorem generateOrderedCombinations_getElem? (vars : List Str) (r : Nat)
    (hr : r < 2 ^ vars.length) :
    (generateOrderedCombinations vars)[r]? =
      some ((List.range vars.length).map fun i => !r.testBit (vars.length - 1 - i)) := by
  rw [generateOrderedCombinations_eq, List.getElem?_map, List.getElem?_range hr]
  rfl

theorem bitRow_injOn (n r s : Nat) (hr : r < 2 ^ n) (hs : s < 2 ^ n)
    (h : ((List.range n).map fun i => !r.testBit (n - 1 - i)) =
      (List.range n).map fun i => !s.testBit (n - 1 - i)) : r = s := by
  apply Nat.eq_of_testBit_eq
  intro k
  by_cases hk : k < n
  · have hmem : n - 1 - k ∈ List.range n := List.mem_range.2 (by omega)
    have := List.map_inj_left.1 h (n - 1 - k) hmem
    have e : n - 1 - (n - 1 - k) = k := by omega
    simpa [e] using this
  · have hn : n ≤ k := Nat.le_of_not_lt hk
    rw [Nat.testBit_lt_two_pow (Nat.lt_of_lt_of_le hr (Nat.pow_le_pow_right (by decide) hn)),
      Nat.testBit_lt_two_pow (Nat.lt_of_lt_of_le hs (Nat.pow_le_pow_right (by decide) hn))]

/-- C1: for 1 ≤ n ≤ 6 variables, `generateOrderedCombinations` returns
exactly 2^n rows; row `r` has length n and its entry at position `i` is true
exactly when bit `n-1-i` of `r` is 0; the rows are pairwise distinct, the
first row is all true and the last row is all false. -/
theorem generateOrderedCombinations_canonical (vars : List Str)
    (h1 : 1 ≤ vars.length) (h6 : vars.length ≤ MAX_VARIABLES) :
    (generateOrderedCombinations vars).length = 2 ^ vars.length ∧
    (∀ r, r < 2 ^ vars.length →
      ∃ row, (generateOrderedCombinations vars)[r]? = some row ∧
        row.length = vars.length ∧
        ∀ i, i < vars.length →
          ∃ b, row[i]? = some b ∧ (b = true ↔ r.testBit (vars.length - 1 - i) = false)) ∧
    (generateOrderedCombinations vars).Nodup ∧
    (generateOrderedCombinations vars).head? = some (List.replicate vars.length true) ∧
    (generateOrderedCombinations vars).getLast? =
      some (List.replicate vars.length false) := by
  have _ := h1
  have _ := h6
  refine ⟨generateOrderedCombinations_length vars, ?_, ?_, ?_, ?_⟩
  · intro r hr
    refine ⟨_, generateOrderedCombinations_getElem? vars r hr, by simp, ?_⟩
    intro i hi
    refine ⟨!r.testBit (vars.length - 1 - i), ?_, by simp⟩
    rw [List.getElem?_map, List.getElem?_range hi]
    rfl
  · rw [generateOrderedCombinations_eq]
    refine List.Nodup.map_on ?_ (List.nodup_range _)
    intro r hr s hs h
    exact bitRow_injOn vars.length r s (List.mem_range.1 hr) (List.mem_range.1 hs) h
  · rw [List.head?_eq_getElem?,
      generateOrderedCombinations_getElem? vars 0 (Nat.pos_pow_of_pos _ (by decide))]
    congr 1
    apply List.ext_getElem?
    intro i
    by_cases hi : i < vars.length
    · rw [List.getElem?_map, List.getElem?_range hi, List.getElem?_replicate]
      simp [hi]
    · rw [List.getElem?_eq_none (by simpa using hi), List.getElem?_eq_none (by simpa using hi)]
  · rw [List.getLast?_eq_getElem?, generateOrderedCombinations_length,
      generateOrderedCombinations_getElem? vars (2 ^ vars.length - 1)
        (Nat.sub_lt (Nat.pos_pow_of_pos _ (by decide)) (by decide))]
    congr 1
    apply List.ext_getElem?
    intro i
    by_cases hi : i < vars.length
    · rw [List.getElem?_map, List.getElem?_range hi, List.getElem?_replicate]
      have : vars.length - 1 - i < vars.length := by omega
      simp [hi, this]
    · rw [List.getElem?_eq_none (by simpa using hi), List.getElem?_eq_none (by simpa using hi)]

/-- Witness for C1: the two variables p, q. -/
theorem generateOrderedCombinations_canonical_witness :
    generateOrderedCombinations [['p'], ['q']] =
      [[true, true], [true, false], [false, true], [false, false]] ∧
    (generateOrderedCombinations [['p'], ['q']]).Nodup :=
  ⟨by decide,
   (generateOrderedCombinations_canonical [['p'], ['q']] (by decide) (by decide)).2.2.1⟩

/-! ## The tokenizer -/

theorem flushRun_of_ne_nil {run : Str} (h : run ≠ []) : flushRun run = [run] := by
  simp [flushRun, h]

theorem matchTokensFrom_letters (ls : Str) (hls : ∀ c ∈ ls, isAsciiLetter c = true) :
    ∀ (run rest : Str), matchTokensFrom run (ls ++ rest) = matchTokensFrom (run ++ ls) rest := by
  induction ls with
  | nil => intro run rest; simp
  | cons c cs ih =>
    intro run rest
    have hc : isAsciiLetter c = true := hls c (List.mem_cons_self _ _)
    have hcs : ∀ d ∈ cs, isAsciiLetter d = true := fun d hd => hls d (List.mem_cons_of_mem _ hd)
    rw [List.cons_append, matchTokensFrom, if_pos hc, ih hcs]
    simp

theorem matchTokensFrom_nonletter (run : Str) (c : Char) (rest : Str)
    (hc : isAsciiLetter c = false) :
    matchTokensFrom run (c :: rest) = flushRun run ++ matchTokensFrom [] (c :: rest) := by
  simp only [matchTokensFrom, hc, Bool.false_eq_true, if_false]
  split <;> simp [flushRun]

theorem matchTokensFrom_symbol (c : Char) (rest : Str) (hc : isAsciiLetter c = false)
    (hs : isSymbolChar c = true) :
    matchTokensFrom [] (c :: rest) = [c] :: matchTokensFrom [] rest := by
  simp [matchTokensFrom, hc, hs, flushRun]

theorem matchTokensFrom_spaces (sp : Str) (hsp : ∀ c ∈ sp, c = ' ') (rest : Str) :
    matchTokensFrom [] (sp ++ rest) = matchTokensFrom [] rest := by
  induction sp with
  | nil => rfl
  | cons c cs ih =>
    have hc : c = ' ' := hsp c (List.mem_cons_self _ _)
    subst hc
    rw [List.cons_append, matchTokensFrom,
      if_neg (by decide), if_neg (by decide), ih fun d hd => hsp d (List.mem_cons_of_mem _ hd)]
    rfl

theorem matchTokensFrom_run_spaces (run sp : Str) (hsp : ∀ c ∈ sp, c = ' ') (c : Char)
    (rest : Str) (hc : isAsciiLetter c = false) :
    matchTokensFrom run (sp ++ c :: rest) = flushRun run ++ matchTokensFrom [] (c :: rest) := by
  cases sp with
  | nil => exact matchTokensFrom_nonletter run c rest hc
  | cons d ds =>
    have hd : d = ' ' := hsp d (List.mem_cons_self _ _)
    subst hd
    rw [List.cons_append, matchTokensFrom_nonletter run ' ' _ (by decide),
      ← List.cons_append, matchTokensFrom_spaces (' ' :: ds) hsp]

theorem matchTokens_name (v : Str) (hv : Spec.IsVariableName v) :
    matchTokensFrom [] v = [v] := by
  have := matchTokensFrom_letters v hv.2.1 [] []
  rw [List.append_nil, List.nil_append] at this
  rw [this, matchTokensFrom, flushRun_of_ne_nil hv.1]

/-! ## Single steps of the shunting-yard loop -/

theorem name_ne_paren {v : Str} (hv : Spec.IsVariableName v) : v ≠ ['('] ∧ v ≠ [')'] := by
  constructor <;> intro h <;> subst h
  · exact absurd (hv.2.1 '(' (List.mem_singleton_self _)) (by decide)
  · exact absurd (hv.2.1 ')' (List.mem_singleton_self _)) (by decide)

theorem shuntingStep_name {v : Str} (hv : Spec.IsVariableName v) (state : List Str × List Str) :
    shuntingStep state v = (state.1 ++ [v], state.2) := by
  unfold shuntingStep
  rw [if_neg (by simp [hv.2.2]), if_neg (name_ne_paren hv).1, if_neg (name_ne_paren hv).2]

theorem inOPERATORS_symbol {o : Char} (ho : o ∈ Spec.binarySymbols) :
    inOPERATORS [o] = true := by
  simp only [Spec.binarySymbols, List.mem_cons, List.mem_singleton, List.not_mem_nil,
    or_false] at ho
  rcases ho with h | h | h | h | h <;> subst h <;> decide

theorem shouldPop_symbols {o1 o2 : Char} (h1 : o1 ∈ Spec.binarySymbols)
    (h2 : o2 ∈ Spec.binarySymbols) :
    shouldPop [o1] [o2] =
      decide (Spec.specPrec o2 < Spec.specPrec o1 ∨
        (Spec.specPrec o1 = Spec.specPrec o2 ∧ Spec.specLeftAssoc o2 = true)) := by
  simp only [Spec.binarySymbols, List.mem_cons, List.mem_singleton, List.not_mem_nil,
    or_false] at h1 h2
  rcases h1 with h | h | h | h | h <;> subst h <;>
    rcases h2 with h | h | h | h | h <;> subst h <;> decide

theorem symbol_chars {o : Char} (ho : o ∈ Spec.binarySymbols) :
    isAsciiLetter o = false ∧ isSymbolChar o = true := by
  simp only [Spec.binarySymbols, List.mem_cons, List.mem_singleton, List.not_mem_nil,
    or_false] at ho
  rcases ho with h | h | h | h | h <;> subst h <;> decide

theorem shuntingStep_symbol {o : Char} (ho : o ∈ Spec.binarySymbols)
    (state : List Str × List Str) :
    shuntingStep state [o] =
      ((popOperators [o] state.1 state.2).1, [o] :: (popOperators [o] state.1 state.2).2) := by
  unfold shuntingStep
  rw [if_pos (inOPERATORS_symbol ho)]

/-! ## Precedence and associativity -/

theorem matchTokens_chain (x y z s1 s2 s3 s4 : Str) (o1 o2 : Char)
    (hx : Spec.IsVariableName x) (hy : Spec.IsVariableName y) (hz : Spec.IsVariableName z)
    (h1 : o1 ∈ Spec.binarySymbols) (h2 : o2 ∈ Spec.binarySymbols)
    (hs1 : ∀ c ∈ s1, c = ' ') (hs2 : ∀ c ∈ s2, c = ' ')
    (hs3 : ∀ c ∈ s3, c = ' ') (hs4 : ∀ c ∈ s4, c = ' ') :
    matchTokens (x ++ (s1 ++ o1 :: (s2 ++ (y ++ (s3 ++ o2 :: (s4 ++ z)))))) =
      [x, [o1], y, [o2], z] := by
  unfold matchTokens
  rw [matchTokensFrom_letters x hx.2.1, List.nil_append,
    matchTokensFrom_run_spaces x s1 hs1 o1 _ (symbol_chars h1).1, flushRun_of_ne_nil hx.1,
    matchTokensFrom_symbol o1 _ (symbol_chars h1).1 (symbol_chars h1).2,
    matchTokensFrom_spaces s2 hs2, matchTokensFrom_letters y hy.2.1, List.nil_append,
    matchTokensFrom_run_spaces y s3 hs3 o2 _ (symbol_chars h2).1, flushRun_of_ne_nil hy.1,
    matchTokensFrom_symbol o2 _ (symbol_chars h2).1 (symbol_chars h2).2,
    matchTokensFrom_spaces s4 hs4, matchTokens_name z hz]
  rfl

/-- For variable names x, y, z of the tokenizer (non-empty runs of ASCII
letters that do not pass the test `token in OPERATORS`) and binary operators
o1, o2 among ∧, ∨,
△, →, ↔, `shuntingYard` applied to the unparenthesized text `x o1 y o2 z`
(with any number of blanks, or none, around the operators) returns
[x, y, o1, z, o2] when o1 has strictly greater precedence than o2, or equal
precedence with o2 left-associative, and [x, y, z, o2, o1] otherwise, for the
precedences ∧ = 3, ∨ = 2, △ = 2, → = 1, ↔ = 1 with → right-associative and
the others left-associative; `p→q→r` groups as p→(q→r) and `p∨q∧r` as
p∨(q∧r). -/
theorem shuntingYard_precedence (x y z s1 s2 s3 s4 : Str) (o1 o2 : Char)
    (hx : Spec.IsVariableName x) (hy : Spec.IsVariableName y) (hz : Spec.IsVariableName z)
    (h1 : o1 ∈ Spec.binarySymbols) (h2 : o2 ∈ Spec.binarySymbols)
    (hs1 : ∀ c ∈ s1, c = ' ') (hs2 : ∀ c ∈ s2, c = ' ')
    (hs3 : ∀ c ∈ s3, c = ' ') (hs4 : ∀ c ∈ s4, c = ' ') :
    shuntingYard (x ++ (s1 ++ o1 :: (s2 ++ (y ++ (s3 ++ o2 :: (s4 ++ z)))))) =
      (if Spec.specPrec o2 < Spec.specPrec o1 ∨
          (Spec.specPrec o1 = Spec.specPrec o2 ∧ Spec.specLeftAssoc o2 = true)
        then [x, y, [o1], z, [o2]] else [x, y, z, [o2], [o1]]) ∧
    shuntingYard "p→q→r".toList = [['p'], ['q'], ['r'], ['→'], ['→']] ∧
    shuntingYard "p∨q∧r".toList = [['p'], ['q'], ['r'], ['∧'], ['∨']] := by
  refine ⟨?_, by decide, by decide⟩
  unfold shuntingYard
  simp only [matchTokens_chain x y z s1 s2 s3 s4 o1 o2 hx hy hz h1 h2 hs1 hs2 hs3 hs4,
    List.foldl_cons, List.foldl_nil, shuntingStep_name hx, shuntingStep_name hy,
    shuntingStep_name hz, shuntingStep_symbol h1, shuntingStep_symbol h2, popOperators,
    shouldPop_symbols h1 h2, List.nil_append]
  by_cases hc : Spec.specPrec o2 < Spec.specPrec o1 ∨
      (Spec.specPrec o1 = Spec.specPrec o2 ∧ Spec.specLeftAssoc o2 = true)
  · simp [hc, popOperators]
  · simp [hc]

/-- An instance: `p ∧ q ∨ r`, with blanks around the operators. -/
theorem shuntingYard_precedence_witness :
    shuntingYard "p ∧ q ∨ r".toList = [['p'], ['q'], ['∧'], ['r'], ['∨']] :=
  (shuntingYard_precedence ['p'] ['q'] ['r'] [' '] [' '] [' '] [' '] '∧' '∨'
    (by decide) (by decide) (by decide) (by decide) (by decide)
    (by decide) (by decide) (by decide) (by decide)).1

/-- C3: on `constructor∧q∨r`, with the variable names constructor, q and r
and ∧ of greater precedence than ∨, `shuntingYard` returns
[q, ∧, r, ∨, constructor] and not [constructor, q, ∧, r, ∨]: the letter run
`constructor` passes the test `token in OPERATORS`, so it is pushed on the
operator stack, where no operator pops it, and it reaches the output last.
On `p∧q∨r` the function returns [p, q, ∧, r, ∨]. -/
theorem shuntingYard_inherited_name :
    shuntingYard "constructor∧q∨r".toList =
      [['q'], ['∧'], ['r'], ['∨'], "constructor".toList] ∧
    shuntingYard "p∧q∨r".toList = [['p'], ['q'], ['∧'], ['r'], ['∨']] := by
  constructor <;> decide

/-! ## Fully parenthesized formulas: tokens, postfix form, value -/

theorem binop_symbol_mem (op : Spec.BinOp) : op.symbol ∈ Spec.binarySymbols := by
  cases op <;> decide

theorem matchTokensFrom_render (t : Spec.Formula) :
    (∀ v ∈ t.vars, Spec.IsVariableName v) →
    ∀ rest : Str, (∀ c, rest.head? = some c → isAsciiLetter c = false) →
      matchTokensFrom [] (t.render ++ rest) = t.tokens ++ matchTokensFrom [] rest := by
  induction t with
  | var v =>
    intro hv rest hrest
    have hname : Spec.IsVariableName v := hv v (List.mem_singleton_self _)
    simp only [Spec.Formula.render, Spec.Formula.tokens]
    rw [matchTokensFrom_letters v hname.2.1, List.nil_append]
    cases rest with
    | nil => simp [matchTokensFrom, flushRun, hname.1]
    | cons c cs =>
      rw [matchTokensFrom_nonletter v c cs (hrest c rfl), flushRun_of_ne_nil hname.1]
  | not a ih =>
    intro hv rest hrest
    simp only [Spec.Formula.render, Spec.Formula.tokens, List.cons_append]
    rw [matchTokensFrom_symbol '¬' _ (by decide) (by decide), ih hv rest hrest]
  | bin op a b iha ihb =>
    intro hv rest hrest
    have hva : ∀ v ∈ a.vars, Spec.IsVariableName v := fun v h =>
      hv v (by simp [Spec.Formula.vars, h])
    have hvb : ∀ v ∈ b.vars, Spec.IsVariableName v := fun v h =>
      hv v (by simp [Spec.Formula.vars, h])
    have hop := symbol_chars (binop_symbol_mem op)
    simp only [Spec.Formula.render, Spec.Formula.tokens, List.cons_append, List.append_assoc]
    rw [matchTokensFrom_symbol '(' _ (by decide) (by decide),
      iha hva _ (by intro c hc; simp at hc; subst hc; exact hop.1),
      matchTokensFrom_symbol op.symbol _ hop.1 hop.2,
      ihb hvb _ (by intro c hc; simp at hc; subst hc; decide),
      List.nil_append, matchTokensFrom_symbol ')' _ (by decide) (by decide)]
    simp

theorem matchTokens_render (t : Spec.Formula) (hv : ∀ v ∈ t.vars, Spec.IsVariableName v) :
    matchTokens t.render = t.tokens := by
  have := matchTokensFrom_render t hv [] (by simp)
  simpa [matchTokens, matchTokensFrom, flushRun] using this

theorem postfixForm_eq_core (t : Spec.Formula) :
    t.postfixForm = t.core ++ List.replicate t.pending ['¬'] := by
  induction t with
  | var v => simp [Spec.Formula.postfixForm, Spec.Formula.core, Spec.Formula.pending]
  | not a ih =>
    simp only [Spec.Formula.postfixForm, Spec.Formula.core, Spec.Formula.pending, ih,
      List.replicate_succ', List.append_assoc]
  | bin op a b _ _ => simp [Spec.Formula.postfixForm, Spec.Formula.core, Spec.Formula.pending]

theorem shouldPop_neg (top : Str) : shouldPop top ['¬'] = false := by
  have hp : prec ['¬'] = some 4 := by decide
  have ha : assoc ['¬'] = some Assoc.right := by decide
  unfold shouldPop
  rw [hp, ha]
  have : precGt (prec top) (some 4) = false := by
    unfold prec
    split_ifs <;> decide
  simp [this]

theorem popOperators_neg (output operators : List Str) :
    popOperators ['¬'] output operators = (output, operators) := by
  cases operators with
  | nil => rfl
  | cons top ops => simp [popOperators, shouldPop_neg]

theorem shuntingStep_neg (state : List Str × List Str) :
    shuntingStep state ['¬'] = (state.1, ['¬'] :: state.2) := by
  unfold shuntingStep
  rw [if_pos (by decide)]
  simp [popOperators_neg]

theorem shouldPop_neg_top {o : Char} (ho : o ∈ Spec.binarySymbols) :
    shouldPop ['¬'] [o] = true := by
  simp only [Spec.binarySymbols, List.mem_cons, List.mem_singleton, List.not_mem_nil,
    or_false] at ho
  rcases ho with h | h | h | h | h <;> subst h <;> decide

theorem popOperators_pending {o : Char} (ho : o ∈ Spec.binarySymbols) (k : Nat) :
    ∀ (output operators : List Str),
      popOperators [o] output (List.replicate k ['¬'] ++ ['('] :: operators) =
        (output ++ List.replicate k ['¬'], ['('] :: operators) := by
  induction k with
  | zero =>
    intro output operators
    simp [popOperators, shouldPop]
  | succ k ih =>
    intro output operators
    rw [List.replicate_succ, List.cons_append, popOperators, if_pos (shouldPop_neg_top ho), ih]
    simp

theorem popToParen_pending (k : Nat) : ∀ (output operators : List Str) (o : Str),
    o ≠ ['('] →
    popToParen output (List.replicate k ['¬'] ++ o :: ['('] :: operators) =
      (output ++ List.replicate k ['¬'] ++ [o], ['('] :: operators) := by
  induction k with
  | zero =>
    intro output operators o ho
    simp [popToParen, ho]
  | succ k ih =>
    intro output operators o ho
    rw [List.replicate_succ, List.cons_append, popToParen, if_pos (by decide), ih _ _ _ ho]
    simp

theorem foldl_shuntingStep_tokens (t : Spec.Formula) :
    (∀ v ∈ t.vars, Spec.IsVariableName v) →
    ∀ (output operators rest : List Str),
      (t.tokens ++ rest).foldl shuntingStep (output, operators) =
        rest.foldl shuntingStep
          (output ++ t.core, List.replicate t.pending ['¬'] ++ operators) := by
  induction t with
  | var v =>
    intro hv output operators rest
    have hname : Spec.IsVariableName v := hv v (List.mem_singleton_self _)
    simp [Spec.Formula.tokens, Spec.Formula.core, Spec.Formula.pending,
      shuntingStep_name hname]
  | not a ih =>
    intro hv output operators rest
    simp only [Spec.Formula.tokens, Spec.Formula.core, Spec.Formula.pending,
      List.cons_append, List.foldl_cons, shuntingStep_neg]
    rw [ih hv]
    simp [List.replicate_succ', List.append_assoc]
  | bin op a b iha ihb =>
    intro hv output operators rest
    have hva : ∀ v ∈ a.vars, Spec.IsVariableName v := fun v h =>
      hv v (by simp [Spec.Formula.vars, h])
    have hvb : ∀ v ∈ b.vars, Spec.IsVariableName v := fun v h =>
      hv v (by simp [Spec.Formula.vars, h])
    have hop := binop_symbol_mem op
    have hne : [op.symbol] ≠ ['('] := by cases op <;> decide
    have hopen : shuntingStep (output, operators) ['('] = (output, ['('] :: operators) := by
      unfold shuntingStep
      rw [if_neg (by decide), if_pos rfl]
    have hclose : ∀ state : List Str × List Str, shuntingStep state [')'] =
        ((popToParen state.1 state.2).1, (popToParen state.1 state.2).2.tail) := by
      intro state
      unfold shuntingStep
      rw [if_neg (by decide), if_neg (by decide), if_pos rfl]
    simp only [Spec.Formula.tokens, Spec.Formula.core, Spec.Formula.pending,
      List.cons_append, List.append_assoc, List.foldl_cons, hopen]
    rw [iha hva]
    simp only [List.foldl_cons, shuntingStep_symbol hop, popOperators_pending hop]
    rw [ihb hvb]
    simp only [List.foldl_cons, List.nil_append, hclose, List.singleton_append]
    rw [popToParen_pending _ _ _ _ hne]
    simp [postfixForm_eq_core, List.append_assoc]

theorem shuntingYard_render (t : Spec.Formula) (hv : ∀ v ∈ t.vars, Spec.IsVariableName v) :
    shuntingYard t.render = t.postfixForm := by
  unfold shuntingYard
  have := foldl_shuntingStep_tokens t hv [] [] []
  rw [List.append_nil] at this
  simp [matchTokens_render t hv, this, postfixForm_eq_core]

theorem evalStep_name {v : Str} (hv : Spec.IsVariableName v) (context : Obj)
    (stack : List JSVal) :
    evalStep context stack v = Except.ok (contextGet context v :: stack) := by
  unfold evalStep
  rw [if_neg (by simp [hv.2.2])]

theorem evalStep_neg (context : Obj) (x : Bool) (stack : List JSVal) :
    evalStep context (JSVal.bool x :: stack) ['¬'] = Except.ok (JSVal.bool (!x) :: stack) := by
  unfold evalStep
  rw [if_pos (by decide), if_pos rfl]
  rfl

theorem evalStep_binary (context : Obj) (op : Spec.BinOp) (x y : Bool) (stack : List JSVal) :
    evalStep context (JSVal.bool y :: JSVal.bool x :: stack) [op.symbol] =
      Except.ok (JSVal.bool (op.apply x y) :: stack) := by
  have hne : [op.symbol] ≠ ['¬'] := by cases op <;> decide
  have happ : applyBinary [op.symbol] (JSVal.bool x) (JSVal.bool y) =
      some (JSVal.bool (op.apply x y)) := by
    cases op <;> cases x <;> cases y <;> decide
  unfold evalStep
  rw [if_pos (inOPERATORS_symbol (binop_symbol_mem op)), if_neg hne]
  simp only [stackPop, happ]

theorem evalTokens_postfixForm (context : Obj) (σ : Str → Bool) (t : Spec.Formula) :
    (∀ v ∈ t.vars, Spec.IsVariableName v) →
    (∀ v ∈ t.vars, context.get v = some (σ v)) →
    ∀ (stack : List JSVal) (rest : List Str),
      evalTokens context stack (t.postfixForm ++ rest) =
        evalTokens context (JSVal.bool (t.value σ) :: stack) rest := by
  induction t with
  | var v =>
    intro hv hc stack rest
    have hname : Spec.IsVariableName v := hv v (List.mem_singleton_self _)
    have hget : context.get v = some (σ v) := hc v (List.mem_singleton_self _)
    simp only [Spec.Formula.postfixForm, Spec.Formula.value, List.singleton_append, evalTokens,
      evalStep_name hname, contextGet, hget]
    rfl
  | not a ih =>
    intro hv hc stack rest
    simp only [Spec.Formula.postfixForm, Spec.Formula.value, List.append_assoc,
      List.singleton_append]
    rw [ih hv hc]
    simp only [evalTokens, evalStep_neg]
  | bin op a b iha ihb =>
    intro hv hc stack rest
    have hva : ∀ v ∈ a.vars, Spec.IsVariableName v := fun v h =>
      hv v (by simp [Spec.Formula.vars, h])
    have hvb : ∀ v ∈ b.vars, Spec.IsVariableName v := fun v h =>
      hv v (by simp [Spec.Formula.vars, h])
    have hca : ∀ v ∈ a.vars, context.get v = some (σ v) := fun v h =>
      hc v (by simp [Spec.Formula.vars, h])
    have hcb : ∀ v ∈ b.vars, context.get v = some (σ v) := fun v h =>
      hc v (by simp [Spec.Formula.vars, h])
    simp only [Spec.Formula.postfixForm, Spec.Formula.value, List.append_assoc,
      List.singleton_append]
    rw [iha hva hca, ihb hvb hcb]
    simp only [evalTokens, evalStep_binary]

/-- C2: for a formula tree `t` whose variable names are non-empty runs of
ASCII letters that are not keys of the operator table, and a context that
gives every variable of `t` its value under `σ`,
`evaluateParsedExpression` applied to the fully parenthesized rendering of
`t` returns the value of `t` under NOT a = ¬a, AND = a∧b, OR = a∨b,
XOR = a≠b, IMPLIES = ¬a∨b, IFF = (a=b). -/
theorem evaluateParsedExpression_render (t : Spec.Formula) (context : Obj) (σ : Str → Bool)
    (hv : ∀ v ∈ t.vars, Spec.IsVariableName v)
    (hc : ∀ v ∈ t.vars, context.get v = some (σ v)) :
    evaluateParsedExpression t.render context = Except.ok (JSVal.bool (t.value σ)) := by
  unfold evaluateParsedExpression
  have h := evalTokens_postfixForm context σ t hv hc [] []
  rw [List.append_nil] at h
  rw [shuntingYard_render t hv, h]
  rfl

/-- Witness for C2: the tree of `((p→q)△(q→p))` under p = true, q = false. -/
theorem evaluateParsedExpression_render_witness :
    evaluateParsedExpression "((p→q)△(q→p))".toList [(['p'], true), (['q'], false)] =
      Except.ok (JSVal.bool true) :=
  evaluateParsedExpression_render
    (Spec.Formula.bin Spec.BinOp.XOR
      (Spec.Formula.bin Spec.BinOp.IMPLIES (Spec.Formula.var ['p']) (Spec.Formula.var ['q']))
      (Spec.Formula.bin Spec.BinOp.IMPLIES (Spec.Formula.var ['q']) (Spec.Formula.var ['p'])))
    [(['p'], true), (['q'], false)] (fun v => decide (v = ['p']))
    (by decide) (by decide)

/-! ## Maximal letter runs and the tokens of the tokenizer -/

theorem eq_nil_or_snoc (l : Str) : l = [] ∨ ∃ p c, l = p ++ [c] := by
  rcases List.eq_nil_or_concat l with h | ⟨p, c, h⟩
  · exact Or.inl h
  · exact Or.inr ⟨p, c, by rw [h, List.concat_eq_append]⟩

theorem maximalRun_of_letters (w tok : Str) (hw : ∀ c ∈ w, isAsciiLetter c = true) :
    Spec.IsMaximalLetterRun w tok ↔ w ≠ [] ∧ tok = w := by
  constructor
  · rintro ⟨hne, _, pre, post, heq, hpre, hpost⟩
    have hpre' : pre = [] := by
      rcases eq_nil_or_snoc pre with h | ⟨p, c, h⟩
      · exact h
      · exfalso
        have h1 := hpre c (by rw [h]; simp)
        have h2 := hw c (by rw [heq, h]; simp)
        rw [h1] at h2
        exact Bool.noConfusion h2
    have hpost' : post = [] := by
      cases post with
      | nil => rfl
      | cons c cs =>
        exfalso
        have h1 := hpost c rfl
        have h2 := hw c (by rw [heq]; simp)
        rw [h1] at h2
        exact Bool.noConfusion h2
    subst hpre' hpost'
    simp only [List.nil_append, List.append_nil] at heq
    subst heq
    exact ⟨hne, rfl⟩
  · rintro ⟨hne, rfl⟩
    exact ⟨hne, hw, [], [], by simp, by simp, by simp⟩

theorem maximalRun_split (a b tok : Str) (c : Char) (hc : isAsciiLetter c = false) :
    Spec.IsMaximalLetterRun (a ++ c :: b) tok ↔
      Spec.IsMaximalLetterRun a tok ∨ Spec.IsMaximalLetterRun b tok := by
  constructor
  · rintro ⟨hne, hl, pre, post, heq, hpre, hpost⟩
    have hctok : c ∉ tok := fun h => by
      have := hl c h
      rw [hc] at this
      exact Bool.noConfusion this
    rw [List.append_assoc] at heq
    rcases List.append_eq_append_iff.1 heq with ⟨a', h1, h2⟩ | ⟨c', h1, h2⟩
    · -- `pre = a ++ a'` and `c :: b = a' ++ (tok ++ post)`
      cases a' with
      | nil =>
        exfalso
        simp only [List.nil_append] at h2
        cases tok with
        | nil => exact hne rfl
        | cons t ts =>
          simp only [List.cons_append, List.cons.injEq] at h2
          exact hctok (by rw [h2.1]; exact List.mem_cons_self _ _)
      | cons d ds =>
        simp only [List.cons_append, List.cons.injEq] at h2
        obtain ⟨_, h2⟩ := h2
        right
        refine ⟨hne, hl, ds, post, by rw [h2, List.append_assoc], ?_, hpost⟩
        intro x hx
        apply hpre x
        rw [h1, List.getLast?_append, List.getLast?_cons]
        rcases eq_nil_or_snoc ds with h | ⟨p, y, h⟩
        · subst h; simp at hx
        · subst h
          simp only [List.getLast?_append, List.getLast?_singleton, Option.or_some,
            Option.some.injEq] at hx
          subst hx
          simp
    · -- `a = pre ++ c'` and `tok ++ post = c' ++ c :: b`
      rcases List.append_eq_append_iff.1 h2 with ⟨d, h3, h4⟩ | ⟨d, h3, h4⟩
      · -- `c' = tok ++ d` and `post = d ++ c :: b`
        left
        refine ⟨hne, hl, pre, d, by rw [h1, h3, List.append_assoc], hpre, ?_⟩
        intro x hx
        apply hpost x
        rw [h4, List.head?_append, hx]
        rfl
      · -- `tok = c' ++ d` and `c :: b = d ++ post`
        cases d with
        | nil =>
          left
          simp only [List.append_nil] at h3
          subst h3
          refine ⟨hne, hl, pre, [], by rw [h1]; simp, hpre, by simp⟩
        | cons e es =>
          exfalso
          simp only [List.cons_append, List.cons.injEq] at h4
          apply hctok
          rw [h3, h4.1]
          simp
  · rintro (⟨hne, hl, pre, post, heq, hpre, hpost⟩ | ⟨hne, hl, pre, post, heq, hpre, hpost⟩)
    · refine ⟨hne, hl, pre, post ++ c :: b, by rw [heq]; simp, hpre, ?_⟩
      intro x hx
      cases post with
      | nil =>
        simp only [List.nil_append, List.head?_cons, Option.some.injEq] at hx
        subst hx; exact hc
      | cons y ys => exact hpost x (by simpa using hx)
    · refine ⟨hne, hl, a ++ c :: pre, post, by rw [heq]; simp, ?_, hpost⟩
      intro x hx
      rcases eq_nil_or_snoc pre with h | ⟨p, y, h⟩
      · subst h
        simp only [List.getLast?_append, List.getLast?_singleton, Option.or_some,
          Option.some.injEq] at hx
        subst hx; exact hc
      · subst h
        apply hpre x
        rw [← List.cons_append, ← List.append_assoc, List.getLast?_concat] at hx
        rw [List.getLast?_concat]
        exact hx

theorem mem_flushRun (run tok : Str) : tok ∈ flushRun run ↔ run ≠ [] ∧ tok = run := by
  unfold flushRun
  split <;> rename_i h
  · simp [h]
  · simp only [List.mem_singleton, ne_eq, h, not_false_eq_true, true_and]

theorem letterToken_iff_maximalRun (s : Str) : ∀ (run tok : Str),
    (∀ c ∈ run, isAsciiLetter c = true) →
    ((tok ∈ matchTokensFrom run s ∧ tok ≠ [] ∧ ∀ c ∈ tok, isAsciiLetter c = true) ↔
      Spec.IsMaximalLetterRun (run ++ s) tok) := by
  induction s with
  | nil =>
    intro run tok hrun
    rw [List.append_nil, maximalRun_of_letters run tok hrun, matchTokensFrom, mem_flushRun]
    constructor
    · rintro ⟨h, _, _⟩; exact h
    · rintro ⟨h1, h2⟩
      exact ⟨⟨h1, h2⟩, h2 ▸ h1, h2 ▸ hrun⟩
  | cons c cs ih =>
    intro run tok hrun
    by_cases hc : isAsciiLetter c = true
    · have hrun' : ∀ d ∈ run ++ [c], isAsciiLetter d = true := by
        intro d hd
        rcases List.mem_append.1 hd with h | h
        · exact hrun d h
        · rw [List.mem_singleton.1 h]; exact hc
      rw [matchTokensFrom, if_pos hc, ih (run ++ [c]) tok hrun']
      simp
    · have hc' : isAsciiLetter c = false := by simpa using hc
      have hsingle : ¬ ∀ d ∈ [c], isAsciiLetter d = true := fun h =>
        hc (h c (List.mem_singleton_self _))
      have ih0 := ih [] tok (by simp)
      rw [List.nil_append] at ih0
      rw [maximalRun_split run cs tok c hc', maximalRun_of_letters run tok hrun, ← ih0,
        matchTokensFrom, if_neg hc]
      constructor
      · rintro ⟨hmem, hne, hl⟩
        split at hmem
        · rcases List.mem_append.1 hmem with h | h
          · exact Or.inl ((mem_flushRun _ _).1 h)
          · rcases List.mem_cons.1 h with h | h
            · subst h; exact absurd hl hsingle
            · exact Or.inr ⟨h, hne, hl⟩
        · rcases List.mem_append.1 hmem with h | h
          · exact Or.inl ((mem_flushRun _ _).1 h)
          · exact Or.inr ⟨h, hne, hl⟩
      · rintro (⟨h1, h2⟩ | ⟨hmem, hne, hl⟩)
        · refine ⟨?_, h2 ▸ h1, h2 ▸ hrun⟩
          split <;> exact List.mem_append_left _ ((mem_flushRun _ _).2 ⟨h1, h2⟩)
        · refine ⟨?_, hne, hl⟩
          split
          · exact List.mem_append_right _ (List.mem_cons_of_mem _ hmem)
          · exact List.mem_append_right _ hmem

theorem matchTokensFrom_kinds (s : Str) : ∀ (run tok : Str),
    (∀ c ∈ run, isAsciiLetter c = true) → tok ∈ matchTokensFrom run s →
    (tok ≠ [] ∧ ∀ c ∈ tok, isAsciiLetter c = true) ∨ ∃ c, tok = [c] ∧ isSymbolChar c = true := by
  induction s with
  | nil =>
    intro run tok hrun hmem
    rw [matchTokensFrom, mem_flushRun] at hmem
    exact Or.inl ⟨hmem.2 ▸ hmem.1, hmem.2 ▸ hrun⟩
  | cons c cs ih =>
    intro run tok hrun hmem
    rw [matchTokensFrom] at hmem
    split at hmem
    · rename_i hc
      refine ih (run ++ [c]) tok ?_ hmem
      intro d hd
      rcases List.mem_append.1 hd with h | h
      · exact hrun d h
      · rw [List.mem_singleton.1 h]; exact hc
    · split at hmem
      · rename_i hs
        rcases List.mem_append.1 hmem with h | h
        · rw [mem_flushRun] at h
          exact Or.inl ⟨h.2 ▸ h.1, h.2 ▸ hrun⟩
        · rcases List.mem_cons.1 h with h | h
          · exact Or.inr ⟨c, h, hs⟩
          · exact ih [] tok (by simp) h
      · rcases List.mem_append.1 hmem with h | h
        · rw [mem_flushRun] at h
          exact Or.inl ⟨h.2 ▸ h.1, h.2 ▸ hrun⟩
        · exact ih [] tok (by simp) h

/-! ## The tokens kept by the shunting-yard loop -/

theorem popOperators_append (token : Str) (operators : List Str) : ∀ output : List Str,
    (popOperators token output operators).1 ++ (popOperators token output operators).2 =
      output ++ operators := by
  induction operators with
  | nil => intro output; rfl
  | cons top ops ih =>
    intro output
    rw [popOperators]
    split
    · rw [ih]; simp
    · rfl

theorem popToParen_append (operators : List Str) : ∀ output : List Str,
    (popToParen output operators).1 ++ (popToParen output operators).2 = output ++ operators ∧
      ((popToParen output operators).2 = [] ∨
        ∃ rest, (popToParen output operators).2 = ['('] :: rest) := by
  induction operators with
  | nil => intro output; exact ⟨rfl, Or.inl rfl⟩
  | cons top ops ih =>
    intro output
    rw [popToParen]
    split
    · obtain ⟨h1, h2⟩ := ih (output ++ [top])
      exact ⟨by rw [h1]; simp, h2⟩
    · rename_i h
      have : top = ['('] := by simpa using h
      exact ⟨rfl, Or.inr ⟨ops, by rw [this]⟩⟩

theorem mem_shuntingStep (state : List Str × List Str) (token tok : Str)
    (h1 : tok ≠ ['(']) (h2 : tok ≠ [')']) :
    tok ∈ (shuntingStep state token).1 ++ (shuntingStep state token).2 ↔
      tok ∈ state.1 ++ state.2 ∨ tok = token := by
  unfold shuntingStep
  split
  · simp only [List.mem_append, List.mem_cons]
    have := popOperators_append token state.2 state.1
    have hm : tok ∈ (popOperators token state.1 state.2).1 ++
        (popOperators token state.1 state.2).2 ↔ tok ∈ state.1 ++ state.2 := by rw [this]
    simp only [List.mem_append] at hm
    constructor
    · rintro (h | h | h)
      · exact Or.inl (hm.1 (Or.inl h))
      · exact Or.inr h
      · exact Or.inl (hm.1 (Or.inr h))
    · rintro (h | h)
      · rcases hm.2 h with h | h
        · exact Or.inl h
        · exact Or.inr (Or.inr h)
      · exact Or.inr (Or.inl h)
  · split
    · rename_i _ h
      subst h
      simp only [List.mem_append, List.mem_cons, h1, false_or, or_false]
    · split
      · rename_i _ _ h
        subst h
        obtain ⟨ha, hb⟩ := popToParen_append state.2 state.1
        have hm : tok ∈ (popToParen state.1 state.2).1 ++ (popToParen state.1 state.2).2 ↔
            tok ∈ state.1 ++ state.2 := by rw [ha]
        simp only [h2, or_false]
        rw [← hm]
        rcases hb with hb | ⟨rest, hb⟩
        · rw [hb]; rfl
        · rw [hb]
          simp only [List.tail_cons, List.mem_append, List.mem_cons, h1, false_or]
      · simp only [List.mem_append, List.mem_singleton]
        constructor
        · rintro ((h | h) | h)
          · exact Or.inl (Or.inl h)
          · exact Or.inr h
          · exact Or.inl (Or.inr h)
        · rintro ((h | h) | h)
          · exact Or.inl (Or.inl h)
          · exact Or.inr h
          · exact Or.inl (Or.inr h)

theorem mem_foldl_shuntingStep (tokens : List Str) (tok : Str)
    (h1 : tok ≠ ['(']) (h2 : tok ≠ [')']) : ∀ state : List Str × List Str,
    tok ∈ (tokens.foldl shuntingStep state).1 ++ (tokens.foldl shuntingStep state).2 ↔
      tok ∈ state.1 ++ state.2 ∨ tok ∈ tokens := by
  induction tokens with
  | nil => intro state; simp
  | cons t ts ih =>
    intro state
    rw [List.foldl_cons, ih, mem_shuntingStep state t tok h1 h2, List.mem_cons, or_assoc]

theorem mem_shuntingYard (expr tok : Str) (h1 : tok ≠ ['(']) (h2 : tok ≠ [')']) :
    tok ∈ shuntingYard expr ↔ tok ∈ matchTokens expr := by
  unfold shuntingYard
  simp only
  rw [mem_foldl_shuntingStep _ tok h1 h2]
  simp

theorem undeclared_iff (vars : List Str) (t : Str) :
    (!inOPERATORS t && !([['('], [')']].contains t) && !vars.contains t) = true ↔
      ¬ (inOPERATORS t = true ∨ t = ['('] ∨ t = [')'] ∨ t ∈ vars) := by
  by_cases h1 : inOPERATORS t = true <;> by_cases h2 : t = ['('] <;>
    by_cases h3 : t = [')'] <;> by_cases h4 : t ∈ vars <;> simp [h1, h2, h3, h4]

theorem firstUndeclared_eq_none (vars tokens : List Str) :
    firstUndeclared vars tokens = none ↔
      ∀ tok ∈ tokens, inOPERATORS tok = true ∨ tok = ['('] ∨ tok = [')'] ∨ tok ∈ vars := by
  induction tokens with
  | nil => simp [firstUndeclared]
  | cons t ts ih =>
    rw [firstUndeclared]
    split
    · rename_i h
      simp only [false_iff, reduceCtorEq]
      intro hall
      exact (undeclared_iff vars t).1 h (hall t (List.mem_cons_self _ _))
    · rename_i h
      rw [ih]
      have ht : inOPERATORS t = true ∨ t = ['('] ∨ t = [')'] ∨ t ∈ vars :=
        not_not.1 fun hn => h ((undeclared_iff vars t).2 hn)
      constructor
      · intro hall tok hmem
        rcases List.mem_cons.1 hmem with h' | h'
        · subst h'; exact ht
        · exact hall tok h'
      · intro hall tok hmem
        exact hall tok (List.mem_cons_of_mem _ hmem)

/-! ## Validity reported by parseExpression -/

theorem symbolToken_ok (c : Char) (hs : isSymbolChar c = true) :
    inOPERATORS [c] = true ∨ [c] = ['('] ∨ [c] = [')'] := by
  simp only [isSymbolChar, Bool.or_eq_true, decide_eq_true_eq] at hs
  rcases hs with ((((((h | h) | h) | h) | h) | h) | h) | h <;> subst h <;> decide

theorem letters_inOPERATORS (tok : Str) (hl : ∀ c ∈ tok, isAsciiLetter c = true) :
    inOPERATORS tok = true ↔ tok ∈ Script.objectPrototypeKeys := by
  have hnot : tok ∉ operatorKeys := by
    intro h
    simp only [operatorKeys, List.mem_cons, List.mem_singleton, List.not_mem_nil,
      or_false] at h
    rcases h with h | h | h | h | h | h <;> subst h <;>
      exact absurd (hl _ (List.mem_singleton_self _)) (by decide)
  simp [inOPERATORS, hnot]

theorem letters_ne_paren (tok : Str) (hne : tok ≠ [])
    (hl : ∀ c ∈ tok, isAsciiLetter c = true) : tok ≠ ['('] ∧ tok ≠ [')'] := by
  have _ := hne
  constructor <;> intro h <;> subst h <;>
    exact absurd (hl _ (List.mem_singleton_self _)) (by decide)

theorem parseExpression_valid (expr : Str) (vars : List Str) :
    (parseExpression expr vars).valid = true ↔
      firstUndeclared vars (shuntingYard expr) = none := by
  unfold parseExpression
  simp only
  split <;> rename_i h <;> simp [ParseResult.valid, h]

theorem parseExpression_valid_iff_runs (expr : Str) (vars : List Str) :
    (parseExpression expr vars).valid = true ↔
      ∀ run, Spec.IsMaximalLetterRun expr run →
        run ∈ Script.objectPrototypeKeys ∨ run ∈ vars := by
  rw [parseExpression_valid, firstUndeclared_eq_none]
  constructor
  · intro hall run hrun
    have hrun' : Spec.IsMaximalLetterRun ([] ++ expr) run := by simpa using hrun
    obtain ⟨hmem, hne, hl⟩ := (letterToken_iff_maximalRun expr [] run (by simp)).2 hrun'
    obtain ⟨hp1, hp2⟩ := letters_ne_paren run hne hl
    rcases hall run ((mem_shuntingYard expr run hp1 hp2).2 hmem) with h | h | h | h
    · exact Or.inl ((letters_inOPERATORS run hl).1 h)
    · exact absurd h hp1
    · exact absurd h hp2
    · exact Or.inr h
  · intro hall tok hmem
    by_cases hp1 : tok = ['(']
    · exact Or.inr (Or.inl hp1)
    by_cases hp2 : tok = [')']
    · exact Or.inr (Or.inr (Or.inl hp2))
    have hmem' := (mem_shuntingYard expr tok hp1 hp2).1 hmem
    rcases matchTokensFrom_kinds expr [] tok (by simp) hmem' with ⟨hne, hl⟩ | ⟨c, hc, hs⟩
    · have hrun : Spec.IsMaximalLetterRun ([] ++ expr) tok :=
        (letterToken_iff_maximalRun expr [] tok (by simp)).1 ⟨hmem', hne, hl⟩
      rcases hall tok (by simpa using hrun) with h | h
      · exact Or.inl ((letters_inOPERATORS tok hl).2 h)
      · exact Or.inr (Or.inr (Or.inr h))
    · subst hc
      rcases symbolToken_ok c hs with h | h | h
      · exact Or.inl h
      · exact Or.inr (Or.inl h)
      · exact Or.inr (Or.inr (Or.inl h))

/-- C5: `parseExpression` reports an expression as valid exactly when every
maximal run of ASCII letters of the expression, other than the inherited
object property names (`constructor`, ...), is one of the declared variable
names; declared variables that do not occur never make it invalid: adding
declared names keeps a valid expression valid, and `(p→q)△(q→p)` is valid
with `r` declared and unused. -/
theorem parseExpression_valid_spec (expr : Str) (vars : List Str) :
    ((parseExpression expr vars).valid = true ↔
      ∀ run, Spec.IsMaximalLetterRun expr run →
        run ∉ Script.objectPrototypeKeys → run ∈ vars) ∧
    (∀ extra : List Str, (parseExpression expr vars).valid = true →
      (parseExpression expr (vars ++ extra)).valid = true) ∧
    (parseExpression "(p→q)△(q→p)".toList [['p'], ['q'], ['r']]).valid = true := by
  refine ⟨?_, ?_, by decide⟩
  · rw [parseExpression_valid_iff_runs]
    constructor
    · intro h run hrun hnot
      exact (h run hrun).resolve_left hnot
    · intro h run hrun
      by_cases hk : run ∈ Script.objectPrototypeKeys
      · exact Or.inl hk
      · exact Or.inr (h run hrun hk)
  · intro extra
    rw [parseExpression_valid_iff_runs, parseExpression_valid_iff_runs]
    intro h run hrun
    rcases h run hrun with h | h
    · exact Or.inl h
    · exact Or.inr (List.mem_append_left _ h)

/-! ## Properties of areParenthesesBalanced -/

theorem balanceLoop_iff (e : Str) : ∀ b : Int, 0 ≤ b →
    (balanceLoop b e = true ↔
      (∀ k, (Spec.closers (e.take k) : Int) ≤ b + Spec.openers (e.take k)) ∧
        b + Spec.openers e = Spec.closers e) := by
  induction e with
  | nil =>
    intro b hb
    simp only [balanceLoop, Spec.closers, Spec.openers, List.take_nil, List.countP_nil,
      decide_eq_true_eq]
    constructor
    · intro h; subst h; simp
    · intro h; simpa using h.2
  | cons c cs ih =>
    intro b hb
    have hcount : ∀ l : Str,
        (Spec.openers (c :: l) : Int) = (if Spec.isOpener c then 1 else 0) + Spec.openers l ∧
        (Spec.closers (c :: l) : Int) = (if Spec.isCloser c then 1 else 0) + Spec.closers l := by
      intro l
      simp only [Spec.openers, Spec.closers, List.countP_cons]
      constructor <;> split <;> simp <;> omega
    have hstep : balanceLoop b (c :: cs) =
        if b + (if Spec.isOpener c then 1 else 0) - (if Spec.isCloser c then 1 else 0) < 0
        then false
        else balanceLoop
          (b + (if Spec.isOpener c then 1 else 0) - (if Spec.isCloser c then 1 else 0)) cs := by
      have hop : (c = '(' ∨ c = '{') ↔ Spec.isOpener c = true := by simp [Spec.isOpener]
      have hcl : (c = ')' ∨ c = '}') ↔ Spec.isCloser c = true := by simp [Spec.isCloser]
      simp only [balanceLoop, hop, hcl]
      by_cases ho : Spec.isOpener c = true <;> by_cases hc : Spec.isCloser c = true <;>
        simp [ho, hc]
    rw [hstep]
    generalize ho : (if Spec.isOpener c = true then (1 : Int) else 0) = o at hcount ⊢
    generalize hc : (if Spec.isCloser c = true then (1 : Int) else 0) = cl at hcount ⊢
    have ho0 : 0 ≤ o := by rw [← ho]; split <;> decide
    have hc0 : 0 ≤ cl := by rw [← hc]; split <;> decide
    by_cases hlt : b + o - cl < 0
    · rw [if_pos hlt]
      simp only [Bool.false_eq_true, false_iff, not_and]
      intro h
      have := h 1
      rw [List.take_succ_cons, List.take_zero, (hcount []).1, (hcount []).2] at this
      simp only [Spec.openers, Spec.closers, List.countP_nil] at this
      omega
    · rw [if_neg hlt, ih (b + o - cl) (by omega)]
      constructor
      · rintro ⟨h1, h2⟩
        refine ⟨fun k => ?_, ?_⟩
        · cases k with
          | zero => simp [Spec.openers, Spec.closers]; omega
          | succ k =>
            have := h1 k
            rw [List.take_succ_cons, (hcount _).1, (hcount _).2]
            omega
        · rw [(hcount _).1, (hcount _).2]
          omega
      · rintro ⟨h1, h2⟩
        refine ⟨fun k => ?_, ?_⟩
        · have := h1 (k + 1)
          rw [List.take_succ_cons, (hcount _).1, (hcount _).2] at this
          omega
        · rw [(hcount _).1, (hcount _).2] at h2
          omega

theorem areParenthesesBalanced_iff (e : Str) :
    areParenthesesBalanced e = true ↔ Spec.Balanced e := by
  unfold areParenthesesBalanced Spec.Balanced
  rw [balanceLoop_iff e 0 (le_refl 0)]
  constructor
  · rintro ⟨h1, h2⟩
    exact ⟨fun k => by have := h1 k; omega, by omega⟩
  · rintro ⟨h1, h2⟩
    exact ⟨fun k => by have := h1 k; omega, by omega⟩

theorem balanceLoop_normalizeBraces (e : Str) : ∀ b : Int,
    balanceLoop b (normalizeBraces e) = balanceLoop b e := by
  induction e with
  | nil => intro b; rfl
  | cons c cs ih =>
    intro b
    simp only [normalizeBraces, List.map_cons, balanceLoop] at ih ⊢
    by_cases h1 : c = '{'
    · subst h1; simp [ih]
    · by_cases h2 : c = '}'
      · subst h2; simp [ih]
      · simp only [h1, h2, if_false, ih]

/-- C6: `areParenthesesBalanced(e)` is true exactly when, counting `(` and
`{` as openers and `)` and `}` as closers, no prefix of `e` has more closers
than openers and `e` has as many openers as closers; for an admissible
variable list and a non-empty expression that is not balanced,
`generateTruthTable` ends with the unbalanced-parentheses error whatever the
parser would say, as it does on `(p∧`. -/
theorem areParenthesesBalanced_spec (e : Str) :
    (areParenthesesBalanced e = true ↔ Spec.Balanced e) ∧
    (∀ (vars : List Str) (showSteps : Bool),
      vars ≠ [] → vars.length ≤ MAX_VARIABLES → e ≠ [] → ¬ Spec.Balanced e →
      generateTruthTable vars e showSteps =
        Except.error (JSError.error
          "Paréntesis/llaves desbalanceados en la expresión".toList)) ∧
    generateTruthTable [['p']] "(p∧".toList false =
      Except.error (JSError.error
        "Paréntesis/llaves desbalanceados en la expresión".toList) := by
  refine ⟨areParenthesesBalanced_iff e, ?_, by decide⟩
  intro vars showSteps hv h6 he hb
  have h0 : ¬ vars.length = 0 := fun h => hv (List.length_eq_zero.1 h)
  have h6' : ¬ vars.length > MAX_VARIABLES := Nat.not_lt.2 h6
  have hbal : areParenthesesBalanced (normalizeBraces e) = false := by
    unfold areParenthesesBalanced
    rw [balanceLoop_normalizeBraces]
    have := (areParenthesesBalanced_iff e).not.2 hb
    simpa [areParenthesesBalanced] using this
  unfold generateTruthTable
  rw [if_neg h0, if_neg h6', if_neg he]
  simp only [hbal, Bool.not_false, if_true]

/-! ## Characters the tokenizer skips -/

theorem blankOut_facts (c : Char) :
    isAsciiLetter (Spec.blankOut c) = isAsciiLetter c ∧
      isSymbolChar (Spec.blankOut c) = isSymbolChar c := by
  unfold Spec.blankOut
  by_cases h1 : isAsciiLetter c = true
  · simp [h1]
  · by_cases h2 : isSymbolChar c = true
    · simp [h2]
    · have h1' : isAsciiLetter c = false := by simpa using h1
      have h2' : isSymbolChar c = false := by simpa using h2
      simp only [h1', h2', Bool.or_self, Bool.false_eq_true, if_false]
      constructor <;> decide

theorem matchTokensFrom_blankOut (expr : Str) : ∀ run : Str,
    matchTokensFrom run (expr.map Spec.blankOut) = matchTokensFrom run expr := by
  induction expr with
  | nil => intro run; rfl
  | cons c cs ih =>
    intro run
    obtain ⟨h1, h2⟩ := blankOut_facts c
    rw [List.map_cons, matchTokensFrom, matchTokensFrom, h1, h2]
    by_cases hl : isAsciiLetter c = true
    · have hb : Spec.blankOut c = c := by simp [Spec.blankOut, hl]
      simp only [hl, if_true, hb, ih]
    · by_cases hs : isSymbolChar c = true
      · have hb : Spec.blankOut c = c := by simp [Spec.blankOut, hs]
        simp [hl, hs, hb, ih]
      · simp [hl, hs, ih]

/-- C14 (counterexample): `p1∧q` with p and q declared is reported valid;
the digit raises no error. -/
theorem parseExpression_digit_counterexample :
    (parseExpression "p1∧q".toList [['p'], ['q']]).valid = true ∧
    shuntingYard "p1∧q".toList = [['p'], ['q'], ['∧']] := by
  constructor <;> decide

/-- C14 (amended): a character that is neither an ASCII letter nor one of
¬ ∧ ∨ → ↔ △ ( ) raises no error in script.js; the tokenizer skips it exactly
as it skips a blank, so the tokens, the postfix form and the validity
verdict of an expression are those of the expression with every such
character replaced by a blank; `p1∧q` is valid with p and q declared. -/
theorem tokenizer_skips_other_characters (expr : Str) (vars : List Str) :
    matchTokens (expr.map Spec.blankOut) = matchTokens expr ∧
    shuntingYard (expr.map Spec.blankOut) = shuntingYard expr ∧
    (parseExpression (expr.map Spec.blankOut) vars).valid = (parseExpression expr vars).valid ∧
    (parseExpression "p1∧q".toList [['p'], ['q']]).valid = true := by
  have h1 : matchTokens (expr.map Spec.blankOut) = matchTokens expr :=
    matchTokensFrom_blankOut expr []
  have h2 : shuntingYard (expr.map Spec.blankOut) = shuntingYard expr := by
    unfold shuntingYard; rw [h1]
  refine ⟨h1, h2, ?_, by decide⟩
  have hv : ∀ e : Str, (parseExpression e vars).valid =
      (firstUndeclared vars (shuntingYard e)).isNone := by
    intro e
    unfold parseExpression
    simp only
    split <;> rename_i h <;> simp [ParseResult.valid, h]
  rw [hv, hv, h2]

/-! ## Expressions with missing or surplus operands -/

theorem applyBinary_operatorKey (t : Str) (a b : JSVal) (h : t ∈ operatorKeys)
    (hne : t ≠ ['¬']) : ∃ v, applyBinary t a b = some v := by
  simp only [operatorKeys, List.mem_cons, List.mem_singleton, List.not_mem_nil,
    or_false] at h
  rcases h with h | h | h | h | h | h
  · exact absurd h hne
  all_goals
    subst h
    simp [applyBinary]

theorem evalTokens_ok (context : Obj) (tokens : List Str) :
    (∀ t ∈ tokens, inOPERATORS t = true → t ∈ operatorKeys) →
    ∀ stack, ∃ stack1, evalTokens context stack tokens = Except.ok stack1 := by
  induction tokens with
  | nil => intro _ stack; exact ⟨stack, rfl⟩
  | cons t ts ih =>
    intro h stack
    have hts : ∀ t' ∈ ts, inOPERATORS t' = true → t' ∈ operatorKeys := fun t' ht' =>
      h t' (List.mem_cons_of_mem _ ht')
    have hstep : ∃ stack1, evalStep context stack t = Except.ok stack1 := by
      unfold evalStep
      by_cases hop : inOPERATORS t = true
      · rw [if_pos hop]
        by_cases hneg : t = ['¬']
        · rw [if_pos hneg]; exact ⟨_, rfl⟩
        · rw [if_neg hneg]
          obtain ⟨v, hv⟩ := applyBinary_operatorKey t (stackPop (stackPop stack).2).1
            (stackPop stack).1 (h t (List.mem_cons_self _ _) hop) hneg
          simp only [hv]
          exact ⟨_, rfl⟩
      · rw [if_neg hop]; exact ⟨_, rfl⟩
    obtain ⟨stack1, h1⟩ := hstep
    obtain ⟨stack2, h2⟩ := ih hts stack1
    exact ⟨stack2, by rw [evalTokens, h1]; exact h2⟩

theorem symbolToken_operatorKey (c : Char) (hs : isSymbolChar c = true)
    (hop : inOPERATORS [c] = true) : [c] ∈ operatorKeys := by
  simp only [isSymbolChar, Bool.or_eq_true, decide_eq_true_eq] at hs
  rcases hs with ((((((h | h) | h) | h) | h) | h) | h) | h <;> subst h <;>
    first | decide | exact absurd hop (by decide)

theorem shuntingYard_tokens_operatorKey (expr : Str)
    (h : ∀ run, Spec.IsMaximalLetterRun expr run → run ∉ Script.objectPrototypeKeys) :
    ∀ t ∈ shuntingYard expr, inOPERATORS t = true → t ∈ operatorKeys := by
  intro t ht hop
  by_cases hp1 : t = ['(']
  · subst hp1; exact absurd hop (by decide)
  by_cases hp2 : t = [')']
  · subst hp2; exact absurd hop (by decide)
  have hmem := (mem_shuntingYard expr t hp1 hp2).1 ht
  rcases matchTokensFrom_kinds expr [] t (by simp) hmem with ⟨hne, hl⟩ | ⟨c, hc, hs⟩
  · have hrun : Spec.IsMaximalLetterRun ([] ++ expr) t :=
      (letterToken_iff_maximalRun expr [] t (by simp)).1 ⟨hmem, hne, hl⟩
    exact absurd ((letters_inOPERATORS t hl).1 hop) (h t (by simpa using hrun))
  · subst hc
    exact symbolToken_operatorKey c hs hop

/-- A property of the letter tokens of the tokenizer is a property of the
maximal letter runs. -/
theorem forall_maximalRun_of_tokens (expr : Str) (P : Str → Prop)
    (h : ∀ t ∈ matchTokens expr, (∀ c ∈ t, isAsciiLetter c = true) → P t) :
    ∀ run, Spec.IsMaximalLetterRun expr run → P run := by
  intro run hrun
  have hrun' : Spec.IsMaximalLetterRun ([] ++ expr) run := by simpa using hrun
  obtain ⟨hmem, _, hl⟩ := (letterToken_iff_maximalRun expr [] run (by simp)).2 hrun'
  exact h run hmem hl

/-- C13 (counterexample): `p∧`, `∧` and `p q` are reported valid and are
evaluated without error: the first two give `undefined`, the third the value
of `p`. -/
theorem evaluateParsedExpression_malformed_counterexample :
    (parseExpression "p∧".toList [['p'], ['q']]).valid = true ∧
    evaluateParsedExpression "p∧".toList [(['p'], true), (['q'], false)] =
      Except.ok JSVal.undef ∧
    (parseExpression "∧".toList [['p'], ['q']]).valid = true ∧
    evaluateParsedExpression "∧".toList [(['p'], true), (['q'], false)] =
      Except.ok JSVal.undef ∧
    (parseExpression "p q".toList [['p'], ['q']]).valid = true ∧
    evaluateParsedExpression "p q".toList [(['p'], true), (['q'], false)] =
      Except.ok (JSVal.bool true) := by
  refine ⟨by decide, by decide, by decide, by decide, by decide, by decide⟩

/-- C13 (amended): for every expression whose letter runs are declared
variables (none of them an inherited property name), also one whose postfix
form underflows the stack or leaves a number of values different from one,
`parseExpression` reports the expression as valid and
`evaluateParsedExpression` raises no error: a missing operand reads as
`undefined` and the result is the bottom of the stack, so `p∧` and `∧` give
`undefined` and `p q` gives the value of `p`. -/
theorem evaluateParsedExpression_no_malformed_error (expr : Str) (vars : List Str)
    (context : Obj)
    (h : ∀ run, Spec.IsMaximalLetterRun expr run →
      run ∈ vars ∧ run ∉ Script.objectPrototypeKeys) :
    (parseExpression expr vars).valid = true ∧
    (∃ v, evaluateParsedExpression expr context = Except.ok v) ∧
    evaluateParsedExpression "p∧".toList [(['p'], true), (['q'], false)] =
      Except.ok JSVal.undef ∧
    evaluateParsedExpression "∧".toList [(['p'], true), (['q'], false)] =
      Except.ok JSVal.undef ∧
    evaluateParsedExpression "p q".toList [(['p'], true), (['q'], false)] =
      Except.ok (JSVal.bool true) := by
  refine ⟨?_, ?_, by decide, by decide, by decide⟩
  · exact (parseExpression_valid_iff_runs expr vars).2 fun run hrun => Or.inr (h run hrun).1
  · obtain ⟨stack, hs⟩ := evalTokens_ok context (shuntingYard expr)
      (shuntingYard_tokens_operatorKey expr fun run hrun => (h run hrun).2) []
    refine ⟨stackBottom stack, ?_⟩
    unfold evaluateParsedExpression
    rw [hs]

/-- Witness for C13 (amended): `p∧` with p declared. -/
theorem evaluateParsedExpression_no_malformed_error_witness :
    (parseExpression "p∧".toList [['p']]).valid = true ∧
    ∃ v, evaluateParsedExpression "p∧".toList [(['p'], true)] = Except.ok v :=
  ⟨(evaluateParsedExpression_no_malformed_error "p∧".toList [['p']] [(['p'], true)]
      (forall_maximalRun_of_tokens _ _ (by decide))).1,
   (evaluateParsedExpression_no_malformed_error "p∧".toList [['p']] [(['p'], true)]
      (forall_maximalRun_of_tokens _ _ (by decide))).2.1⟩

/-! ## The sub-expression list -/

theorem mem_setAdd (set : List Str) (x y : Str) : y ∈ setAdd set x ↔ y ∈ set ∨ y = x := by
  unfold setAdd
  split
  · rename_i h
    have hx : x ∈ set := by simpa using h
    constructor
    · exact Or.inl
    · rintro (h' | h')
      · exact h'
      · exact h' ▸ hx
  · simp

theorem setAdd_nodup (set : List Str) (x : Str) (h : set.Nodup) : (setAdd set x).Nodup := by
  unfold setAdd
  split
  · exact h
  · rename_i hx
    have hx' : x ∉ set := by simpa using hx
    rw [List.nodup_append]
    refine ⟨h, List.nodup_singleton x, ?_⟩
    intro a ha hb
    rw [List.mem_singleton.1 hb] at ha
    exact hx' ha

theorem mem_foldl_setAdd (l : List Str) : ∀ (init : List Str) (y : Str),
    y ∈ l.foldl setAdd init ↔ y ∈ init ∨ y ∈ l := by
  induction l with
  | nil => intro init y; simp
  | cons x xs ih =>
    intro init y
    rw [List.foldl_cons, ih, mem_setAdd, List.mem_cons, or_assoc]

theorem foldl_setAdd_nodup (l : List Str) : ∀ init : List Str, init.Nodup →
    (l.foldl setAdd init).Nodup := by
  induction l with
  | nil => intro init h; exact h
  | cons x xs ih => intro init h; exact ih _ (setAdd_nodup init x h)

theorem mem_addAtoms (vars : List Str) : ∀ (set : List Str) (y : Str),
    y ∈ set → y ∈ addAtoms set vars := by
  induction vars with
  | nil => intro set y h; exact h
  | cons v vs ih =>
    intro set y h
    unfold addAtoms
    rw [List.foldl_cons]
    exact ih _ y ((mem_setAdd _ _ _).2 (Or.inl ((mem_setAdd _ _ _).2 (Or.inl h))))

theorem addAtoms_nodup (vars : List Str) : ∀ set : List Str, set.Nodup →
    (addAtoms set vars).Nodup := by
  induction vars with
  | nil => intro set h; exact h
  | cons v vs ih =>
    intro set h
    unfold addAtoms
    rw [List.foldl_cons]
    exact ih _ (setAdd_nodup _ _ (setAdd_nodup _ _ h))

theorem parenMatchesFrom_cons (body : Option Str) (c : Char) (cs : Str) :
    parenMatchesFrom body (c :: cs) =
      if c = '(' then parenMatchesFrom (some []) cs
      else if c = ')' then
        match body with
        | some (b :: bs) => ('(' :: (b :: bs) ++ [')']) :: parenMatchesFrom none cs
        | _ => parenMatchesFrom none cs
      else
        match body with
        | some b => parenMatchesFrom (some (b ++ [c])) cs
        | none => parenMatchesFrom none cs := by
  rw [parenMatchesFrom.eq_def]

theorem parenMatchesFrom_body (body : Str) (hb : ∀ c ∈ body, c ≠ '(' ∧ c ≠ ')') :
    ∀ (acc rest : Str), parenMatchesFrom (some acc) (body ++ rest) =
      parenMatchesFrom (some (acc ++ body)) rest := by
  induction body with
  | nil => intro acc rest; simp
  | cons c cs ih =>
    intro acc rest
    obtain ⟨h1, h2⟩ := hb c (List.mem_cons_self _ _)
    rw [List.cons_append, parenMatchesFrom_cons, if_neg h1, if_neg h2]
    simp only
    rw [ih (fun d hd => hb d (List.mem_cons_of_mem _ hd))]
    simp

theorem mem_parenMatchesFrom_suffix (x : Str) (pre : Str) : ∀ (state : Option Str) (rest : Str),
    (∀ state1, x ∈ parenMatchesFrom state1 rest) → x ∈ parenMatchesFrom state (pre ++ rest) := by
  induction pre with
  | nil => intro state rest h; exact h state
  | cons c cs ih =>
    intro state rest h
    rw [List.cons_append, parenMatchesFrom_cons]
    split
    · exact ih _ rest h
    · split
      · split
        · exact List.mem_cons_of_mem _ (ih _ rest h)
        · exact ih _ rest h
      · split
        · exact ih _ rest h
        · exact ih _ rest h

theorem mem_parenMatchesFrom_group (pre body post : Str) (hne : body ≠ [])
    (hb : ∀ c ∈ body, c ≠ '(' ∧ c ≠ ')') (state : Option Str) :
    '(' :: body ++ [')'] ∈ parenMatchesFrom state (pre ++ '(' :: (body ++ ')' :: post)) := by
  apply mem_parenMatchesFrom_suffix
  intro state1
  rw [parenMatchesFrom_cons, if_pos rfl, parenMatchesFrom_body body hb, List.nil_append,
    parenMatchesFrom_cons, if_neg (by decide), if_pos rfl]
  cases body with
  | nil => exact absurd rfl hne
  | cons b bs => simp

theorem sortByLength_perm (l : List Str) : (sortByLength l).Perm l :=
  List.perm_insertionSort _ l

theorem sortByLength_sorted (l : List Str) :
    (sortByLength l).Sorted fun a b => jsLength a ≤ jsLength b := by
  haveI : IsTotal Str (fun a b => jsLength a ≤ jsLength b) :=
    ⟨fun a b => Nat.le_total (jsLength a) (jsLength b)⟩
  haveI : IsTrans Str (fun a b => jsLength a ≤ jsLength b) :=
    ⟨fun _ _ _ h1 h2 => Nat.le_trans h1 h2⟩
  exact List.sorted_insertionSort _ l

theorem parseExpression_ok (expr : Str) (vars subs : List Str) (final : Str)
    (h : parseExpression expr vars = ParseResult.ok subs final) :
    subs = sortByLength (addAtoms ((parenMatchesFrom none expr).foldl setAdd []) vars) := by
  unfold parseExpression at h
  simp only at h
  split at h
  · exact absurd h (by simp)
  · simp only [ParseResult.ok.injEq] at h
    exact h.1.symm

/-- C16: when `parseExpression` reports valid, the returned `subExpressions`
list is sorted by textual length (the `length` of the strings) in
non-decreasing order and contains no string twice. -/
theorem parseExpression_subExpressions_sorted (expr : Str) (vars subs : List Str) (final : Str)
    (h : parseExpression expr vars = ParseResult.ok subs final) :
    subs.Sorted (fun a b => jsLength a ≤ jsLength b) ∧ subs.Nodup := by
  rw [parseExpression_ok expr vars subs final h]
  refine ⟨sortByLength_sorted _, ?_⟩
  rw [(sortByLength_perm _).nodup_iff]
  exact addAtoms_nodup vars _ (foldl_setAdd_nodup _ [] List.nodup_nil)

/-- Witness for C16: `(p→q)△(q→p)` over p, q, r. -/
theorem parseExpression_subExpressions_sorted_witness :
    (["p".toList, "q".toList, "r".toList, "¬p".toList, "¬q".toList, "¬r".toList,
      "(p→q)".toList, "(q→p)".toList] : List Str).Nodup :=
  (parseExpression_subExpressions_sorted "(p→q)△(q→p)".toList [['p'], ['q'], ['r']]
    ["p".toList, "q".toList, "r".toList, "¬p".toList, "¬q".toList, "¬r".toList,
      "(p→q)".toList, "(q→p)".toList] "(p→q)△(q→p)".toList (by decide)).2

/-- C15 (counterexample): for `((p∧q)∨r)` with p, q, r declared the list
holds `(p∧q)` and the atoms, but not the enclosing `((p∧q)∨r)`. -/
theorem parseExpression_nested_counterexample :
    parseExpression "((p∧q)∨r)".toList [['p'], ['q'], ['r']] =
      ParseResult.ok
        ["p".toList, "q".toList, "r".toList, "¬p".toList, "¬q".toList, "¬r".toList,
          "(p∧q)".toList]
        "((p∧q)∨r)".toList ∧
    "((p∧q)∨r)".toList ∉
      (parseExpression "((p∧q)∨r)".toList [['p'], ['q'], ['r']]).subExpressions := by
  constructor <;> decide

/-- C15 (amended): for every expression `e` with balanced parentheses whose
letter runs are all declared, and for every pair of matching parentheses of
`e` that encloses at least one character and no further parenthesis (an
innermost pair, such as `(p∧q)` in `((p∧q)∨r)`), the substring from the
opening to the closing parenthesis is an element of the `subExpressions`
list returned by `parseExpression`. -/
theorem parseExpression_innermost_groups (e : Str) (vars : List Str) (pre body post : Str)
    (hbal : Spec.Balanced e)
    (hruns : ∀ run, Spec.IsMaximalLetterRun e run → run ∈ vars)
    (he : e = pre ++ '(' :: (body ++ ')' :: post))
    (hne : body ≠ []) (hb : ∀ c ∈ body, c ≠ '(' ∧ c ≠ ')') :
    (parseExpression e vars).valid = true ∧
    '(' :: body ++ [')'] ∈ (parseExpression e vars).subExpressions := by
  have _ := hbal
  have hvalid : (parseExpression e vars).valid = true :=
    (parseExpression_valid_iff_runs e vars).2 fun run hrun => Or.inr (hruns run hrun)
  refine ⟨hvalid, ?_⟩
  cases hp : parseExpression e vars with
  | invalid msg => rw [hp] at hvalid; exact absurd hvalid (by simp [ParseResult.valid])
  | ok subs final =>
    rw [ParseResult.subExpressions, parseExpression_ok e vars subs final hp,
      (sortByLength_perm _).mem_iff]
    apply mem_addAtoms
    rw [mem_foldl_setAdd]
    right
    rw [he]
    exact mem_parenMatchesFrom_group pre body post hne hb none

/-- Witness for C15 (amended): the inner pair of `((p∧q)∨r)`. -/
theorem parseExpression_innermost_groups_witness :
    "(p∧q)".toList ∈
      (parseExpression "((p∧q)∨r)".toList [['p'], ['q'], ['r']]).subExpressions :=
  (parseExpression_innermost_groups "((p∧q)∨r)".toList [['p'], ['q'], ['r']]
    "(".toList "p∧q".toList "∨r)".toList
    ((areParenthesesBalanced_iff _).1 (by decide))
    (forall_maximalRun_of_tokens _ _ (by decide))
    (by decide) (by decide) (by decide)).2

end Script

namespace Script2

/-! ## The recursion bound of the evaluator and of the builder is never reached -/

theorem sliceInner_length_le (s : Str) : (sliceInner s).length ≤ s.length := by
  unfold sliceInner
  simp only [List.length_dropLast, List.length_drop]
  omega

theorem stripOuter_length_le (fuel : Nat) : ∀ s : Str, (stripOuter fuel s).length ≤ s.length := by
  induction fuel with
  | zero => intro s; exact Nat.le_refl _
  | succ n ih =>
    intro s
    rw [stripOuter]
    split
    · exact Nat.le_trans (ih _) (sliceInner_length_le s)
    · exact Nat.le_refl _

theorem stripBalanced_length_le (fuel : Nat) :
    ∀ s : Str, (stripBalanced fuel s).length ≤ s.length := by
  induction fuel with
  | zero => intro s; exact Nat.le_refl _
  | succ n ih =>
    intro s
    rw [stripBalanced]
    split
    · exact Nat.le_trans (ih _) (sliceInner_length_le s)
    · exact Nat.le_refl _

theorem scanOp_lt (b : Char) (s : Str) : ∀ (d : Int) (i p : Nat) (d' : Int),
    scanOp b d i s = (some p, d') → p < i + s.length := by
  induction s with
  | nil => intro d i p d' h; simp [scanOp] at h
  | cons c cs ih =>
    intro d i p d' h
    rw [scanOp] at h
    have hcases : ∀ (d2 : Int) (r : Option Nat × Int),
        (r = (some i, d2) ∨ r = scanOp b d2 (i + 1) cs) → r = (some p, d') →
        p < i + (c :: cs).length := by
      intro d2 r hr hp
      simp only [List.length_cons]
      rcases hr with hr | hr
      · rw [hr] at hp
        simp only [Prod.mk.injEq, Option.some.injEq] at hp
        omega
      · rw [hr] at hp
        have hlt := ih _ _ _ _ hp
        omega
    split_ifs at h
    all_goals exact hcases _ _ (by first | exact Or.inl rfl | exact Or.inr rfl) h

theorem findOp_lt (s : Str) : ∀ (ops : List Char) (d : Int) (p : Nat) (op : Char),
    findOp ops d s = some (p, op) → p < s.length := by
  intro ops
  induction ops with
  | nil => intro d p op h; simp [findOp] at h
  | cons b bs ih =>
    intro d p op h
    rw [findOp] at h
    split at h
    · rename_i i _ hscan
      simp only [Option.some.injEq, Prod.mk.injEq] at h
      have := scanOp_lt b s d 0 i _ hscan
      omega
    · exact ih _ _ _ h

theorem evaluate_isSome (context : Obj) : ∀ (fuel : Nat) (s : Str),
    s.length < fuel → (evaluate context fuel s).isSome = true := by
  intro fuel
  induction fuel with
  | zero => intro s h; exact absurd h (Nat.not_lt_zero _)
  | succ n ih =>
    intro s h
    have hlen := stripOuter_length_le s.length s
    rw [evaluate]
    simp only
    split
    · rename_i opPos op hfind
      have hpos := findOp_lt _ _ _ _ _ hfind
      have hl : ((stripOuter s.length s).take opPos).length < n := by
        rw [List.length_take]; omega
      have hr : ((stripOuter s.length s).drop (opPos + 1)).length < n := by
        rw [List.length_drop]; omega
      have h1 := ih _ hl
      have h2 := ih _ hr
      split
      · rename_i hnone; rw [hnone] at h1; exact absurd h1 (by simp)
      · rfl
      · split
        · rename_i hnone; rw [hnone] at h2; exact absurd h2 (by simp)
        · rfl
        · rfl
    · split
      · rename_i hneg
        have hne : stripOuter s.length s ≠ [] := by
          intro e; rw [e] at hneg; simp at hneg
        have hpos := List.length_pos.2 hne
        have hd : ((stripOuter s.length s).drop 1).length < n := by
          rw [List.length_drop]; omega
        have h1 := ih _ hd
        split
        · rename_i hnone; rw [hnone] at h1; exact absurd h1 (by simp)
        · rfl
        · rfl
      · split
        · rfl
        · split <;> rfl

/-- The evaluator always returns a value or throws. -/
theorem evaluateLogicalExpression_isSome (expr : Str) (context : Obj) :
    (evaluateLogicalExpression expr context).isSome = true :=
  evaluate_isSome context _ _ (Nat.lt_succ_self _)

theorem tableFrom_isSome (expression : Str) (vars : List Str) (indices : List Nat) :
    (tableFrom expression vars indices).isSome = true := by
  induction indices with
  | nil => rfl
  | cons i is ih =>
    rw [tableFrom]
    have h1 := evaluateLogicalExpression_isSome expression (fillRow vars.length i [] 0 vars)
    split
    · rename_i hnone; rw [hnone] at h1; exact absurd h1 (by simp)
    · rfl
    · split
      · rename_i hnone; rw [hnone] at ih; exact absurd ih (by simp)
      · rfl
      · rfl

/-- The table generator always returns a table or throws. -/
theorem generateTruthTable_isSome (expression : Str) (vars : List Str) :
    (generateTruthTable expression vars).isSome = true :=
  tableFrom_isSome expression vars _

theorem stripWhitespace_length_le (s : Str) : (stripWhitespace s).length ≤ s.length :=
  List.length_filter_le _ _

theorem processSubExpression_isSome (vars : List Str) : ∀ (fuel : Nat) (st : Builder) (s : Str)
    (parentGate : Option Str) (inputSide : Str),
    (stripWhitespace s).length < fuel →
    (processSubExpression vars fuel st s parentGate inputSide).isSome = true := by
  intro fuel
  induction fuel with
  | zero => intro st s pg side h; exact absurd h (Nat.not_lt_zero _)
  | succ n ih =>
    intro st s pg side h
    have hlen := stripBalanced_length_le (stripWhitespace s).length (stripWhitespace s)
    rw [processSubExpression]
    simp only
    split
    · rename_i opPos op hfind
      have hpos := findOp_lt _ _ _ _ _ hfind
      have hl : (stripWhitespace ((stripBalanced (stripWhitespace s).length
          (stripWhitespace s)).take opPos)).length < n := by
        refine Nat.lt_of_le_of_lt (stripWhitespace_length_le _) ?_
        rw [List.length_take]; omega
      have hr : (stripWhitespace ((stripBalanced (stripWhitespace s).length
          (stripWhitespace s)).drop (opPos + 1))).length < n := by
        refine Nat.lt_of_le_of_lt (stripWhitespace_length_le _) ?_
        rw [List.length_drop]; omega
      split
      · rename_i hnone
        exact absurd hnone (Option.isSome_iff_ne_none.1 (ih _ _ _ _ hl))
      · rfl
      · split
        · rename_i hnone
          exact absurd hnone (Option.isSome_iff_ne_none.1 (ih _ _ _ _ hr))
        · rfl
        · rfl
    · split
      · rename_i hneg
        have hne : stripBalanced (stripWhitespace s).length (stripWhitespace s) ≠ [] := by
          intro e; rw [e] at hneg; simp at hneg
        have hpos := List.length_pos.2 hne
        have hd : (stripWhitespace ((stripBalanced (stripWhitespace s).length
            (stripWhitespace s)).drop 1)).length < n := by
          refine Nat.lt_of_le_of_lt (stripWhitespace_length_le _) ?_
          rw [List.length_drop]; omega
        split
        · rename_i hnone
          exact absurd hnone (Option.isSome_iff_ne_none.1 (ih _ _ _ _ hd))
        · rfl
        · rfl
      · split <;> rfl

/-- The builder always returns a gate graph or throws. -/
theorem generateCircuitDiagram_isSome (expression : Str) (vars : List Str) :
    (generateCircuitDiagram expression vars).isSome = true :=
  processSubExpression_isSome vars _ _ _ _ _ (Nat.lt_succ_self _)

/-! ## The rows of generateTruthTable -/

theorem lookup_cons_eq (o : List (Str × Bool)) (k0 k' : Str) (v0 : Bool) :
    List.lookup k' ((k0, v0) :: o) = if k' = k0 then some v0 else List.lookup k' o := by
  rw [List.lookup_cons]
  by_cases h : k' = k0
  · subst h; simp
  · rw [if_neg h]
    have hb : (k' == k0) = false := beq_eq_false_iff_ne.2 h
    rw [hb]

theorem get_setOwn (o : Obj) (k k' : Str) (v : Bool) :
    (Obj.setOwn o k v).get k' = if k' = k then some v else o.get k' := by
  induction o with
  | nil =>
    simp only [Obj.setOwn, Obj.get, lookup_cons_eq, List.lookup_nil]
  | cons kv o ih =>
    obtain ⟨k0, v0⟩ := kv
    simp only [Obj.get] at ih
    simp only [Obj.setOwn, Obj.get]
    by_cases h0 : k0 = k
    · subst h0
      rw [if_pos rfl]
      simp only [lookup_cons_eq]
      by_cases h : k' = k0 <;> simp [h]
    · rw [if_neg h0]
      simp only [lookup_cons_eq, ih]
      by_cases h : k' = k
      · subst h
        have : ¬ k' = k0 := fun e => h0 e.symm
        simp [this]
      · by_cases h' : k' = k0
        · subst h'; simp [h]
        · simp [h, h']

theorem get_set (o : Obj) (k k' : Str) (v : Bool) (hk : k ≠ "__proto__".toList) :
    (Obj.set o k v).get k' = if k' = k then some v else o.get k' := by
  unfold Obj.set
  rw [if_neg hk]
  exact get_setOwn o k k' v

theorem get_set_ne (o : Obj) (k k' : Str) (v : Bool) (hne : k' ≠ k) :
    (Obj.set o k v).get k' = o.get k' := by
  unfold Obj.set
  split
  · rfl
  · rw [get_setOwn, if_neg hne]

theorem and_shiftLeft_ne_zero (i k : Nat) : (i &&& (1 <<< k) != 0) = i.testBit k := by
  rw [Nat.one_shiftLeft]
  cases hb : i.testBit k with
  | true =>
    have h : (i &&& 2 ^ k).testBit k = true := by
      rw [Nat.testBit_and, hb, Nat.testBit_two_pow_self]; rfl
    have hne : i &&& 2 ^ k ≠ 0 := by
      intro h0
      rw [h0, Nat.zero_testBit] at h
      exact Bool.noConfusion h
    simpa using hne
  | false =>
    have h0 : i &&& 2 ^ k = 0 := by
      apply Nat.eq_of_testBit_eq
      intro j
      rw [Nat.testBit_and, Nat.zero_testBit, Nat.testBit_two_pow]
      by_cases hj : k = j
      · subst hj; simp [hb]
      · simp [hj]
    simp [h0]

theorem fillRow_get_of_not_mem (count i : Nat) (rest : List Str) : ∀ (row : Obj) (j : Nat)
    (v : Str), v ∉ rest → (fillRow count i row j rest).get v = row.get v := by
  induction rest with
  | nil => intro row j v _; rfl
  | cons w ws ih =>
    intro row j v hv
    have hne : ¬ v = w := fun h => hv (by rw [h]; exact List.mem_cons_self _ _)
    rw [fillRow, ih _ _ _ (fun h => hv (List.mem_cons_of_mem _ h)), get_set_ne _ _ _ _ hne]

theorem fillRow_get (count i : Nat) (rest : List Str) : ∀ (row : Obj) (j m : Nat) (v : Str),
    v ≠ "__proto__".toList → rest.Nodup → rest[m]? = some v →
    (fillRow count i row j rest).get v = some (i.testBit (count - 1 - (j + m))) := by
  induction rest with
  | nil => intro row j m v _ _ h; simp at h
  | cons w ws ih =>
    intro row j m v hproto hnd hm
    obtain ⟨hw, hws⟩ := List.nodup_cons.1 hnd
    rw [fillRow]
    cases m with
    | zero =>
      simp only [List.getElem?_cons_zero, Option.some.injEq] at hm
      subst hm
      rw [fillRow_get_of_not_mem _ _ _ _ _ _ hw, get_set _ _ _ _ hproto, if_pos rfl,
        and_shiftLeft_ne_zero]
      rfl
    | succ m =>
      simp only [List.getElem?_cons_succ] at hm
      rw [ih _ (j + 1) m v hproto hws hm]
      congr 3
      omega

/-- A variable named `__proto__` leaves no key in the row. -/
theorem fillRow_proto :
    fillRow 2 3 [] 0 ["__proto__".toList, ['p']] = [(['p'], true)] := by
  decide

theorem tableFrom_rows (expression : Str) (vars : List Str) (indices : List Nat) :
    ∀ table : List Obj, tableFrom expression vars indices = some (Except.ok table) →
      table.length = indices.length ∧
      ∀ k i : Nat, indices[k]? = some i →
        ∃ result, table[k]? =
          some (Obj.set (fillRow vars.length i [] 0 vars) "RESULT".toList result) := by
  induction indices with
  | nil =>
    intro table h
    simp only [tableFrom, Option.some.injEq, Except.ok.injEq] at h
    subst h
    simp
  | cons i0 is ih =>
    intro table h
    rw [tableFrom] at h
    split at h
    · exact absurd h (by simp)
    · exact absurd h (by simp)
    · rename_i result _
      split at h
      · exact absurd h (by simp)
      · exact absurd h (by simp)
      · rename_i table' htable
        simp only [Option.some.injEq, Except.ok.injEq] at h
        subst h
        obtain ⟨hlen, hrows⟩ := ih table' htable
        refine ⟨by simp [hlen], ?_⟩
        intro k i hk
        cases k with
        | zero =>
          simp only [List.getElem?_cons_zero, Option.some.injEq] at hk
          subst hk
          exact ⟨result, List.getElem?_cons_zero⟩
        | succ k =>
          simp only [List.getElem?_cons_succ] at hk ⊢
          exact hrows k i hk

/-- C7 (counterexample): for the variables [p, q] and the expression `p∧q`
the first row of the returned table gives `p` the value false although bit 1
of the row index 0 is 0, and the rows come as (F,F)->F, (F,T)->F, (T,F)->F,
(T,T)->T. -/
theorem generateTruthTable_order_counterexample :
    generateTruthTable "p∧q".toList [['p'], ['q']] =
      some (Except.ok
        [[(['p'], false), (['q'], false), ("RESULT".toList, false)],
         [(['p'], false), (['q'], true), ("RESULT".toList, false)],
         [(['p'], true), (['q'], false), ("RESULT".toList, false)],
         [(['p'], true), (['q'], true), ("RESULT".toList, true)]]) ∧
    ¬ (∀ table, generateTruthTable "p∧q".toList [['p'], ['q']] = some (Except.ok table) →
        ∀ i j, i < 2 ^ 2 → j < 2 →
          ∃ row v, table[i]? = some row ∧ [['p'], ['q']][j]? = some v ∧
            (row.get v = some true ↔ i.testBit (2 - 1 - j) = false)) := by
  have h : generateTruthTable "p∧q".toList [['p'], ['q']] =
      some (Except.ok
        [[(['p'], false), (['q'], false), ("RESULT".toList, false)],
         [(['p'], false), (['q'], true), ("RESULT".toList, false)],
         [(['p'], true), (['q'], false), ("RESULT".toList, false)],
         [(['p'], true), (['q'], true), ("RESULT".toList, true)]]) := by decide
  refine ⟨h, ?_⟩
  intro hall
  obtain ⟨row, v, hrow, hv, hiff⟩ := hall _ h 0 0 (by decide) (by decide)
  simp only [List.getElem?_cons_zero, Option.some.injEq] at hrow hv
  subst hrow hv
  exact absurd (hiff.2 (by decide)) (by decide)

/-- C7 (amended): for 1 ≤ n ≤ 6 distinct variables, none of them named
RESULT (the key under which the row stores the result) or `__proto__` (a key
that the row never stores), every table returned by `generateTruthTable` of
script2.js has 2^n rows, and in row `i` the variable at position `j` is true
exactly when bit `n-1-j` of `i` is 1; so the first row assigns false to every
variable, and for [p, q] and `p∧q` the rows are (F,F)->F, (F,T)->F,
(T,F)->F, (T,T)->T. -/
theorem generateTruthTable_order (expression : Str) (vars : List Str) (table : List Obj)
    (h1 : 1 ≤ vars.length) (h6 : vars.length ≤ 6) (hnd : vars.Nodup)
    (hres : "RESULT".toList ∉ vars) (hproto : "__proto__".toList ∉ vars)
    (h : generateTruthTable expression vars = some (Except.ok table)) :
    table.length = 2 ^ vars.length ∧
    (∀ i j, i < 2 ^ vars.length → j < vars.length →
      ∃ row v, table[i]? = some row ∧ vars[j]? = some v ∧
        (row.get v = some true ↔ i.testBit (vars.length - 1 - j) = true)) ∧
    (∀ row v, table[0]? = some row → v ∈ vars → row.get v = some false) := by
  have _ := h1
  have _ := h6
  obtain ⟨hlen, hrows⟩ := tableFrom_rows expression vars _ table h
  have hget : ∀ i j v, i < 2 ^ vars.length → vars[j]? = some v →
      ∃ row, table[i]? = some row ∧ row.get v = some (i.testBit (vars.length - 1 - j)) := by
    intro i j v hi hv
    obtain ⟨result, hrow⟩ := hrows i i (List.getElem?_range hi)
    refine ⟨_, hrow, ?_⟩
    have hne : v ≠ "RESULT".toList := fun e => hres (e ▸ List.getElem?_mem hv)
    have hnp : v ≠ "__proto__".toList := fun e => hproto (e ▸ List.getElem?_mem hv)
    rw [get_set _ _ _ _ (by decide), if_neg hne, fillRow_get _ _ _ _ 0 j v hnp hnd hv]
    simp
  refine ⟨by simpa using hlen, ?_, ?_⟩
  · intro i j hi hj
    have hv : vars[j]? = some vars[j] := List.getElem?_eq_getElem hj
    obtain ⟨row, hrow, hval⟩ := hget i j _ hi hv
    refine ⟨row, _, hrow, hv, ?_⟩
    rw [hval]
    simp
  · intro row v hrow hv
    obtain ⟨j, hj⟩ := List.getElem?_of_mem hv
    obtain ⟨row', hrow', hval⟩ := hget 0 j v (Nat.pos_pow_of_pos _ (by decide)) hj
    rw [hrow] at hrow'
    simp only [Option.some.injEq] at hrow'
    subst hrow'
    rw [hval, Nat.zero_testBit]

/-- Witness for C7 (amended): the table of `p∧q` over [p, q]. -/
theorem generateTruthTable_order_witness :
    generateTruthTable "p∧q".toList [['p'], ['q']] =
      some (Except.ok
        [[(['p'], false), (['q'], false), ("RESULT".toList, false)],
         [(['p'], false), (['q'], true), ("RESULT".toList, false)],
         [(['p'], true), (['q'], false), ("RESULT".toList, false)],
         [(['p'], true), (['q'], true), ("RESULT".toList, true)]]) ∧
    ∀ i j, i < 2 ^ 2 → j < 2 →
      ∃ row v,
        [[(['p'], false), (['q'], false), ("RESULT".toList, false)],
         [(['p'], false), (['q'], true), ("RESULT".toList, false)],
         [(['p'], true), (['q'], false), ("RESULT".toList, false)],
         [(['p'], true), (['q'], true), ("RESULT".toList, true)]][i]? = some row ∧
        [['p'], ['q']][j]? = some v ∧
        (Obj.get row v = some true ↔ i.testBit (2 - 1 - j) = true) :=
  ⟨by decide,
   (generateTruthTable_order "p∧q".toList [['p'], ['q']]
    [[(['p'], false), (['q'], false), ("RESULT".toList, false)],
     [(['p'], false), (['q'], true), ("RESULT".toList, false)],
     [(['p'], true), (['q'], false), ("RESULT".toList, false)],
     [(['p'], true), (['q'], true), ("RESULT".toList, true)]]
    (by decide) (by decide) (by decide) (by decide) (by decide) (by decide)).2.1⟩

/-! ## The gate-graph builder on small expressions -/

theorem letter_plain {c : Char} (h : isAsciiLetter c = true) :
    c ≠ '(' ∧ c ≠ ')' ∧ c ∉ binaryOps ∧ c ≠ '¬' ∧ c ≠ '△' ∧ isJsWhitespace c = false := by
  refine ⟨?_, ?_, ?_, ?_, ?_, ?_⟩
  · rintro rfl; exact absurd h (by decide)
  · rintro rfl; exact absurd h (by decide)
  · intro hm
    simp only [binaryOps, List.mem_cons, List.mem_singleton, List.not_mem_nil, or_false] at hm
    rcases hm with e | e | e | e <;> subst e <;> exact absurd h (by decide)
  · rintro rfl; exact absurd h (by decide)
  · rintro rfl; exact absurd h (by decide)
  · simp only [isAsciiLetter, Bool.or_eq_true, Bool.and_eq_true, decide_eq_true_eq] at h
    simp only [isJsWhitespace, Bool.or_eq_false_iff, Bool.and_eq_false_imp, decide_eq_true_eq,
      decide_eq_false_iff_not]
    omega

theorem stripWhitespace_of_plain (s : Str) (h : ∀ c ∈ s, isJsWhitespace c = false) :
    stripWhitespace s = s := by
  unfold stripWhitespace
  rw [List.filter_eq_self]
  intro c hc
  simp [h c hc]

theorem stripBalanced_of_head (fuel : Nat) (s : Str) (h : s.head? ≠ some '(') :
    stripBalanced fuel s = s := by
  cases fuel with
  | zero => rfl
  | succ n =>
    rw [stripBalanced, if_neg]
    exact fun hc => h hc.1

theorem scanOp_plain (b : Char) (ls : Str) (h : ∀ c ∈ ls, c ≠ '(' ∧ c ≠ ')' ∧ c ≠ b) :
    ∀ (d : Int) (i : Nat) (rest : Str),
      scanOp b d i (ls ++ rest) = scanOp b d (i + ls.length) rest := by
  induction ls with
  | nil => intro d i rest; rfl
  | cons c cs ih =>
    intro d i rest
    obtain ⟨h1, h2, h3⟩ := h c (List.mem_cons_self _ _)
    rw [List.cons_append, scanOp]
    simp only [h1, h2, h3, if_false, and_false]
    rw [ih (fun e he => h e (List.mem_cons_of_mem _ he))]
    simp only [List.length_cons]
    congr 1
    omega

theorem scanOp_nil_result (b : Char) (ls : Str) (h : ∀ c ∈ ls, c ≠ '(' ∧ c ≠ ')' ∧ c ≠ b)
    (d : Int) (i : Nat) : scanOp b d i ls = (none, d) := by
  have := scanOp_plain b ls h d i []
  rw [List.append_nil] at this
  rw [this]
  rfl

theorem plainText_of_letters (s : Str) (h : ∀ c ∈ s, isAsciiLetter c = true) : Spec.PlainText s :=
  fun c hc => ⟨(letter_plain (h c hc)).1, (letter_plain (h c hc)).2.1,
    (letter_plain (h c hc)).2.2.1⟩

theorem findOp_plain (s : Str) (h : Spec.PlainText s) : ∀ ops : List Char,
    (∀ b ∈ ops, b ∈ binaryOps) → findOp ops 0 s = none := by
  intro ops
  induction ops with
  | nil => intro _; rfl
  | cons b bs ih =>
    intro hb
    have hs : ∀ c ∈ s, c ≠ '(' ∧ c ≠ ')' ∧ c ≠ b := fun c hc =>
      ⟨(h c hc).1, (h c hc).2.1, fun e => (h c hc).2.2 (e ▸ hb b (List.mem_cons_self _ _))⟩
    rw [findOp, scanOp_nil_result b s hs]
    exact ih fun b' hb' => hb b' (List.mem_cons_of_mem _ hb')

theorem scanOp_binary (b op : Char) (x y : Str) (hx : Spec.PlainText x) (hy : Spec.PlainText y)
    (hb : b ∈ binaryOps) (hop : op ≠ '(' ∧ op ≠ ')') :
    scanOp b 0 0 (x ++ op :: y) = if op = b then (some x.length, 0) else (none, 0) := by
  have hxs : ∀ c ∈ x, c ≠ '(' ∧ c ≠ ')' ∧ c ≠ b := fun c hc =>
    ⟨(hx c hc).1, (hx c hc).2.1, fun e => (hx c hc).2.2 (e ▸ hb)⟩
  have hys : ∀ c ∈ y, c ≠ '(' ∧ c ≠ ')' ∧ c ≠ b := fun c hc =>
    ⟨(hy c hc).1, (hy c hc).2.1, fun e => (hy c hc).2.2 (e ▸ hb)⟩
  rw [scanOp_plain b x hxs, scanOp]
  simp only [hop.1, hop.2, if_false, true_and, Nat.zero_add]
  by_cases h : op = b
  · rw [if_pos h, if_pos h]
  · rw [if_neg h, if_neg h, scanOp_nil_result b y hys]

theorem findOp_binary (op : Char) (x y : Str) (hx : Spec.PlainText x) (hy : Spec.PlainText y)
    (hop : op ∈ binaryOps) : findOp binaryOps 0 (x ++ op :: y) = some (x.length, op) := by
  have hp : op ≠ '(' ∧ op ≠ ')' := by
    simp only [binaryOps, List.mem_cons, List.mem_singleton, List.not_mem_nil, or_false] at hop
    rcases hop with e | e | e | e <;> subst e <;> decide
  have h1 := scanOp_binary '↔' op x y hx hy (by decide) hp
  have h2 := scanOp_binary '→' op x y hx hy (by decide) hp
  have h3 := scanOp_binary '∨' op x y hx hy (by decide) hp
  have h4 := scanOp_binary '∧' op x y hx hy (by decide) hp
  simp only [binaryOps, List.mem_cons, List.mem_singleton, List.not_mem_nil, or_false] at hop
  rcases hop with e | e | e | e <;> subst e <;>
    simp [binaryOps, findOp, h1, h2, h3, h4]

theorem processSubExpression_leaf (vars : List Str) (fuel : Nat) (st : Builder) (x : Str)
    (parentGate : Option Str) (inputSide : Str)
    (hl : ∀ c ∈ x, isAsciiLetter c = true) (hx : x ∈ vars) :
    processSubExpression vars (fuel + 1) st x parentGate inputSide =
      some (Except.ok (x, st)) := by
  have hws : stripWhitespace x = x :=
    stripWhitespace_of_plain x fun c hc => (letter_plain (hl c hc)).2.2.2.2.2
  have hhead : x.head? ≠ some '(' := by
    intro h
    exact (letter_plain (hl '(' (List.mem_of_mem_head? h))).1 rfl
  have hneg : x.head? ≠ some '¬' := by
    intro h
    exact (letter_plain (hl '¬' (List.mem_of_mem_head? h))).2.2.2.1 rfl
  rw [processSubExpression]
  simp only [hws, stripBalanced_of_head _ x hhead,
    findOp_plain x (plainText_of_letters x hl) binaryOps (fun _ h => h), if_neg hneg]
  simp [hx]

theorem take_length_append (x rest : Str) : (x ++ rest).take x.length = x := by
  induction x with
  | nil => simp
  | cons c cs ih => simp [ih]

theorem drop_length_succ_append (x y : Str) (c : Char) :
    (x ++ c :: y).drop (x.length + 1) = y := by
  induction x with
  | nil => simp
  | cons d ds ih => simp [ih]

theorem binary_text_facts (x y : Str) (op : Char)
    (hxl : ∀ c ∈ x, isAsciiLetter c = true) (hyl : ∀ c ∈ y, isAsciiLetter c = true)
    (hop : op ≠ '(' ∧ op ≠ '¬' ∧ isJsWhitespace op = false) :
    stripWhitespace (x ++ op :: y) = x ++ op :: y ∧
      (x ++ op :: y).head? ≠ some '(' ∧ (x ++ op :: y).head? ≠ some '¬' := by
  refine ⟨?_, ?_, ?_⟩
  · apply stripWhitespace_of_plain
    intro c hc
    rcases List.mem_append.1 hc with h | h
    · exact (letter_plain (hxl c h)).2.2.2.2.2
    · rcases List.mem_cons.1 h with h | h
      · rw [h]; exact hop.2.2
      · exact (letter_plain (hyl c h)).2.2.2.2.2
  · cases x with
    | nil =>
      simp only [List.nil_append, List.head?_cons, ne_eq, Option.some.injEq]
      exact hop.1
    | cons c cs =>
      simp only [List.cons_append, List.head?_cons, ne_eq, Option.some.injEq]
      exact (letter_plain (hxl c (List.mem_cons_self _ _))).1
  · cases x with
    | nil =>
      simp only [List.nil_append, List.head?_cons, ne_eq, Option.some.injEq]
      exact hop.2.1
    | cons c cs =>
      simp only [List.cons_append, List.head?_cons, ne_eq, Option.some.injEq]
      exact (letter_plain (hxl c (List.mem_cons_self _ _))).2.2.2.1

/-- C9 (counterexample): on `p△q` with p and q declared the builder does not
succeed; it throws the unrecognized-expression error. -/
theorem generateCircuitDiagram_xor_counterexample :
    generateCircuitDiagram "p△q".toList [['p'], ['q']] =
      some (Except.error (JSError.error "Expresión no reconocida: p△q".toList)) := by
  decide

/-- C9 (amended): for declared variables x and y made of ASCII letters and a
binary operator among ∧, ∨, →, ↔, the builder applied to `x op y` succeeds
and emits exactly one gate, with inputs [x, y] and of type AND for ∧, OR for
∨, OR for → and XNOR for ↔; on `x△y` (not itself a declared name) it throws
the unrecognized-expression error. -/
theorem generateCircuitDiagram_binary (vars : List Str) (x y : Str) (op : Char)
    (hx : x ∈ vars) (hy : y ∈ vars)
    (hxl : ∀ c ∈ x, isAsciiLetter c = true) (hyl : ∀ c ∈ y, isAsciiLetter c = true)
    (hop : op ∈ ['∧', '∨', '→', '↔']) :
    generateCircuitDiagram (x ++ op :: y) vars =
      some (Except.ok (gateIdOf 1,
        { gates := [⟨gateIdOf 1, Spec.binaryGateType op, [x, y]⟩]
          connections := []
          gateCount := 1
          gateCounts := Builder.initial.gateCounts.bump (Spec.binaryGateType op) })) ∧
    (x ++ '△' :: y ∉ vars →
      generateCircuitDiagram (x ++ '△' :: y) vars =
        some (Except.error
          (JSError.error ("Expresión no reconocida: ".toList ++ (x ++ '△' :: y))))) := by
  constructor
  · have hopb : op ∈ binaryOps := by
      simp only [List.mem_cons, List.mem_singleton, List.not_mem_nil, or_false] at hop
      rcases hop with e | e | e | e <;> subst e <;> decide
    have hopf : op ≠ '(' ∧ op ≠ '¬' ∧ isJsWhitespace op = false := by
      simp only [List.mem_cons, List.mem_singleton, List.not_mem_nil, or_false] at hop
      rcases hop with e | e | e | e <;> subst e <;> decide
    have htype : (if op = '∨' ∧ parentIsNot Builder.initial.gates none = true then GateType.NOR
        else if op = '∧' ∧ parentIsNot Builder.initial.gates none = true then GateType.NAND
        else gateMap op) = Spec.binaryGateType op := by
      simp only [List.mem_cons, List.mem_singleton, List.not_mem_nil, or_false] at hop
      rcases hop with e | e | e | e <;> subst e <;> decide
    obtain ⟨hws, hhead, _⟩ := binary_text_facts x y op hxl hyl hopf
    have hfuel : (x ++ op :: y).length + 1 = (x.length + y.length) + 1 + 1 := by
      simp only [List.length_append, List.length_cons]
      omega
    unfold generateCircuitDiagram
    rw [hws, hfuel, processSubExpression]
    simp only [hws, stripBalanced_of_head _ _ hhead,
      findOp_binary op x y (plainText_of_letters x hxl) (plainText_of_letters y hyl) hopb,
      take_length_append, drop_length_succ_append, htype,
      processSubExpression_leaf vars _ _ x _ _ hxl hx,
      processSubExpression_leaf vars _ _ y _ _ hyl hy]
    simp [Builder.initial, setInputs, pushConnection]
  · intro hnot
    obtain ⟨hws, hhead, hneg⟩ := binary_text_facts x y '△' hxl hyl (by decide)
    have hplain : Spec.PlainText (x ++ '△' :: y) := by
      intro c hc
      rcases List.mem_append.1 hc with h | h
      · exact plainText_of_letters x hxl c h
      · rcases List.mem_cons.1 h with h | h
        · rw [h]; decide
        · exact plainText_of_letters y hyl c h
    unfold generateCircuitDiagram
    rw [processSubExpression]
    simp only [hws, stripBalanced_of_head _ _ hhead,
      findOp_plain _ hplain binaryOps (fun _ h => h), if_neg hneg]
    simp [hnot]

/-- Witness for C9 (amended): `p→q` gives one OR gate with inputs [p, q]. -/
theorem generateCircuitDiagram_binary_witness :
    generateCircuitDiagram "p→q".toList [['p'], ['q']] =
      some (Except.ok ("gate1".toList,
        { gates := [⟨"gate1".toList, GateType.OR, [['p'], ['q']]⟩]
          connections := []
          gateCount := 1
          gateCounts := ⟨0, 0, 1, 0, 0, 0, 0⟩ })) :=
  (generateCircuitDiagram_binary [['p'], ['q']] ['p'] ['q'] '→'
    (by decide) (by decide) (by decide) (by decide) (by decide)).1

/-- C8: on `¬(p∧q)` and on `¬(p∨q)` with p and q declared the builder emits
two gates, a NOT gate `gate1` with input `gate2` and the NAND (NOR) gate
`gate2` with inputs [p, q]; the NOT gate is counted, and the returned output
gate is the NOT gate. -/
theorem generateCircuitDiagram_negated_binary :
    generateCircuitDiagram "¬(p∧q)".toList [['p'], ['q']] =
      some (Except.ok ("gate1".toList,
        { gates := [⟨"gate1".toList, GateType.NOT, ["gate2".toList]⟩,
                    ⟨"gate2".toList, GateType.NAND, [['p'], ['q']]⟩]
          connections := [⟨"gate2".toList, "gate1".toList, "single".toList⟩]
          gateCount := 2
          gateCounts := ⟨1, 0, 0, 0, 1, 0, 0⟩ })) ∧
    generateCircuitDiagram "¬(p∨q)".toList [['p'], ['q']] =
      some (Except.ok ("gate1".toList,
        { gates := [⟨"gate1".toList, GateType.NOT, ["gate2".toList]⟩,
                    ⟨"gate2".toList, GateType.NOR, [['p'], ['q']]⟩]
          connections := [⟨"gate2".toList, "gate1".toList, "single".toList⟩]
          gateCount := 2
          gateCounts := ⟨1, 0, 0, 1, 0, 0, 0⟩ })) := by
  constructor <;> decide

/-! ## normalizeExpression -/

theorem lazyToClose_length (s : Str) : ∀ g rest, lazyToClose s = some (g, rest) →
    rest.length < s.length := by
  induction s with
  | nil => intro g rest h; simp [lazyToClose] at h
  | cons c cs ih =>
    intro g rest h
    rw [lazyToClose] at h
    split_ifs at h
    · simp only [Option.some.injEq, Prod.mk.injEq] at h
      rw [← h.2]
      exact Nat.lt_succ_self _
    · split at h
      · rename_i g2 rest2 hrec
        simp only [Option.some.injEq, Prod.mk.injEq] at h
        rw [← h.2]
        exact Nat.lt_succ_of_lt (ih _ _ hrec)
      · exact absurd h (by simp)

theorem matchBinaryFrom_length (op : Char) (s : Str) : ∀ g1 a b rest,
    matchBinaryFrom op g1 s = some (a, b, rest) → rest.length < s.length := by
  induction s with
  | nil => intro g1 a b rest h; simp [matchBinaryFrom] at h
  | cons c cs ih =>
    intro g1 a b rest h
    rw [matchBinaryFrom] at h
    split at h
    · rename_i g2 rest2 hm
      simp only [Option.some.injEq, Prod.mk.injEq] at h
      split_ifs at hm
      rw [← h.2.2]
      exact Nat.lt_succ_of_lt (lazyToClose_length _ _ _ hm)
    · split_ifs at h
      exact Nat.lt_succ_of_lt (ih _ _ _ _ h)

theorem matchBinary_length (op : Char) (s : Str) (a b rest : Str)
    (h : matchBinary op s = some (a, b, rest)) : rest.length < s.length := by
  cases s with
  | nil => simp [matchBinary] at h
  | cons c cs =>
    rw [matchBinary] at h
    split_ifs at h
    exact Nat.lt_succ_of_lt (matchBinaryFrom_length op cs _ _ _ _ h)

/-- The scan of `replaceBinary` ends before its bound is reached: any bound of
at least the length of the text gives the same result. -/
theorem replaceBinary_fuel (op : Char) (template : Str → Str → Str) :
    ∀ (fuel fuel' : Nat) (s : Str), s.length ≤ fuel → s.length ≤ fuel' →
      replaceBinary op template fuel s = replaceBinary op template fuel' s := by
  intro fuel
  induction fuel with
  | zero =>
    intro fuel' s h _
    have hs : s = [] := List.length_eq_zero.1 (Nat.le_zero.1 h)
    subst hs
    cases fuel' <;> rfl
  | succ n ih =>
    intro fuel' s h h'
    cases s with
    | nil => cases fuel' <;> rfl
    | cons c cs =>
      cases fuel' with
      | zero => exact absurd h' (by simp)
      | succ m =>
        rw [replaceBinary, replaceBinary]
        split
        · rename_i g1 g2 rest hm
          have hlt := matchBinary_length op _ _ _ _ hm
          simp only [List.length_cons] at hlt h h'
          rw [ih m rest (by omega) (by omega)]
        · simp only [List.length_cons] at h h'
          rw [ih m cs (by omega) (by omega)]

/-- The scan of `replaceDoubleNeg` ends before its bound is reached. -/
theorem replaceDoubleNeg_fuel : ∀ (fuel fuel' : Nat) (s : Str),
    s.length ≤ fuel → s.length ≤ fuel' → replaceDoubleNeg fuel s = replaceDoubleNeg fuel' s := by
  intro fuel
  induction fuel with
  | zero =>
    intro fuel' s h _
    have hs : s = [] := List.length_eq_zero.1 (Nat.le_zero.1 h)
    subst hs
    cases fuel' <;> rfl
  | succ n ih =>
    intro fuel' s h h'
    cases s with
    | nil => cases fuel' <;> rfl
    | cons c cs =>
      cases fuel' with
      | zero => exact absurd h' (by simp)
      | succ m =>
        simp only [List.length_cons] at h h'
        have hcs := ih m cs (by omega) (by omega)
        match cs, h, h', hcs with
        | [], _, _, hcs => simp only [replaceDoubleNeg, hcs]
        | [d], _, _, hcs => simp only [replaceDoubleNeg, hcs]
        | d :: e :: rest, h, h', hcs =>
          simp only [List.length_cons] at h h'
          simp only [replaceDoubleNeg, hcs, ih m rest (by omega) (by omega)]

/-- C10: on `(p→q)∧r` the rewriting of `normalizeExpression` takes `(p` for
the antecedent and returns `(¬((p) ∨ (q)))∧r`; with p, q and r true the
expression evaluates to true and its rewriting to false. On `p→q` alone the
rewriting evaluates like `¬p∨q` on every row. -/
theorem normalizeExpression_changes_value :
    normalizeExpression "(p→q)∧r".toList = "(¬((p) ∨ (q)))∧r".toList ∧
    evaluateLogicalExpression "(p→q)∧r".toList
      [(['p'], true), (['q'], true), (['r'], true)] = some (Except.ok true) ∧
    evaluateLogicalExpression (normalizeExpression "(p→q)∧r".toList)
      [(['p'], true), (['q'], true), (['r'], true)] = some (Except.ok false) ∧
    (∀ p q : Bool,
      evaluateLogicalExpression (normalizeExpression "p→q".toList) [(['p'], p), (['q'], q)] =
        evaluateLogicalExpression "¬p∨q".toList [(['p'], p), (['q'], q)] ∧
      evaluateLogicalExpression (normalizeExpression "p→q".toList) [(['p'], p), (['q'], q)] =
        evaluateLogicalExpression "p→q".toList [(['p'], p), (['q'], q)]) := by
  refine ⟨by decide, by decide, by decide, ?_⟩
  intro p q
  cases p <;> cases q <;> constructor <;> decide

/-! ## Properties of checkLogicType -/

theorem labels_distinct :
    tautologyLabel ≠ contradictionLabel ∧ tautologyLabel ≠ contingencyLabel ∧
      contradictionLabel ≠ contingencyLabel := by decide

/-- C4: `checkLogicType` returns one of the three labels: the tautology
label exactly when every RESULT is true, the contradiction label exactly
when not every RESULT is true and every RESULT is false, the contingency
label otherwise; on a non-empty table a tautology or contradiction label
implies that all rows have the same RESULT. -/
theorem checkLogicType_spec (truthTable : List Obj) :
    (checkLogicType truthTable = tautologyLabel ∨
      checkLogicType truthTable = contradictionLabel ∨
      checkLogicType truthTable = contingencyLabel) ∧
    (checkLogicType truthTable = tautologyLabel ↔
      ∀ row ∈ truthTable, row.get "RESULT".toList = some true) ∧
    (checkLogicType truthTable = contradictionLabel ↔
      ¬ (∀ row ∈ truthTable, row.get "RESULT".toList = some true) ∧
        ∀ row ∈ truthTable, row.get "RESULT".toList = some false) ∧
    (checkLogicType truthTable = contingencyLabel ↔
      ¬ (∀ row ∈ truthTable, row.get "RESULT".toList = some true) ∧
        ¬ (∀ row ∈ truthTable, row.get "RESULT".toList = some false)) ∧
    (truthTable ≠ [] →
      (checkLogicType truthTable = tautologyLabel ∨
        checkLogicType truthTable = contradictionLabel) →
      ∀ r1 ∈ truthTable, ∀ r2 ∈ truthTable,
        r1.get "RESULT".toList = r2.get "RESULT".toList) := by
  obtain ⟨d1, d2, d3⟩ := labels_distinct
  have hT : ((truthTable.map fun row => row.get "RESULT".toList).all
      fun val => val = some true) = true ↔
      ∀ row ∈ truthTable, row.get "RESULT".toList = some true := by
    simp [List.all_eq_true]
  have hF : ((truthTable.map fun row => row.get "RESULT".toList).all
      fun val => val = some false) = true ↔
      ∀ row ∈ truthTable, row.get "RESULT".toList = some false := by
    simp [List.all_eq_true]
  unfold checkLogicType
  simp only
  by_cases h1 : ∀ row ∈ truthTable, row.get "RESULT".toList = some true
  · rw [if_pos (hT.2 h1)]
    refine ⟨Or.inl rfl, ⟨fun _ => h1, fun _ => rfl⟩, ⟨fun h => absurd h d1, fun h => absurd h1 h.1⟩,
      ⟨fun h => absurd h d2, fun h => absurd h1 h.1⟩, ?_⟩
    intro _ _ r1 hr1 r2 hr2
    rw [h1 r1 hr1, h1 r2 hr2]
  · rw [if_neg (fun h => h1 (hT.1 h))]
    by_cases h2 : ∀ row ∈ truthTable, row.get "RESULT".toList = some false
    · rw [if_pos (hF.2 h2)]
      refine ⟨Or.inr (Or.inl rfl), ⟨fun h => absurd h.symm d1, fun h => absurd h h1⟩,
        ⟨fun _ => ⟨h1, h2⟩, fun _ => rfl⟩, ⟨fun h => absurd h d3, fun h => absurd h2 h.2⟩, ?_⟩
      intro _ _ r1 hr1 r2 hr2
      rw [h2 r1 hr1, h2 r2 hr2]
    · rw [if_neg (fun h => h2 (hF.1 h))]
      refine ⟨Or.inr (Or.inr rfl), ⟨fun h => absurd h.symm d2, fun h => absurd h h1⟩,
        ⟨fun h => absurd h.symm d3, fun h => absurd h.2 h2⟩, ⟨fun _ => ⟨h1, h2⟩, fun _ => rfl⟩, ?_⟩
      intro _ h
      rcases h with h | h
      · exact absurd h.symm d2
      · exact absurd h.symm d3

/-! ## The alias loop -/

theorem replaceAllFrom_of_not_infix (alt std : Str) (s : Str) (h : ¬ alt <:+: s) :
    replaceAllFrom alt std 0 s = s := by
  induction s with
  | nil => rfl
  | cons c cs ih =>
    have hp : alt.isPrefixOf (c :: cs) = false := by
      cases hb : alt.isPrefixOf (c :: cs) with
      | false => rfl
      | true => exact absurd (List.isPrefixOf_iff_prefix.1 hb).isInfix h
    rw [replaceAllFrom, hp, ih fun hi => h (List.infix_cons hi)]
    rfl

theorem replaceAllFrom_same (c : Char) (s : Str) : replaceAllFrom [c] [c] 0 s = s := by
  induction s with
  | nil => rfl
  | cons d ds ih =>
    rw [replaceAllFrom]
    cases hb : [c].isPrefixOf (d :: ds) with
    | false => simp [ih]
    | true =>
      have hp := List.isPrefixOf_iff_prefix.1 hb
      have hd : c = d := by
        obtain ⟨t, ht⟩ := hp
        simp only [List.singleton_append, List.cons.injEq] at ht
        exact ht.1
      subst hd
      simp [ih]

theorem mem_replaceAllFrom (alt std : Str) (y : Char) (s : Str) : ∀ k,
    y ∈ replaceAllFrom alt std k s → y ∈ s ∨ y ∈ std := by
  induction s with
  | nil => intro k h; simp [replaceAllFrom] at h
  | cons c cs ih =>
    intro k h
    cases k with
    | succ k =>
      rw [replaceAllFrom] at h
      rcases ih k h with h' | h'
      · exact Or.inl (List.mem_cons_of_mem _ h')
      · exact Or.inr h'
    | zero =>
      rw [replaceAllFrom] at h
      split at h
      · rcases List.mem_append.1 h with h' | h'
        · exact Or.inr h'
        · rcases ih _ h' with h'' | h''
          · exact Or.inl (List.mem_cons_of_mem _ h'')
          · exact Or.inr h''
      · rcases List.mem_cons.1 h with h' | h'
        · exact Or.inl (h' ▸ List.mem_cons_self _ _)
        · rcases ih _ h' with h'' | h''
          · exact Or.inl (List.mem_cons_of_mem _ h'')
          · exact Or.inr h''

theorem not_mem_replaceAll_single (x : Char) (std : Str) (hx : x ∉ std) (s : Str) :
    x ∉ replaceAll [x] std s := by
  unfold replaceAll
  induction s with
  | nil => simp [replaceAllFrom]
  | cons c cs ih =>
    rw [replaceAllFrom]
    cases hb : [x].isPrefixOf (c :: cs) with
    | true =>
      simp only [if_true, List.length_singleton, Nat.sub_self, List.mem_append, not_or]
      exact ⟨hx, ih⟩
    | false =>
      have hne : ¬ x = c := by
        intro e
        subst e
        have : [x].isPrefixOf (x :: cs) = true := by simp [List.isPrefixOf]
        rw [this] at hb
        exact Bool.noConfusion hb
      simp only [Bool.false_eq_true, if_false, List.mem_cons, not_or]
      exact ⟨hne, ih⟩

theorem head?_replaceAllFrom (alt : Str) (d : Char) (s : Str) (b : Char)
    (h : (replaceAllFrom alt [d] 0 s).head? = some b) :
    b = d ∨ (s.head? = some b ∧ alt.isPrefixOf s = false) := by
  cases s with
  | nil => simp [replaceAllFrom] at h
  | cons c cs =>
    rw [replaceAllFrom] at h
    cases hb : alt.isPrefixOf (c :: cs) with
    | true =>
      rw [hb] at h
      simp only [if_true, List.singleton_append, List.head?_cons, Option.some.injEq] at h
      exact Or.inl h.symm
    | false =>
      rw [hb] at h
      simp only [Bool.false_eq_true, if_false, List.head?_cons, Option.some.injEq] at h
      exact Or.inr ⟨by rw [h]; rfl, rfl⟩

theorem chain_replaceAllFrom (alt : Str) (d x y : Char) (hdx : d ≠ x) (hdy : d ≠ y) (s : Str) :
    ∀ k, (s.Chain' fun a b => ¬ (a = x ∧ b = y)) ∨ alt = [x, y] →
      (replaceAllFrom alt [d] k s).Chain' fun a b => ¬ (a = x ∧ b = y) := by
  induction s with
  | nil => intro k _; simp [replaceAllFrom]
  | cons c cs ih =>
    intro k h
    have htail : (cs.Chain' fun a b => ¬ (a = x ∧ b = y)) ∨ alt = [x, y] := by
      rcases h with h | h
      · exact Or.inl (List.Chain'.tail h)
      · exact Or.inr h
    cases k with
    | succ k => rw [replaceAllFrom]; exact ih k htail
    | zero =>
      rw [replaceAllFrom]
      cases hb : alt.isPrefixOf (c :: cs) with
      | true =>
        simp only [if_true, List.singleton_append]
        rw [List.chain'_cons']
        refine ⟨?_, ih _ htail⟩
        intro b _ hab
        exact hdx hab.1
      | false =>
        simp only [Bool.false_eq_true, if_false]
        rw [List.chain'_cons']
        refine ⟨?_, ih _ htail⟩
        intro b hbm hab
        rcases head?_replaceAllFrom alt d cs b hbm with e | ⟨e, _⟩
        · exact hdy (e.symm.trans hab.2)
        · rcases h with h | h
          · rw [List.chain'_cons'] at h
            exact h.1 b e hab
          · obtain ⟨t, ht⟩ := List.head?_eq_some_iff.1 e
            have hp : alt.isPrefixOf (c :: cs) = true := by
              rw [h, ht, hab.1, hab.2]
              simp [List.isPrefixOf]
            rw [hp] at hb
            exact Bool.noConfusion hb

theorem not_infix_of_chain (x y : Char) (s : Str)
    (h : s.Chain' fun a b => ¬ (a = x ∧ b = y)) : ¬ [x, y] <:+: s := by
  intro hi
  have := List.Chain'.infix h hi
  rw [List.chain'_pair] at this
  exact this ⟨rfl, rfl⟩

theorem not_infix_of_not_mem (alt : Str) (x : Char) (s : Str) (hx : x ∈ alt) (h : x ∉ s) :
    ¬ alt <:+: s := fun hi => h (hi.subset hx)

/-- The steps of the alias loop over some entries of `operatorMap`. -/
theorem foldl_not_mem (entries : List (Str × Str)) (x : Char)
    (he : ∀ e ∈ entries, x ∉ e.2) : ∀ s : Str, x ∉ s →
    x ∉ entries.foldl (fun t entry => replaceAll entry.1 entry.2 t) s := by
  induction entries with
  | nil => intro s h; exact h
  | cons e es ih =>
    intro s h
    rw [List.foldl_cons]
    apply ih (fun e' he' => he e' (List.mem_cons_of_mem _ he'))
    intro hm
    rcases mem_replaceAllFrom e.1 e.2 x s 0 hm with h' | h'
    · exact h h'
    · exact he e (List.mem_cons_self _ _) h'

theorem foldl_chain (entries : List (Str × Str)) (x y : Char)
    (he : ∀ e ∈ entries, e.2.length = 1 ∧ x ∉ e.2 ∧ y ∉ e.2) : ∀ s : Str,
    (s.Chain' fun a b => ¬ (a = x ∧ b = y)) →
    (entries.foldl (fun t entry => replaceAll entry.1 entry.2 t) s).Chain'
      fun a b => ¬ (a = x ∧ b = y) := by
  induction entries with
  | nil => intro s h; exact h
  | cons e es ih =>
    intro s h
    rw [List.foldl_cons]
    apply ih (fun e' he' => he e' (List.mem_cons_of_mem _ he'))
    obtain ⟨hlen, hx, hy⟩ := he e (List.mem_cons_self _ _)
    obtain ⟨d, hd⟩ := List.length_eq_one.1 hlen
    rw [hd] at hx hy
    unfold replaceAll
    rw [hd]
    exact chain_replaceAllFrom e.1 d x y (fun e' => hx (by simp [e']))
      (fun e' => hy (by simp [e'])) s 0 (Or.inl h)

theorem normalizeAliases_split (pre post : List (Str × Str)) (e : Str × Str)
    (h : operatorMap = pre ++ e :: post) (s : Str) :
    normalizeAliases s =
      post.foldl (fun t entry => replaceAll entry.1 entry.2 t)
        (replaceAll e.1 e.2 (pre.foldl (fun t entry => replaceAll entry.1 entry.2 t) s)) := by
  unfold normalizeAliases
  rw [h, List.foldl_append, List.foldl_cons]

theorem normalizeAliases_of_canonical (s : Str)
    (h : ∀ alt ∈ Spec.aliasSpellings, ¬ alt <:+: s) : normalizeAliases s = s := by
  have e1 : replaceAll "¬".toList "¬".toList s = s := replaceAllFrom_same '¬' s
  have e2 : replaceAll "~".toList "¬".toList s = s :=
    replaceAllFrom_of_not_infix _ _ s (h _ (by decide))
  have e3 : replaceAll "·".toList "∧".toList s = s :=
    replaceAllFrom_of_not_infix _ _ s (h _ (by decide))
  have e4 : replaceAll "*".toList "∧".toList s = s :=
    replaceAllFrom_of_not_infix _ _ s (h _ (by decide))
  have e5 : replaceAll "×".toList "∧".toList s = s :=
    replaceAllFrom_of_not_infix _ _ s (h _ (by decide))
  have e6 : replaceAll "&&".toList "∧".toList s = s :=
    replaceAllFrom_of_not_infix _ _ s (h _ (by decide))
  have e7 : replaceAll "+".toList "∨".toList s = s :=
    replaceAllFrom_of_not_infix _ _ s (h _ (by decide))
  have e8 : replaceAll "||".toList "∨".toList s = s :=
    replaceAllFrom_of_not_infix _ _ s (h _ (by decide))
  have e9 : replaceAll "→".toList "→".toList s = s := replaceAllFrom_same '→' s
  have e10 : replaceAll "->".toList "→".toList s = s :=
    replaceAllFrom_of_not_infix _ _ s (h _ (by decide))
  have e11 : replaceAll "↔".toList "↔".toList s = s := replaceAllFrom_same '↔' s
  have e12 : replaceAll "<->".toList "↔".toList s = s :=
    replaceAllFrom_of_not_infix _ _ s (h _ (by decide))
  unfold normalizeAliases operatorMap
  simp only [List.foldl_cons, List.foldl_nil, e1, e2, e3, e4, e5, e6, e7, e8, e9, e10, e11, e12]

theorem normalizeAliases_no_single (x : Char) (std : Str) (pre post : List (Str × Str))
    (h : operatorMap = pre ++ ([x], std) :: post) (hx : x ∉ std)
    (hpost : ∀ e ∈ post, x ∉ e.2) (s : Str) : x ∉ normalizeAliases s := by
  rw [normalizeAliases_split pre post _ h s]
  exact foldl_not_mem post x hpost _ (not_mem_replaceAll_single x std hx _)

theorem normalizeAliases_no_pair (x y d : Char) (pre post : List (Str × Str))
    (h : operatorMap = pre ++ ([x, y], [d]) :: post) (hdx : d ≠ x) (hdy : d ≠ y)
    (hpost : ∀ e ∈ post, e.2.length = 1 ∧ x ∉ e.2 ∧ y ∉ e.2) (s : Str) :
    ¬ [x, y] <:+: normalizeAliases s := by
  rw [normalizeAliases_split pre post _ h s]
  exact not_infix_of_chain x y _
    (foldl_chain post x y hpost _ (chain_replaceAllFrom [x, y] d x y hdx hdy _ 0 (Or.inr rfl)))

theorem normalizeAliases_canonical (s : Str) :
    ∀ alt ∈ Spec.aliasSpellings, ¬ alt <:+: normalizeAliases s := by
  have h1 : '~' ∉ normalizeAliases s :=
    normalizeAliases_no_single '~' "¬".toList (operatorMap.take 1) (operatorMap.drop 2)
      (by decide) (by decide) (by decide) s
  have h2 : '·' ∉ normalizeAliases s :=
    normalizeAliases_no_single '·' "∧".toList (operatorMap.take 2) (operatorMap.drop 3)
      (by decide) (by decide) (by decide) s
  have h3 : '*' ∉ normalizeAliases s :=
    normalizeAliases_no_single '*' "∧".toList (operatorMap.take 3) (operatorMap.drop 4)
      (by decide) (by decide) (by decide) s
  have h4 : '×' ∉ normalizeAliases s :=
    normalizeAliases_no_single '×' "∧".toList (operatorMap.take 4) (operatorMap.drop 5)
      (by decide) (by decide) (by decide) s
  have h5 : '+' ∉ normalizeAliases s :=
    normalizeAliases_no_single '+' "∨".toList (operatorMap.take 6) (operatorMap.drop 7)
      (by decide) (by decide) (by decide) s
  have h6 : ¬ ['&', '&'] <:+: normalizeAliases s :=
    normalizeAliases_no_pair '&' '&' '∧' (operatorMap.take 5) (operatorMap.drop 6)
      (by decide) (by decide) (by decide) (by decide) s
  have h7 : ¬ ['|', '|'] <:+: normalizeAliases s :=
    normalizeAliases_no_pair '|' '|' '∨' (operatorMap.take 7) (operatorMap.drop 8)
      (by decide) (by decide) (by decide) (by decide) s
  have h8 : ¬ ['-', '>'] <:+: normalizeAliases s :=
    normalizeAliases_no_pair '-' '>' '→' (operatorMap.take 9) (operatorMap.drop 10)
      (by decide) (by decide) (by decide) (by decide) s
  intro alt halt
  simp only [Spec.aliasSpellings, List.mem_cons, List.mem_singleton, List.not_mem_nil,
    or_false] at halt
  rcases halt with e | e | e | e | e | e | e | e | e <;> subst e
  · exact not_infix_of_not_mem _ '~' _ (by decide) h1
  · exact not_infix_of_not_mem _ '·' _ (by decide) h2
  · exact not_infix_of_not_mem _ '*' _ (by decide) h3
  · exact not_infix_of_not_mem _ '×' _ (by decide) h4
  · exact not_infix_of_not_mem _ '+' _ (by decide) h5
  · exact h6
  · exact h7
  · exact h8
  · intro hi
    exact h8 ((List.suffix_cons '<' ['-', '>']).isInfix.trans hi)

/-- C17: the alias loop returns a text that contains none of the alias
spellings `~`, `·`, `*`, `×`, `+`, `&&`, `||`, `->`, `<->` unchanged, and
applying the loop twice to any text gives the same result as applying it
once. -/
theorem normalizeAliases_idempotent (s : Str) :
    ((∀ alt ∈ Spec.aliasSpellings, ¬ alt <:+: s) → normalizeAliases s = s) ∧
    normalizeAliases (normalizeAliases s) = normalizeAliases s :=
  ⟨normalizeAliases_of_canonical s,
   normalizeAliases_of_canonical _ (normalizeAliases_canonical s)⟩

theorem replaceAllFrom_skip (alt std : Str) (t : Str) : ∀ b : Str,
    replaceAllFrom alt std t.length (t ++ b) = replaceAllFrom alt std 0 b := by
  induction t with
  | nil => intro b; rfl
  | cons c cs ih =>
    intro b
    have hstep : replaceAllFrom alt std (cs.length + 1) (c :: (cs ++ b)) =
        replaceAllFrom alt std cs.length (cs ++ b) := by
      rw [replaceAllFrom]
    rw [List.length_cons, List.cons_append, hstep, ih]

theorem replaceAll_middle (h : Char) (t std a b : Str) (ha : h ∉ a) (hb : h ∉ b) :
    replaceAll (h :: t) std (a ++ (h :: t) ++ b) = a ++ std ++ b := by
  unfold replaceAll
  induction a with
  | nil =>
    have hp : (h :: t).isPrefixOf (h :: (t ++ b)) = true :=
      List.isPrefixOf_iff_prefix.2 ⟨b, by simp⟩
    rw [List.nil_append, List.cons_append, replaceAllFrom, hp]
    simp only [if_true, List.length_cons, Nat.add_sub_cancel, List.nil_append]
    rw [replaceAllFrom_skip, replaceAllFrom_of_not_infix _ _ b
      (not_infix_of_not_mem _ h b (List.mem_cons_self _ _) hb)]
  | cons c cs ih =>
    have hne : ¬ h = c := fun e => ha (e ▸ List.mem_cons_self _ _)
    have hp : (h :: t).isPrefixOf (c :: (cs ++ (h :: t) ++ b)) = false := by
      cases hq : (h :: t).isPrefixOf (c :: (cs ++ (h :: t) ++ b)) with
      | false => rfl
      | true =>
        obtain ⟨r, hr⟩ := List.isPrefixOf_iff_prefix.1 hq
        simp only [List.cons_append, List.cons.injEq] at hr
        exact absurd hr.1 hne
    rw [List.cons_append, List.cons_append, replaceAllFrom, hp]
    simp only [Bool.false_eq_true, if_false, List.cons_append]
    rw [ih fun hm => ha (List.mem_cons_of_mem _ hm)]

theorem foldl_fixed (entries : List (Str × Str)) (a mid b : Str)
    (ha : ∀ c ∈ a, c ∉ Spec.operatorAlphabet) (hb : ∀ c ∈ b, c ∉ Spec.operatorAlphabet)
    (he : ∀ e ∈ entries, (e.1 = e.2 ∧ e.1.length = 1) ∨
      ∃ x ∈ e.1, x ∈ Spec.operatorAlphabet ∧ x ∉ mid) :
    entries.foldl (fun t entry => replaceAll entry.1 entry.2 t) (a ++ mid ++ b) =
      a ++ mid ++ b := by
  induction entries with
  | nil => rfl
  | cons e es ih =>
    rw [List.foldl_cons]
    have hstep : replaceAll e.1 e.2 (a ++ mid ++ b) = a ++ mid ++ b := by
      rcases he e (List.mem_cons_self _ _) with ⟨h1, h2⟩ | ⟨x, hx, hxa, hxm⟩
      · obtain ⟨c, hc⟩ := List.length_eq_one.1 h2
        unfold replaceAll
        rw [← h1, hc]
        exact replaceAllFrom_same c _
      · apply replaceAllFrom_of_not_infix
        apply not_infix_of_not_mem _ x _ hx
        simp only [List.mem_append, not_or]
        exact ⟨⟨fun h => ha x h hxa, hxm⟩, fun h => hb x h hxa⟩
    rw [hstep]
    exact ih fun e' he' => he e' (List.mem_cons_of_mem _ he')

theorem normalizeAliases_alias (h d : Char) (t a b : Str) (pre post : List (Str × Str))
    (hmap : operatorMap = pre ++ (h :: t, [d]) :: post)
    (ha : ∀ c ∈ a, c ∉ Spec.operatorAlphabet) (hb : ∀ c ∈ b, c ∉ Spec.operatorAlphabet)
    (hh : h ∈ Spec.operatorAlphabet)
    (hpre : ∀ e ∈ pre, (e.1 = e.2 ∧ e.1.length = 1) ∨
      ∃ x ∈ e.1, x ∈ Spec.operatorAlphabet ∧ x ∉ h :: t)
    (hpost : ∀ e ∈ post, (e.1 = e.2 ∧ e.1.length = 1) ∨
      ∃ x ∈ e.1, x ∈ Spec.operatorAlphabet ∧ x ∉ [d]) :
    normalizeAliases (a ++ (h :: t) ++ b) = a ++ [d] ++ b := by
  rw [normalizeAliases_split pre post _ hmap, foldl_fixed pre a (h :: t) b ha hb hpre,
    replaceAll_middle h t [d] a b (fun hm => ha h hm hh) (fun hm => hb h hm hh),
    foldl_fixed post a [d] b ha hb hpost]

/-- The multi-character aliases between two texts free of operator and alias
characters: `->`, `&&` and `||` are replaced as a whole, and of `<->` the
part `->` is replaced, which leaves `<→`. -/
theorem normalizeAliases_multi (a b : Str)
    (ha : ∀ c ∈ a, c ∉ Spec.operatorAlphabet) (hb : ∀ c ∈ b, c ∉ Spec.operatorAlphabet) :
    normalizeAliases (a ++ "->".toList ++ b) = a ++ "→".toList ++ b ∧
    normalizeAliases (a ++ "&&".toList ++ b) = a ++ "∧".toList ++ b ∧
    normalizeAliases (a ++ "||".toList ++ b) = a ++ "∨".toList ++ b ∧
    normalizeAliases (a ++ "<->".toList ++ b) = a ++ "<→".toList ++ b := by
  refine ⟨?_, ?_, ?_, ?_⟩
  · exact normalizeAliases_alias '-' '→' ['>'] a b (operatorMap.take 9) (operatorMap.drop 10)
      (by decide) ha hb (by decide) (by decide) (by decide)
  · exact normalizeAliases_alias '&' '∧' ['&'] a b (operatorMap.take 5) (operatorMap.drop 6)
      (by decide) ha hb (by decide) (by decide) (by decide)
  · exact normalizeAliases_alias '|' '∨' ['|'] a b (operatorMap.take 7) (operatorMap.drop 8)
      (by decide) ha hb (by decide) (by decide) (by decide)
  · have ha' : ∀ c ∈ a ++ ['<'], c ∉ Spec.operatorAlphabet ∨ c = '<' := by
      intro c hc
      rcases List.mem_append.1 hc with h | h
      · exact Or.inl (ha c h)
      · exact Or.inr (List.mem_singleton.1 h)
    have hsplit := normalizeAliases_split (operatorMap.take 9) (operatorMap.drop 10)
      ("->".toList, "→".toList) (by decide) (a ++ "<->".toList ++ b)
    rw [hsplit]
    have hpre : (operatorMap.take 9).foldl (fun t entry => replaceAll entry.1 entry.2 t)
        (a ++ "<->".toList ++ b) = a ++ "<->".toList ++ b :=
      foldl_fixed _ a "<->".toList b ha hb (by decide)
    have hmid : replaceAll "->".toList "→".toList (a ++ "<->".toList ++ b) =
        a ++ "<→".toList ++ b := by
      have := replaceAll_middle '-' ['>'] "→".toList (a ++ ['<']) b
        (by
          intro hm
          rcases ha' '-' hm with h | h
          · exact h (by decide)
          · exact absurd h (by decide))
        (fun hm => hb '-' hm (by decide))
      simpa using this
    rw [hpre, hmid]
    exact foldl_fixed _ a "<→".toList b ha hb (by decide)

/-- C11: the alias loop turns `a<->b` into `a<→b`: the entry `->` comes
before the entry `<->` in `operatorMap` and replaces a part of the alias;
`a->b`, `a&&b` and `a||b` become `a→b`, `a∧b` and `a∨b`. -/
theorem normalizeAliases_biconditional_alias :
    normalizeAliases "a<->b".toList = "a<→b".toList ∧
    normalizeAliases "a->b".toList = "a→b".toList ∧
    normalizeAliases "a&&b".toList = "a∧b".toList ∧
    normalizeAliases "a||b".toList = "a∨b".toList := by
  refine ⟨by decide, by decide, by decide, by decide⟩

/-! ## The character validation -/

/-- C12: with p and q declared the validation accepts `~p`, `p·q`, `p*q`,
`p×q` and `p+q` and rejects `p->q`, `p<->q`, `p&&q` and `p||q` with the
invalid-characters error; the class of `validChars` holds the characters
¬ ~ · * × + → ↔ ( ) and, for the tail `\\s` of its literal, a backslash and
the letter s. -/
theorem validation_rejects_aliases :
    validCharsClass = ['¬', '~', '·', '*', '×', '+', '→', '↔', '(', ')', '\\', 's'] ∧
    normalizedExpr "p->q".toList [['p'], ['q']] =
      some (Except.error (JSError.error "Caracteres no válidos en la expresión: ->".toList)) ∧
    normalizedExpr "p<->q".toList [['p'], ['q']] =
      some (Except.error (JSError.error "Caracteres no válidos en la expresión: <->".toList)) ∧
    normalizedExpr "p&&q".toList [['p'], ['q']] =
      some (Except.error (JSError.error "Caracteres no válidos en la expresión: &&".toList)) ∧
    normalizedExpr "p||q".toList [['p'], ['q']] =
      some (Except.error (JSError.error "Caracteres no válidos en la expresión: ||".toList)) ∧
    normalizedExpr "~p".toList [['p'], ['q']] = some (Except.ok "¬p".toList) ∧
    normalizedExpr "p·q".toList [['p'], ['q']] = some (Except.ok "p∧q".toList) ∧
    normalizedExpr "p*q".toList [['p'], ['q']] = some (Except.ok "p∧q".toList) ∧
    normalizedExpr "p×q".toList [['p'], ['q']] = some (Except.ok "p∧q".toList) ∧
    normalizedExpr "p+q".toList [['p'], ['q']] = some (Except.ok "p∨q".toList) := by
  refine ⟨by decide, by decide, by decide, by decide, by decide, by decide, by decide,
    by decide, by decide, by decide⟩

/-! ## Gate ids -/

theorem digitChar_toNat (k : Nat) (hk : k < 10) : (Nat.digitChar k).toNat - 48 = k := by
  interval_cases k <;> rfl

theorem digitChar_not_letter (k : Nat) (hk : k < 10) : isAsciiLetter (Nat.digitChar k) = false := by
  interval_cases k <;> rfl

theorem toDigitsCore_value : ∀ (fuel n : Nat) (ds : Str), n < fuel →
    (Nat.toDigitsCore 10 fuel n ds).foldl (fun acc c => acc * 10 + (c.toNat - 48)) 0 =
      ds.foldl (fun acc c => acc * 10 + (c.toNat - 48)) n := by
  intro fuel
  induction fuel with
  | zero => intro n ds h; omega
  | succ fuel ih =>
    intro n ds h
    rw [Nat.toDigitsCore]
    split
    · rename_i h0
      have hn : n % 10 = n := by omega
      have hd := digitChar_toNat (n % 10) (Nat.mod_lt _ (by decide))
      rw [hn] at hd
      simp [List.foldl_cons, hn, hd]
    · rename_i h0
      rw [ih (n / 10) _ (by omega)]
      simp only [List.foldl_cons, digitChar_toNat (n % 10) (Nat.mod_lt _ (by decide))]
      congr 1
      omega

theorem digitsValue_toDigits (n : Nat) : Spec.digitsValue (Nat.toDigits 10 n) = n := by
  unfold Spec.digitsValue Nat.toDigits
  rw [toDigitsCore_value (n + 1) n [] (by omega)]
  rfl

theorem gateIdOf_injective {m n : Nat} (h : gateIdOf m = gateIdOf n) : m = n := by
  unfold gateIdOf at h
  have h2 := List.append_cancel_left h
  rw [← digitsValue_toDigits m, ← digitsValue_toDigits n, h2]

theorem toDigitsCore_suffix : ∀ (fuel n : Nat) (ds : Str),
    ∃ pre, Nat.toDigitsCore 10 fuel n ds = pre ++ ds := by
  intro fuel
  induction fuel with
  | zero => intro n ds; exact ⟨[], by simp [Nat.toDigitsCore]⟩
  | succ fuel ih =>
    intro n ds
    rw [Nat.toDigitsCore]
    split
    · exact ⟨[Nat.digitChar (n % 10)], rfl⟩
    · obtain ⟨pre, hpre⟩ := ih (n / 10) (Nat.digitChar (n % 10) :: ds)
      exact ⟨pre ++ [Nat.digitChar (n % 10)], by rw [hpre]; simp⟩

theorem digit_mem_gateIdOf (n : Nat) : Nat.digitChar (n % 10) ∈ gateIdOf n := by
  unfold gateIdOf Nat.toDigits
  rw [Nat.toDigitsCore]
  split
  · simp
  · obtain ⟨pre, hpre⟩ := toDigitsCore_suffix n (n / 10) [Nat.digitChar (n % 10)]
    rw [hpre]; simp

theorem gateIdOf_ne_letters (n : Nat) (v : Str) (hv : ∀ c ∈ v, isAsciiLetter c = true) :
    v ≠ gateIdOf n := by
  intro h
  have := hv _ (h ▸ digit_mem_gateIdOf n)
  rw [digitChar_not_letter _ (Nat.mod_lt _ (by decide))] at this
  exact Bool.noConfusion this

theorem gateIdOf_cons (n : Nat) : ∃ cs, gateIdOf n = 'g' :: cs := ⟨_, rfl⟩
/-! ## The builder follows a formula tree -/

theorem findOp_mem (s : Str) : ∀ (ops : List Char) (d : Int) (p : Nat) (op : Char),
    findOp ops d s = some (p, op) → op ∈ ops := by
  intro ops
  induction ops with
  | nil => intro d p op h; simp [findOp] at h
  | cons b bs ih =>
    intro d p op h
    rw [findOp] at h
    split at h
    · simp only [Option.some.injEq, Prod.mk.injEq] at h
      rw [← h.2]; exact List.mem_cons_self _ _
    · exact List.mem_cons_of_mem _ (ih _ _ _ h)

theorem binaryOps_symbol {op : Char} (h : op ∈ binaryOps) :
    ∃ bop : Spec.BinOp, bop.symbol = op ∧ bop ≠ Spec.BinOp.XOR := by
  simp only [binaryOps, List.mem_cons, List.mem_singleton, List.not_mem_nil, or_false] at h
  rcases h with h | h | h | h
  · exact ⟨Spec.BinOp.IFF, h ▸ rfl, by decide⟩
  · exact ⟨Spec.BinOp.IMPLIES, h ▸ rfl, by decide⟩
  · exact ⟨Spec.BinOp.OR, h ▸ rfl, by decide⟩
  · exact ⟨Spec.BinOp.AND, h ▸ rfl, by decide⟩

theorem processSubExpression_emit (vars : List Str) : ∀ (fuel : Nat) (st : Builder) (s : Str)
    (pg : Option Str) (side : Str) (out : Str) (st' : Builder),
    processSubExpression vars fuel st s pg side = some (Except.ok (out, st')) →
    ∃ T : Spec.Formula, (∀ v ∈ T.vars, v ∈ vars) ∧ T.emit st pg side = (out, st') := by
  intro fuel
  induction fuel with
  | zero => intro st s pg side out st' h; simp [processSubExpression] at h
  | succ fuel ih =>
    intro st s pg side out st' h
    rw [processSubExpression] at h
    simp only at h
    split at h
    · rename_i opPos op hfind
      obtain ⟨bop, hbop, -⟩ := binaryOps_symbol (findOp_mem _ _ _ _ _ hfind)
      split at h
      · cases h
      · cases h
      · rename_i leftInput st2 hl
        split at h
        · cases h
        · cases h
        · rename_i rightInput st3 hr
          obtain ⟨Ta, hva, hTa⟩ := ih _ _ _ _ _ _ hl
          obtain ⟨Tb, hvb, hTb⟩ := ih _ _ _ _ _ _ hr
          refine ⟨Spec.Formula.bin bop Ta Tb, ?_, ?_⟩
          · intro v hv
            simp only [Spec.Formula.vars, List.mem_append] at hv
            rcases hv with hv | hv
            · exact hva v hv
            · exact hvb v hv
          · simp only [Option.some.injEq, Except.ok.injEq] at h
            rw [← h]
            simp only [Spec.Formula.emit, Spec.builderGateType, hbop, hTa, hTb]
    · split at h
      · split at h
        · cases h
        · cases h
        · rename_i innerInput st2 hi
          obtain ⟨Ta, hva, hTa⟩ := ih _ _ _ _ _ _ hi
          refine ⟨Spec.Formula.not Ta, hva, ?_⟩
          simp only [Option.some.injEq, Except.ok.injEq] at h
          rw [← h]
          simp only [Spec.Formula.emit, hTa]
      · split at h
        · rename_i hmem
          simp only [Option.some.injEq, Except.ok.injEq, Prod.mk.injEq] at h
          refine ⟨Spec.Formula.var out, ?_, ?_⟩
          · intro v hv
            simp only [Spec.Formula.vars, List.mem_singleton] at hv
            rw [hv, ← h.1]
            simpa using hmem
          · rw [← h.2]; rfl
        · cases h
theorem setInputs_append (pre post : List Gate) (g0 : Gate) (inputs : List Str)
    (h : ∀ g ∈ pre, g.id ≠ g0.id) :
    setInputs (pre ++ g0 :: post) g0.id inputs = pre ++ { g0 with inputs := inputs } :: post := by
  induction pre with
  | nil => simp [setInputs]
  | cons g gs ih =>
    have hg : g.id ≠ g0.id := h g (List.mem_cons_self _ _)
    rw [List.cons_append, setInputs, if_neg hg, ih (fun g' hg' => h g' (List.mem_cons_of_mem _ hg')),
      List.cons_append]

theorem parentIsNot_append (pre post : List Gate) (g0 : Gate) (k : Nat)
    (hid : g0.id = gateIdOf k) (h : ∀ g ∈ pre, g.id ≠ gateIdOf k) :
    parentIsNot (pre ++ g0 :: post) (some (gateIdOf k)) = decide (g0.type = GateType.NOT) := by
  obtain ⟨cs, hcs⟩ := gateIdOf_cons k
  have hfind : (pre ++ g0 :: post).find? (fun g => g.id = gateIdOf k) = some g0 := by
    rw [List.find?_append]
    have hnone : pre.find? (fun g => decide (g.id = gateIdOf k)) = none := by
      rw [List.find?_eq_none]
      intro g hg
      simpa using h g hg
    rw [hnone]
    simp [List.find?_cons, hid]
  rw [hcs] at hfind ⊢
  simp only [parentIsNot, hfind]

theorem pushConnection_append (pre conns : List Connection) (gateId : Str) (pg : Option Str)
    (side : Str) :
    pushConnection (pre ++ conns) gateId pg side = pre ++ pushConnection conns gateId pg side := by
  unfold pushConnection
  split <;> simp

theorem builderGateType_ne_not (op : Spec.BinOp) (u : Bool) :
    Spec.builderGateType op.symbol u ≠ GateType.NOT := by
  cases op <;> cases u <;> decide

theorem gatesOf_ids (T : Spec.Formula) : ∀ (c : Nat) (u : Bool),
    (T.gatesOf c u).map Gate.id = (List.range' (c + 1) T.size).map gateIdOf := by
  induction T with
  | var v => intro c u; rfl
  | not a ih =>
    intro c u
    simp only [Spec.Formula.gatesOf, Spec.Formula.size, List.map_cons, ih (c + 1) true,
      List.range'_succ]
  | bin op a b iha ihb =>
    intro c u
    have hsz : a.size + b.size + 1 = (b.size + a.size) + 1 := by omega
    simp only [Spec.Formula.gatesOf, Spec.Formula.size, List.map_cons, List.map_append,
      iha (c + 1) false, ihb (c + 1 + a.size) false]
    rw [hsz, List.range'_succ, ← List.range'_append_1, List.map_cons, List.map_append,
      Nat.add_right_comm (c + 1) a.size 1]

theorem gatesOf_length (T : Spec.Formula) (c : Nat) (u : Bool) :
    (T.gatesOf c u).length = T.size := by
  have := congrArg List.length (gatesOf_ids T c u)
  simpa using this

theorem gatesOf_id_mem (T : Spec.Formula) (c : Nat) (u : Bool) (g : Gate)
    (hg : g ∈ T.gatesOf c u) : ∃ j, c < j ∧ j ≤ c + T.size ∧ g.id = gateIdOf j := by
  have h : g.id ∈ (T.gatesOf c u).map Gate.id := List.mem_map_of_mem _ hg
  rw [gatesOf_ids] at h
  simp only [List.mem_map, List.mem_range'_1] at h
  obtain ⟨i, hi, he⟩ := h
  exact ⟨i, by omega, by omega, he.symm⟩

theorem emit_eq (T : Spec.Formula) : ∀ (st : Builder) (pg : Option Str) (side : Str),
    (∀ g ∈ st.gates, ∀ k, st.gateCount < k → g.id ≠ gateIdOf k) →
    (T.emit st pg side).1 = T.outOf st.gateCount ∧
    (T.emit st pg side).2.gates =
      st.gates ++ T.gatesOf st.gateCount (parentIsNot st.gates pg) ∧
    (T.emit st pg side).2.connections = st.connections ++ T.connsOf st.gateCount pg side ∧
    (T.emit st pg side).2.gateCount = st.gateCount + T.size := by
  induction T with
  | var v => intro st pg side _; simp [Spec.Formula.emit, Spec.Formula.outOf,
      Spec.Formula.gatesOf, Spec.Formula.connsOf, Spec.Formula.size]
  | not a ih =>
    intro st pg side hfresh
    have hold : ∀ g ∈ st.gates, g.id ≠ gateIdOf (st.gateCount + 1) :=
      fun g hg => hfresh g hg _ (Nat.lt_succ_self _)
    have h1 := ih
      { gates := st.gates ++ [⟨gateIdOf (st.gateCount + 1), GateType.NOT, []⟩]
        connections := st.connections
        gateCount := st.gateCount + 1
        gateCounts := st.gateCounts.bump GateType.NOT }
      (some (gateIdOf (st.gateCount + 1))) "single".toList (by
        intro g hg k hk
        simp only [List.mem_append, List.mem_singleton] at hg
        rcases hg with hg | hg
        · exact hfresh g hg k (by simp only at hk; omega)
        · rw [hg]; intro e; have := gateIdOf_injective e; simp only at hk; omega)
    simp only at h1
    rw [parentIsNot_append st.gates [] _ _ rfl hold] at h1
    obtain ⟨ho, hg, hc, hn⟩ := h1
    refine ⟨rfl, ?_, ?_, ?_⟩
    · simp only [Spec.Formula.emit, hg, ho]
      simp only [List.append_assoc, List.singleton_append]
      exact setInputs_append st.gates _ ⟨gateIdOf (st.gateCount + 1), GateType.NOT, []⟩ _ hold
    · simp only [Spec.Formula.emit, hc, Spec.Formula.connsOf]
      exact pushConnection_append _ _ _ _ _
    · simp only [Spec.Formula.emit, hn, Spec.Formula.size]; omega
  | bin op a b iha ihb =>
    intro st pg side hfresh
    have hold : ∀ g ∈ st.gates, g.id ≠ gateIdOf (st.gateCount + 1) :=
      fun g hg => hfresh g hg _ (Nat.lt_succ_self _)
    have h1 := iha
      { gates := st.gates ++ [⟨gateIdOf (st.gateCount + 1),
          Spec.builderGateType op.symbol (parentIsNot st.gates pg), []⟩]
        connections := st.connections
        gateCount := st.gateCount + 1
        gateCounts := st.gateCounts.bump
          (Spec.builderGateType op.symbol (parentIsNot st.gates pg)) }
      (some (gateIdOf (st.gateCount + 1))) "left".toList (by
        intro g hg k hk
        simp only [List.mem_append, List.mem_singleton] at hg
        rcases hg with hg | hg
        · exact hfresh g hg k (by simp only at hk; omega)
        · rw [hg]; intro e; have := gateIdOf_injective e; simp only at hk; omega)
    simp only at h1
    rw [parentIsNot_append st.gates [] _ _ rfl hold] at h1
    simp only [builderGateType_ne_not, decide_False] at h1
    obtain ⟨ho, hg, hc, hn⟩ := h1
    have h2 := ihb (a.emit
      { gates := st.gates ++ [⟨gateIdOf (st.gateCount + 1),
          Spec.builderGateType op.symbol (parentIsNot st.gates pg), []⟩]
        connections := st.connections
        gateCount := st.gateCount + 1
        gateCounts := st.gateCounts.bump
          (Spec.builderGateType op.symbol (parentIsNot st.gates pg)) }
      (some (gateIdOf (st.gateCount + 1))) "left".toList).2
      (some (gateIdOf (st.gateCount + 1))) "right".toList (by
        intro g hgm k hk
        rw [hn] at hk
        rw [hg] at hgm
        simp only [List.mem_append, List.mem_singleton] at hgm
        rcases hgm with (hgm | hgm) | hgm
        · exact hfresh g hgm k (by omega)
        · rw [hgm]; intro e; have := gateIdOf_injective e; simp only at this; omega
        · obtain ⟨j, hj1, hj2, hj⟩ := gatesOf_id_mem _ _ _ _ hgm
          rw [hj]; intro e; have := gateIdOf_injective e; omega)
    rw [hg, hn, hc] at h2
    simp only [List.append_assoc, List.singleton_append] at h2
    rw [parentIsNot_append st.gates _ _ _ rfl hold] at h2
    simp only [builderGateType_ne_not, decide_False] at h2
    obtain ⟨ho2, hg2, hc2, hn2⟩ := h2
    refine ⟨rfl, ?_, ?_, ?_⟩
    · simp only [Spec.Formula.emit, hg2, ho, ho2]
      exact setInputs_append st.gates _ ⟨gateIdOf (st.gateCount + 1), _, []⟩ _ hold
    · simp only [Spec.Formula.emit, hc2, Spec.Formula.connsOf]
      exact pushConnection_append _ _ _ _ _
    · simp only [Spec.Formula.emit, hn2, Spec.Formula.size]; omega
/-! ## The graph of a formula tree is a tree -/

theorem parentTruthy_gateIdOf (k : Nat) : parentTruthy (some (gateIdOf k)) = true := rfl

theorem pushConnection_cases (conns : List Connection) (gateId : Str) (pg : Option Str)
    (side : Str) :
    (parentTruthy pg = true ∧ ∃ p, pg = some p ∧
        pushConnection conns gateId pg side = conns ++ [⟨gateId, p, side⟩]) ∨
      (parentTruthy pg = false ∧ pushConnection conns gateId pg side = conns) := by
  rcases pg with _ | _ | ⟨c, cs⟩
  · exact Or.inr ⟨rfl, rfl⟩
  · exact Or.inr ⟨rfl, rfl⟩
  · exact Or.inl ⟨rfl, _, rfl, rfl⟩

theorem connsOf_from (T : Spec.Formula) : ∀ (c : Nat) (pg : Option Str) (side : Str),
    ((T.connsOf c pg side).map Connection.fromGate).Perm
      ((if parentTruthy pg then List.range' (c + 1) T.size
        else List.range' (c + 2) (T.size - 1)).map gateIdOf) := by
  induction T with
  | var v => intro c pg side; simp [Spec.Formula.connsOf, Spec.Formula.size]
  | not a ih =>
    intro c pg side
    have ha := ih (c + 1) (some (gateIdOf (c + 1))) "single".toList
    rw [parentTruthy_gateIdOf, if_pos rfl] at ha
    simp only [Spec.Formula.connsOf, Spec.Formula.size]
    rcases pushConnection_cases (a.connsOf (c + 1) (some (gateIdOf (c + 1))) "single".toList)
      (gateIdOf (c + 1)) pg side with ⟨ht, p, -, hp⟩ | ⟨ht, hp⟩
    · rw [hp, ht, if_pos rfl, List.range'_succ, List.map_append, List.map_cons]
      exact (List.perm_append_comm).trans (List.Perm.cons _ ha)
    · rw [hp, ht]
      simpa using ha
  | bin op a b iha ihb =>
    intro c pg side
    have ha := iha (c + 1) (some (gateIdOf (c + 1))) "left".toList
    have hb := ihb (c + 1 + a.size) (some (gateIdOf (c + 1))) "right".toList
    rw [parentTruthy_gateIdOf, if_pos rfl] at ha hb
    have hr : List.map gateIdOf (List.range' (c + 1 + 1) a.size) ++
        List.map gateIdOf (List.range' (c + 1 + a.size + 1) b.size) =
        List.map gateIdOf (List.range' (c + 1 + 1) (b.size + a.size)) := by
      rw [← List.map_append, Nat.add_right_comm (c + 1) a.size 1, List.range'_append_1]
    have hab := List.Perm.append ha hb
    rw [hr, ← List.map_append] at hab
    simp only [Spec.Formula.connsOf, Spec.Formula.size]
    rcases pushConnection_cases
      (a.connsOf (c + 1) (some (gateIdOf (c + 1))) "left".toList ++
        b.connsOf (c + 1 + a.size) (some (gateIdOf (c + 1))) "right".toList)
      (gateIdOf (c + 1)) pg side with ⟨ht, p, -, hp⟩ | ⟨ht, hp⟩
    · rw [hp, ht, if_pos rfl, List.range'_succ, List.map_append, List.map_cons,
        Nat.add_comm a.size b.size]
      exact (List.perm_append_comm).trans (List.Perm.cons _ hab)
    · rw [hp, ht, Nat.add_comm a.size b.size]
      simpa using hab

theorem outOf_cases (T : Spec.Formula) (c : Nat) :
    (T.outOf c ∈ T.vars ∧ T.size = 0) ∨ (T.outOf c = gateIdOf (c + 1) ∧ 0 < T.size) := by
  cases T with
  | var v => exact Or.inl ⟨by simp [Spec.Formula.outOf, Spec.Formula.vars], rfl⟩
  | not a => exact Or.inr ⟨rfl, Nat.succ_pos _⟩
  | bin op a b => exact Or.inr ⟨rfl, Nat.succ_pos _⟩

theorem connsOf_slot (T : Spec.Formula) : ∀ (c : Nat) (pg : Option Str) (side : Str) (u : Bool)
    (conn : Connection), conn ∈ T.connsOf c pg side →
    (∃ p, pg = some p ∧ conn = ⟨T.outOf c, p, side⟩) ∨
      ∃ g ∈ T.gatesOf c u, g.id = conn.toGate ∧ Spec.SlotOf g conn := by
  induction T with
  | var v => intro c pg side u conn h; simp [Spec.Formula.connsOf] at h
  | not a ih =>
    intro c pg side u conn h
    simp only [Spec.Formula.connsOf] at h
    have hchild : conn ∈ a.connsOf (c + 1) (some (gateIdOf (c + 1))) "single".toList →
        ∃ g ∈ (Spec.Formula.not a).gatesOf c u, g.id = conn.toGate ∧ Spec.SlotOf g conn := by
      intro hc
      rcases ih _ _ _ true conn hc with ⟨p, hp, hconn⟩ | ⟨g, hg, hid, hs⟩
      · simp only [Option.some.injEq] at hp
        refine ⟨_, List.mem_cons_self _ _, ?_, Or.inl ?_⟩
        · rw [hconn, ← hp]
        · rw [hconn]; exact ⟨rfl, rfl⟩
      · exact ⟨g, List.mem_cons_of_mem _ hg, hid, hs⟩
    rcases pushConnection_cases (a.connsOf (c + 1) (some (gateIdOf (c + 1))) "single".toList)
      (gateIdOf (c + 1)) pg side with ⟨-, p, hpg, hp⟩ | ⟨-, hp⟩
    · rw [hp, List.mem_append, List.mem_singleton] at h
      rcases h with h | h
      · exact Or.inr (hchild h)
      · exact Or.inl ⟨p, hpg, h⟩
    · rw [hp] at h
      exact Or.inr (hchild h)
  | bin op a b iha ihb =>
    intro c pg side u conn h
    simp only [Spec.Formula.connsOf] at h
    have hleft : conn ∈ a.connsOf (c + 1) (some (gateIdOf (c + 1))) "left".toList →
        ∃ g ∈ (Spec.Formula.bin op a b).gatesOf c u, g.id = conn.toGate ∧ Spec.SlotOf g conn := by
      intro hc
      rcases iha _ _ _ false conn hc with ⟨p, hp, hconn⟩ | ⟨g, hg, hid, hs⟩
      · simp only [Option.some.injEq] at hp
        refine ⟨_, List.mem_cons_self _ _, ?_, Or.inr (Or.inl ?_)⟩
        · rw [hconn, ← hp]
        · rw [hconn]; exact ⟨rfl, _, rfl⟩
      · exact ⟨g, List.mem_cons_of_mem _ (List.mem_append_left _ hg), hid, hs⟩
    have hright : conn ∈ b.connsOf (c + 1 + a.size) (some (gateIdOf (c + 1))) "right".toList →
        ∃ g ∈ (Spec.Formula.bin op a b).gatesOf c u, g.id = conn.toGate ∧ Spec.SlotOf g conn := by
      intro hc
      rcases ihb _ _ _ false conn hc with ⟨p, hp, hconn⟩ | ⟨g, hg, hid, hs⟩
      · simp only [Option.some.injEq] at hp
        refine ⟨_, List.mem_cons_self _ _, ?_, Or.inr (Or.inr ?_)⟩
        · rw [hconn, ← hp]
        · rw [hconn]; exact ⟨rfl, _, rfl⟩
      · exact ⟨g, List.mem_cons_of_mem _ (List.mem_append_right _ hg), hid, hs⟩
    rcases pushConnection_cases
      (a.connsOf (c + 1) (some (gateIdOf (c + 1))) "left".toList ++
        b.connsOf (c + 1 + a.size) (some (gateIdOf (c + 1))) "right".toList)
      (gateIdOf (c + 1)) pg side with ⟨-, p, hpg, hp⟩ | ⟨-, hp⟩
    · rw [hp, List.mem_append, List.mem_append, List.mem_singleton] at h
      rcases h with (h | h) | h
      · exact Or.inr (hleft h)
      · exact Or.inr (hright h)
      · exact Or.inl ⟨p, hpg, h⟩
    · rw [hp, List.mem_append] at h
      rcases h with h | h
      · exact Or.inr (hleft h)
      · exact Or.inr (hright h)

theorem gatesOf_arity (T : Spec.Formula) : ∀ (c : Nat) (u : Bool), ∀ g ∈ T.gatesOf c u,
    (g.type = GateType.NOT → g.inputs.length = 1) ∧
      (g.type ≠ GateType.NOT → g.inputs.length = 2) := by
  induction T with
  | var v => intro c u g h; simp [Spec.Formula.gatesOf] at h
  | not a ih =>
    intro c u g h
    simp only [Spec.Formula.gatesOf, List.mem_cons] at h
    rcases h with h | h
    · rw [h]; exact ⟨fun _ => rfl, fun hne => absurd rfl hne⟩
    · exact ih _ _ g h
  | bin op a b iha ihb =>
    intro c u g h
    simp only [Spec.Formula.gatesOf, List.mem_cons, List.mem_append] at h
    rcases h with h | h | h
    · rw [h]; exact ⟨fun e => absurd e (builderGateType_ne_not op u), fun _ => rfl⟩
    · exact iha _ _ g h
    · exact ihb _ _ g h

theorem gatesOf_inputs (T : Spec.Formula) : ∀ (c : Nat) (u : Bool), ∀ g ∈ T.gatesOf c u,
    ∃ k, c < k ∧ g.id = gateIdOf k ∧
      (∀ x ∈ g.inputs, x ∈ T.vars ∨ ∃ m, k < m ∧ x = gateIdOf m) ∧
      (∀ x y, g.inputs = [x, y] → x ∈ T.vars ∨ y ∈ T.vars ∨
        ∃ i j, i < j ∧ x = gateIdOf i ∧ y = gateIdOf j) := by
  induction T with
  | var v => intro c u g h; simp [Spec.Formula.gatesOf] at h
  | not a ih =>
    intro c u g h
    simp only [Spec.Formula.gatesOf, List.mem_cons] at h
    rcases h with h | h
    · refine ⟨c + 1, Nat.lt_succ_self _, by rw [h], ?_, ?_⟩
      · intro x hx
        rw [h] at hx
        simp only [List.mem_singleton] at hx
        rcases outOf_cases a (c + 1) with ⟨hv, -⟩ | ⟨ho, -⟩
        · exact Or.inl (by rw [hx]; exact hv)
        · exact Or.inr ⟨c + 2, Nat.lt_succ_self _, by rw [hx, ho]⟩
      · intro x y hxy
        rw [h] at hxy
        simp at hxy
    · obtain ⟨k, hk, hid, h1, h2⟩ := ih _ _ g h
      exact ⟨k, by omega, hid, h1, h2⟩
  | bin op a b iha ihb =>
    intro c u g h
    simp only [Spec.Formula.gatesOf, List.mem_cons, List.mem_append] at h
    rcases h with h | h | h
    · refine ⟨c + 1, Nat.lt_succ_self _, by rw [h], ?_, ?_⟩
      · intro x hx
        rw [h] at hx
        simp only [List.mem_cons, List.mem_singleton, List.not_mem_nil, or_false] at hx
        rcases hx with hx | hx
        · rcases outOf_cases a (c + 1) with ⟨hv, -⟩ | ⟨ho, -⟩
          · exact Or.inl (by rw [hx]; exact List.mem_append_left _ hv)
          · exact Or.inr ⟨c + 2, Nat.lt_succ_self _, by rw [hx, ho]⟩
        · rcases outOf_cases b (c + 1 + a.size) with ⟨hv, -⟩ | ⟨ho, -⟩
          · exact Or.inl (by rw [hx]; exact List.mem_append_right _ hv)
          · exact Or.inr ⟨c + 1 + a.size + 1, by omega, by rw [hx, ho]⟩
      · intro x y hxy
        rw [h] at hxy
        simp only [List.cons.injEq, and_true] at hxy
        rcases outOf_cases a (c + 1) with ⟨hv, -⟩ | ⟨ho, hsz⟩
        · exact Or.inl (by rw [← hxy.1]; exact List.mem_append_left _ hv)
        · rcases outOf_cases b (c + 1 + a.size) with ⟨hv, -⟩ | ⟨ho2, -⟩
          · exact Or.inr (Or.inl (by rw [← hxy.2]; exact List.mem_append_right _ hv))
          · exact Or.inr (Or.inr ⟨c + 2, c + 1 + a.size + 1, by omega,
              by rw [← hxy.1, ho], by rw [← hxy.2, ho2]⟩)
    · obtain ⟨k, hk, hid, h1, h2⟩ := iha _ _ g h
      refine ⟨k, by omega, hid, fun x hx => ?_, fun x y hxy => ?_⟩
      · rcases h1 x hx with h | h
        · exact Or.inl (List.mem_append_left _ h)
        · exact Or.inr h
      · rcases h2 x y hxy with h | h | h
        · exact Or.inl (List.mem_append_left _ h)
        · exact Or.inr (Or.inl (List.mem_append_left _ h))
        · exact Or.inr (Or.inr h)
    · obtain ⟨k, hk, hid, h1, h2⟩ := ihb _ _ g h
      refine ⟨k, by omega, hid, fun x hx => ?_, fun x y hxy => ?_⟩
      · rcases h1 x hx with h | h
        · exact Or.inl (List.mem_append_right _ h)
        · exact Or.inr h
      · rcases h2 x y hxy with h | h | h
        · exact Or.inl (List.mem_append_right _ h)
        · exact Or.inr (Or.inl (List.mem_append_right _ h))
        · exact Or.inr (Or.inr h)
theorem countP_eq_one_of_nodup {β : Type} [DecidableEq β] (x : β) : ∀ l : List β, l.Nodup → x ∈ l →
    l.countP (fun b => decide (b = x)) = 1 := by
  intro l
  induction l with
  | nil => intro _ h; exact absurd h (List.not_mem_nil x)
  | cons b t ih =>
    intro hn hx
    rw [List.nodup_cons] at hn
    by_cases hb : b = x
    · rw [List.countP_cons_of_pos _ _ (by simpa using hb)]
      have h0 : t.countP (fun b => decide (b = x)) = 0 := by
        rw [List.countP_eq_zero]
        intro a ha
        simp only [decide_eq_true_eq]
        intro e
        exact hn.1 (by rw [hb]; exact e ▸ ha)
      rw [h0]
    · rw [List.countP_cons_of_neg _ _ (by simpa using hb)]
      rcases List.mem_cons.1 hx with h | h
      · exact absurd h.symm hb
      · exact ih hn.2 h

theorem countP_eq_one_of_perm {α β : Type} [DecidableEq β] (f : α → β) (l : List α)
    (l' : List β) (hp : (l.map f).Perm l') (hn : l'.Nodup) (x : β) (hx : x ∈ l') :
    l.countP (fun a => decide (f a = x)) = 1 := by
  have h := countP_eq_one_of_nodup x l' hn hx
  rw [← hp.countP_eq, List.countP_map] at h
  exact h

theorem connsOf_order (T : Spec.Formula) : ∀ (c : Nat) (pg : Option Str) (side : Str)
    (conn : Connection), conn ∈ T.connsOf c pg side →
    ∃ m, c < m ∧ conn.fromGate = gateIdOf m ∧
      ((∃ p, pg = some p ∧ conn.toGate = p ∧ m = c + 1) ∨
        ∃ k, c < k ∧ k < m ∧ conn.toGate = gateIdOf k) := by
  induction T with
  | var v => intro c pg side conn h; simp [Spec.Formula.connsOf] at h
  | not a ih =>
    intro c pg side conn h
    simp only [Spec.Formula.connsOf] at h
    have hchild : conn ∈ a.connsOf (c + 1) (some (gateIdOf (c + 1))) "single".toList →
        ∃ m, c < m ∧ conn.fromGate = gateIdOf m ∧
          ((∃ p, pg = some p ∧ conn.toGate = p ∧ m = c + 1) ∨
            ∃ k, c < k ∧ k < m ∧ conn.toGate = gateIdOf k) := by
      intro hc
      obtain ⟨m, hm, hf, ht⟩ := ih _ _ _ conn hc
      refine ⟨m, by omega, hf, Or.inr ?_⟩
      rcases ht with ⟨p, hp, hto, hme⟩ | ⟨k, hk1, hk2, hto⟩
      · simp only [Option.some.injEq] at hp
        exact ⟨c + 1, by omega, by omega, by rw [hto, ← hp]⟩
      · exact ⟨k, by omega, hk2, hto⟩
    rcases pushConnection_cases (a.connsOf (c + 1) (some (gateIdOf (c + 1))) "single".toList)
      (gateIdOf (c + 1)) pg side with ⟨-, p, hpg, hp⟩ | ⟨-, hp⟩
    · rw [hp, List.mem_append, List.mem_singleton] at h
      rcases h with h | h
      · exact hchild h
      · exact ⟨c + 1, by omega, by rw [h], Or.inl ⟨p, hpg, by rw [h], rfl⟩⟩
    · rw [hp] at h
      exact hchild h
  | bin op a b iha ihb =>
    intro c pg side conn h
    simp only [Spec.Formula.connsOf] at h
    have hleft : conn ∈ a.connsOf (c + 1) (some (gateIdOf (c + 1))) "left".toList →
        ∃ m, c < m ∧ conn.fromGate = gateIdOf m ∧
          ((∃ p, pg = some p ∧ conn.toGate = p ∧ m = c + 1) ∨
            ∃ k, c < k ∧ k < m ∧ conn.toGate = gateIdOf k) := by
      intro hc
      obtain ⟨m, hm, hf, ht⟩ := iha _ _ _ conn hc
      refine ⟨m, by omega, hf, Or.inr ?_⟩
      rcases ht with ⟨p, hp, hto, hme⟩ | ⟨k, hk1, hk2, hto⟩
      · simp only [Option.some.injEq] at hp
        exact ⟨c + 1, by omega, by omega, by rw [hto, ← hp]⟩
      · exact ⟨k, by omega, hk2, hto⟩
    have hright : conn ∈ b.connsOf (c + 1 + a.size) (some (gateIdOf (c + 1))) "right".toList →
        ∃ m, c < m ∧ conn.fromGate = gateIdOf m ∧
          ((∃ p, pg = some p ∧ conn.toGate = p ∧ m = c + 1) ∨
            ∃ k, c < k ∧ k < m ∧ conn.toGate = gateIdOf k) := by
      intro hc
      obtain ⟨m, hm, hf, ht⟩ := ihb _ _ _ conn hc
      refine ⟨m, by omega, hf, Or.inr ?_⟩
      rcases ht with ⟨p, hp, hto, hme⟩ | ⟨k, hk1, hk2, hto⟩
      · simp only [Option.some.injEq] at hp
        exact ⟨c + 1, by omega, by omega, by rw [hto, ← hp]⟩
      · exact ⟨k, by omega, hk2, hto⟩
    rcases pushConnection_cases
      (a.connsOf (c + 1) (some (gateIdOf (c + 1))) "left".toList ++
        b.connsOf (c + 1 + a.size) (some (gateIdOf (c + 1))) "right".toList)
      (gateIdOf (c + 1)) pg side with ⟨-, p, hpg, hp⟩ | ⟨-, hp⟩
    · rw [hp, List.mem_append, List.mem_append, List.mem_singleton] at h
      rcases h with (h | h) | h
      · exact hleft h
      · exact hright h
      · exact ⟨c + 1, by omega, by rw [h], Or.inl ⟨p, hpg, by rw [h], rfl⟩⟩
    · rw [hp, List.mem_append] at h
      rcases h with h | h
      · exact hleft h
      · exact hright h

theorem transGen_edge_order (conns : List Connection)
    (h : ∀ x y, Spec.Edge conns x y → ∃ k m, 0 < k ∧ k < m ∧ y = gateIdOf k ∧ x = gateIdOf m)
    (x y : Str) (hxy : Relation.TransGen (Spec.Edge conns) x y) :
    ∃ k m, 0 < k ∧ k < m ∧ y = gateIdOf k ∧ x = gateIdOf m := by
  induction hxy with
  | single e => exact h _ _ e
  | tail _ e ih =>
    obtain ⟨k, m, hk, hkm, hy, hx⟩ := ih
    obtain ⟨k', m', hk', hkm', hz, hy'⟩ := h _ _ e
    have : k = m' := gateIdOf_injective (hy.symm.trans hy')
    exact ⟨k', m, hk', by omega, hz, hx⟩

/-- C20 (counterexample): with the variables p, q and `gate2` declared, the
builder succeeds on `p∧¬q`, returns the gate `gate1` and emits a connection
whose `from` is `gate2`, the name of a declared variable. -/
theorem generateCircuitDiagram_variable_named_gate_counterexample :
    generateCircuitDiagram "p∧¬q".toList [['p'], ['q'], "gate2".toList] =
      some (Except.ok ("gate1".toList,
        { gates := [⟨"gate1".toList, GateType.AND, [['p'], "gate2".toList]⟩,
                    ⟨"gate2".toList, GateType.NOT, [['q']]⟩]
          connections := [⟨"gate2".toList, "gate1".toList, "right".toList⟩]
          gateCount := 2
          gateCounts := ⟨1, 1, 0, 0, 0, 0, 0⟩ })) ∧
    "gate2".toList ∈ [['p'], ['q'], "gate2".toList] := by
  constructor <;> decide

/-- C20 (amended): when the builder succeeds and returns a gate as output,
the emitted graph is a tree rooted at the output gate. The gate ids are
pairwise distinct; every gate other than the output gate is the `from` of
exactly one connection, and every connection goes to a gate that lists its
`from` at the input slot named by `toInput` (single: the only input, left:
the first of two, right: the second of two); the output gate is the `from`
of no connection; no chain of connections leads from a node back to itself,
and from every gate a chain of connections leads to the output gate; when no
declared variable is spelled like a gate id, no variable is the `from` of a
connection; the number of connections is the number of gates minus one; NOT
gates have exactly one input and all other gates exactly two. -/
theorem generateCircuitDiagram_tree (expression : Str) (vars : List Str) (out : Str)
    (b : Builder)
    (hrun : generateCircuitDiagram expression vars = some (Except.ok (out, b)))
    (hout : out ∈ b.gates.map Gate.id) :
    (b.gates.map Gate.id).Nodup ∧
    (∀ g ∈ b.gates, g.id ≠ out →
      b.connections.countP (fun conn => conn.fromGate = g.id) = 1) ∧
    (∀ conn ∈ b.connections, ∃ p ∈ b.gates, p.id = conn.toGate ∧ Spec.SlotOf p conn) ∧
    (∀ conn ∈ b.connections, conn.fromGate ≠ out) ∧
    (∀ x, ¬ Relation.TransGen (Spec.Edge b.connections) x x) ∧
    (∀ g ∈ b.gates, Relation.ReflTransGen (Spec.Edge b.connections) g.id out) ∧
    ((∀ v ∈ vars, ∀ n, v ≠ gateIdOf n) → ∀ conn ∈ b.connections, conn.fromGate ∉ vars) ∧
    b.connections.length + 1 = b.gates.length ∧
    (∀ g ∈ b.gates, (g.type = GateType.NOT → g.inputs.length = 1) ∧
      (g.type ≠ GateType.NOT → g.inputs.length = 2)) := by
  obtain ⟨T, -, hT⟩ := processSubExpression_emit vars _ _ _ _ _ _ _ hrun
  obtain ⟨ho, hg, hc, -⟩ := emit_eq T Builder.initial none []
    (fun g hg => absurd hg (List.not_mem_nil g))
  rw [hT] at ho hg hc
  simp only [Builder.initial, List.nil_append, parentIsNot] at ho hg hc
  have hids : b.gates.map Gate.id = (List.range' 1 T.size).map gateIdOf := by
    rw [hg]; exact gatesOf_ids T 0 false
  have hinj : Function.Injective gateIdOf := fun _ _ h => gateIdOf_injective h
  have hsize : 0 < T.size := by
    rcases Nat.eq_zero_or_pos T.size with h | h
    · rw [hids, h] at hout; simp at hout
    · exact h
  have hout1 : out = gateIdOf 1 := by
    rcases outOf_cases T 0 with ⟨-, h⟩ | ⟨h, -⟩
    · omega
    · rw [ho, h]
  have hfrom : (b.connections.map Connection.fromGate).Perm
      ((List.range' 2 (T.size - 1)).map gateIdOf) := by
    have := connsOf_from T 0 none []
    rw [hc]
    simpa [parentTruthy] using this
  have hfrom_mem : ∀ conn ∈ b.connections, ∃ m, 2 ≤ m ∧ conn.fromGate = gateIdOf m := by
    intro conn hconn
    have h := (hfrom.mem_iff).1 (List.mem_map_of_mem Connection.fromGate hconn)
    simp only [List.mem_map, List.mem_range'_1] at h
    obtain ⟨m, hm, he⟩ := h
    exact ⟨m, hm.1, he.symm⟩
  have hcount : ∀ j, 2 ≤ j → j ≤ T.size →
      b.connections.countP (fun conn => conn.fromGate = gateIdOf j) = 1 := by
    intro j hj2 hjn
    have hmem : gateIdOf j ∈ (List.range' 2 (T.size - 1)).map gateIdOf := by
      simp only [List.mem_map, List.mem_range'_1]
      exact ⟨j, by omega, rfl⟩
    exact countP_eq_one_of_perm Connection.fromGate b.connections _ hfrom
      ((List.nodup_range' 2 (T.size - 1)).map hinj) (gateIdOf j) hmem
  have hedge : ∀ x y, Spec.Edge b.connections x y →
      ∃ k m, 0 < k ∧ k < m ∧ y = gateIdOf k ∧ x = gateIdOf m := by
    rintro x y ⟨conn, hconn, hx, hy⟩
    rw [hc] at hconn
    obtain ⟨m, -, hf, ht⟩ := connsOf_order T 0 none [] conn hconn
    rcases ht with ⟨p, hp, -, -⟩ | ⟨k, hk, hkm, hto⟩
    · cases hp
    · exact ⟨k, m, hk, hkm, by rw [← hy, hto], by rw [← hx, hf]⟩
  have hreach : ∀ n j, j ≤ n → 1 ≤ j → j ≤ T.size →
      Relation.ReflTransGen (Spec.Edge b.connections) (gateIdOf j) out := by
    intro n
    induction n with
    | zero => intro j h0 h1 _; omega
    | succ n ih =>
      intro j hjn hj1 hjs
      rcases Nat.eq_or_lt_of_le hj1 with h | h
      · rw [← h, hout1]
      · have hpos : 0 < b.connections.countP (fun conn => conn.fromGate = gateIdOf j) := by
          rw [hcount j h hjs]; exact Nat.one_pos
        obtain ⟨conn, hconn, hfj⟩ := List.countP_pos_iff.1 hpos
        simp only [decide_eq_true_eq] at hfj
        obtain ⟨k, m, hk, hkm, hy, hx⟩ := hedge _ _ ⟨conn, hconn, hfj, rfl⟩
        have hm : j = m := gateIdOf_injective hx
        have he : Spec.Edge b.connections (gateIdOf j) (gateIdOf k) := ⟨conn, hconn, hfj, hy⟩
        exact Relation.ReflTransGen.head he (ih k (by omega) hk (by omega))
  refine ⟨?_, ?_, ?_, ?_, ?_, ?_, ?_, ?_, ?_⟩
  · rw [hids]
    exact (List.nodup_range' 1 T.size).map hinj
  · intro g hgm hne
    have hgid : g.id ∈ (List.range' 1 T.size).map gateIdOf := by
      rw [← hids]; exact List.mem_map_of_mem _ hgm
    simp only [List.mem_map, List.mem_range'_1] at hgid
    obtain ⟨j, hj, hje⟩ := hgid
    have hj1 : j ≠ 1 := by
      intro e; rw [e] at hje; exact hne (by rw [← hje, hout1])
    rw [← hje]
    exact hcount j (by omega) (by omega)
  · intro conn hconn
    rw [hc] at hconn
    rcases connsOf_slot T 0 none [] false conn hconn with ⟨p, hp, -⟩ | h
    · cases hp
    · rw [hg]; exact h
  · intro conn hconn e
    obtain ⟨m, hm, hme⟩ := hfrom_mem conn hconn
    rw [hme, hout1] at e
    have := gateIdOf_injective e
    omega
  · intro x hx
    obtain ⟨k, m, -, hkm, hy, hx'⟩ := transGen_edge_order b.connections hedge x x hx
    have := gateIdOf_injective (hy.symm.trans hx')
    omega
  · intro g hgm
    have hgid : g.id ∈ (List.range' 1 T.size).map gateIdOf := by
      rw [← hids]; exact List.mem_map_of_mem _ hgm
    simp only [List.mem_map, List.mem_range'_1] at hgid
    obtain ⟨j, hj, hje⟩ := hgid
    rw [← hje]
    exact hreach j j (Nat.le_refl _) hj.1 (by omega)
  · intro hvars conn hconn hv
    obtain ⟨m, -, hme⟩ := hfrom_mem conn hconn
    exact hvars _ hv m hme
  · have h1 := hfrom.length_eq
    have h2 := congrArg List.length hids
    simp only [List.length_map, List.length_range'] at h1 h2
    omega
  · rw [hg]; exact gatesOf_arity T 0 false

/-- Witness for C20 (amended): on `(p∧q)∨¬r` the builder returns `gate1` and
emits three gates and two connections. -/
theorem generateCircuitDiagram_tree_witness :
    ∃ out b, generateCircuitDiagram "(p∧q)∨¬r".toList [['p'], ['q'], ['r']] =
        some (Except.ok (out, b)) ∧
      b.gates.length = 3 ∧ b.connections.length + 1 = b.gates.length :=
  ⟨"gate1".toList,
    { gates := [⟨"gate1".toList, GateType.OR, ["gate2".toList, "gate3".toList]⟩,
                ⟨"gate2".toList, GateType.AND, [['p'], ['q']]⟩,
                ⟨"gate3".toList, GateType.NOT, [['r']]⟩]
      connections := [⟨"gate2".toList, "gate1".toList, "left".toList⟩,
                      ⟨"gate3".toList, "gate1".toList, "right".toList⟩]
      gateCount := 3
      gateCounts := ⟨1, 1, 1, 0, 0, 0, 0⟩ },
    by decide, rfl,
    (generateCircuitDiagram_tree "(p∧q)∨¬r".toList [['p'], ['q'], ['r']] "gate1".toList _
      (by decide) (by decide)).2.2.2.2.2.2.2.1⟩

/-! ## Derivations in the shape read by script2.js -/

theorem connective_level_le (op : Spec.Connective) : op.level ≤ 3 := by
  cases op <;> decide

theorem expr_nodes_pos (e : Spec.Expr) : 0 < e.nodes := by
  cases e <;> simp [Spec.Expr.nodes]

theorem level_bin (op : Spec.Connective) (a b : Spec.Expr) :
    (Spec.Expr.bin op a b).level = op.level := rfl

theorem level_var (v : Str) : (Spec.Expr.var v).level = 5 := rfl

theorem level_neg (e : Spec.Expr) : (Spec.Expr.neg e).level = 4 := rfl

theorem level_paren (e : Spec.Expr) : (Spec.Expr.paren e).level = 5 := rfl

theorem joinAux_root (fuel : Nat) (op oa : Spec.Connective) (al ar b : Spec.Expr)
    (h : oa.level ≤ op.level ∧ oa.level ≤ b.level) :
    Spec.Expr.joinAux (fuel + 1) op (Spec.Expr.bin oa al ar) b =
      Spec.Expr.bin oa al (Spec.Expr.joinAux fuel op ar b) := by
  rw [Spec.Expr.joinAux.eq_def]
  simp only [if_pos h]

theorem joinAux_other (fuel : Nat) (op : Spec.Connective) (a b : Spec.Expr)
    (h : ∀ oa al ar, a = Spec.Expr.bin oa al ar → ¬ (oa.level ≤ op.level ∧ oa.level ≤ b.level)) :
    Spec.Expr.joinAux (fuel + 1) op a b =
      if op.level ≤ b.level then Spec.Expr.bin op a b
      else
        match b with
        | Spec.Expr.bin ob bl br => Spec.Expr.bin ob (Spec.Expr.joinAux fuel op a bl) br
        | _ => Spec.Expr.bin op a b := by
  rw [Spec.Expr.joinAux.eq_def]
  cases a with
  | bin oa al ar =>
    simp only [if_neg (h oa al ar rfl)]
    cases b <;> rfl
  | var v => cases b <;> rfl
  | neg e => cases b <;> rfl
  | paren e => cases b <;> rfl

theorem level_lt_of_not_root (op : Spec.Connective) (a b : Spec.Expr)
    (h : ∀ oa al ar, a = Spec.Expr.bin oa al ar → ¬ (oa.level ≤ op.level ∧ oa.level ≤ b.level)) :
    op.level < a.level ∨ b.level < a.level := by
  cases a with
  | bin oa al ar =>
    have := h oa al ar rfl
    rw [level_bin]
    omega
  | var v => have := connective_level_le op; rw [level_var]; omega
  | neg e => have := connective_level_le op; rw [level_neg]; omega
  | paren e => have := connective_level_le op; rw [level_paren]; omega

theorem joinAux_spec : ∀ (fuel : Nat) (op : Spec.Connective) (a b : Spec.Expr),
    a.nodes + b.nodes ≤ fuel →
    (Spec.Expr.joinAux fuel op a b).render = a.render ++ op.symbol :: b.render ∧
    (∀ v, v ∈ (Spec.Expr.joinAux fuel op a b).vars ↔ v ∈ a.vars ∨ v ∈ b.vars) ∧
    (a.Shaped → b.Shaped → (Spec.Expr.joinAux fuel op a b).Shaped ∧
      (Spec.Expr.joinAux fuel op a b).level = min a.level (min op.level b.level)) := by
  intro fuel
  induction fuel with
  | zero =>
    intro op a b h
    have := expr_nodes_pos a
    omega
  | succ fuel ih =>
    intro op a b h
    by_cases hroot : ∃ oa al ar, a = Spec.Expr.bin oa al ar ∧
        (oa.level ≤ op.level ∧ oa.level ≤ b.level)
    · obtain ⟨oa, al, ar, ha, hc⟩ := hroot
      subst ha
      rw [joinAux_root fuel op oa al ar b hc]
      simp only [Spec.Expr.nodes] at h
      obtain ⟨hr, hv, hs⟩ := ih op ar b (by omega)
      refine ⟨?_, ?_, ?_⟩
      · simp only [Spec.Expr.render, hr, List.append_assoc, List.cons_append]
      · intro v
        simp only [Spec.Expr.vars, List.mem_append, hv v, or_assoc]
      · intro hsa hsb
        simp only [Spec.Expr.Shaped] at hsa
        obtain ⟨hsj, hlj⟩ := hs hsa.2.2.2 hsb
        simp only [Spec.Expr.Shaped, level_bin, hlj]
        refine ⟨⟨hsa.1, ?_, hsa.2.2.1, hsj⟩, ?_⟩
        · have := hsa.2.1; omega
        · omega
    · have hno : ∀ oa al ar, a = Spec.Expr.bin oa al ar →
          ¬ (oa.level ≤ op.level ∧ oa.level ≤ b.level) :=
        fun oa al ar ha hc => hroot ⟨oa, al, ar, ha, hc⟩
      have hlt := level_lt_of_not_root op a b hno
      rw [joinAux_other fuel op a b hno]
      have hplain : (Spec.Expr.bin op a b).render = a.render ++ op.symbol :: b.render ∧
          (∀ v, v ∈ (Spec.Expr.bin op a b).vars ↔ v ∈ a.vars ∨ v ∈ b.vars) :=
        ⟨rfl, fun v => by simp only [Spec.Expr.vars, List.mem_append]⟩
      by_cases hc2 : op.level ≤ b.level
      · rw [if_pos hc2]
        refine ⟨hplain.1, hplain.2, fun hsa hsb => ?_⟩
        simp only [Spec.Expr.Shaped, level_bin]
        exact ⟨⟨by omega, hc2, hsa, hsb⟩, by omega⟩
      · rw [if_neg hc2]
        cases b with
        | bin ob bl br =>
          simp only [Spec.Expr.nodes] at h
          simp only [level_bin] at hc2 hlt
          obtain ⟨hr, hv, hs⟩ := ih op a bl (by omega)
          refine ⟨?_, ?_, ?_⟩
          · simp only [Spec.Expr.render, hr, List.append_assoc, List.cons_append]
          · intro v
            simp only [Spec.Expr.vars, List.mem_append, hv v, or_assoc]
          · intro hsa hsb
            simp only [Spec.Expr.Shaped] at hsb
            obtain ⟨hsj, hlj⟩ := hs hsa hsb.2.2.1
            simp only [Spec.Expr.Shaped, level_bin, hlj]
            refine ⟨⟨?_, hsb.2.1, hsj, hsb.2.2.2⟩, ?_⟩
            · have := hsb.1; omega
            · omega
        | var v => have := connective_level_le op; rw [level_var] at hc2; omega
        | neg e => have := connective_level_le op; rw [level_neg] at hc2; omega
        | paren e => have := connective_level_le op; rw [level_paren] at hc2; omega

theorem negInto_spec (e : Spec.Expr) :
    e.negInto.render = '¬' :: e.render ∧ e.negInto.vars = e.vars ∧
    (e.Shaped → e.negInto.Shaped ∧ e.negInto.level = min e.level 4) := by
  induction e with
  | var v => exact ⟨rfl, rfl, fun _ => ⟨⟨Nat.le_succ 4, trivial⟩, rfl⟩⟩
  | neg e _ => exact ⟨rfl, rfl, fun h => ⟨⟨Nat.le_refl 4, h⟩, rfl⟩⟩
  | paren e _ => exact ⟨rfl, rfl, fun h => ⟨⟨Nat.le_succ 4, h⟩, rfl⟩⟩
  | bin op a b iha _ =>
    obtain ⟨hr, hv, hs⟩ := iha
    refine ⟨?_, ?_, fun h => ?_⟩
    · simp only [Spec.Expr.negInto, Spec.Expr.render, hr, List.cons_append]
    · simp only [Spec.Expr.negInto, Spec.Expr.vars, hv]
    · simp only [Spec.Expr.Shaped] at h
      obtain ⟨hsn, hln⟩ := hs h.2.2.1
      have := connective_level_le op
      simp only [Spec.Expr.negInto, Spec.Expr.Shaped, level_bin, hln]
      exact ⟨⟨by omega, h.2.1, hsn, h.2.2.2⟩, by omega⟩

theorem norm_spec (e : Spec.Expr) :
    e.norm.render = e.render ∧ (∀ v, v ∈ e.norm.vars ↔ v ∈ e.vars) ∧ e.norm.Shaped := by
  induction e with
  | var v => exact ⟨rfl, fun _ => Iff.rfl, trivial⟩
  | neg e ih =>
    obtain ⟨hr, hv, hs⟩ := ih
    obtain ⟨hr2, hv2, hs2⟩ := negInto_spec e.norm
    refine ⟨?_, ?_, (hs2 hs).1⟩
    · simp only [Spec.Expr.norm, hr2, hr, Spec.Expr.render]
    · intro v; simp only [Spec.Expr.norm, hv2, hv v, Spec.Expr.vars]
  | paren e ih =>
    obtain ⟨hr, hv, hs⟩ := ih
    exact ⟨by simp only [Spec.Expr.norm, Spec.Expr.render, hr],
      fun v => by simp only [Spec.Expr.norm, Spec.Expr.vars, hv v], hs⟩
  | bin op a b iha ihb =>
    obtain ⟨hra, hva, hsa⟩ := iha
    obtain ⟨hrb, hvb, hsb⟩ := ihb
    obtain ⟨hr, hv, hs⟩ := joinAux_spec _ op a.norm b.norm (Nat.le_refl _)
    refine ⟨?_, ?_, (hs hsa hsb).1⟩
    · simp only [Spec.Expr.norm, Spec.Expr.join, hr, hra, hrb, Spec.Expr.render]
    · intro v
      simp only [Spec.Expr.norm, Spec.Expr.join, hv v, hva v, hvb v, Spec.Expr.vars,
        List.mem_append]
/-! ## The text of a derivation -/

theorem symbol_mem_binaryOps (o : Spec.Connective) : o.symbol ∈ binaryOps := by
  cases o <;> decide

theorem symbol_facts (o : Spec.Connective) :
    o.symbol ≠ '(' ∧ o.symbol ≠ ')' ∧ o.symbol ≠ '¬' ∧ isAsciiLetter o.symbol = false ∧
      isJsWhitespace o.symbol = false := by
  cases o <;> decide

theorem symbol_ne_of_level {o o2 : Spec.Connective} (h : o.level ≠ o2.level) :
    o2.symbol ≠ o.symbol := by
  cases o <;> cases o2 <;> first | exact absurd rfl h | decide

theorem letter_ne_symbol {c : Char} (h : isAsciiLetter c = true) (o : Spec.Connective) :
    c ≠ o.symbol := by
  intro e
  rw [e, (symbol_facts o).2.2.2.1] at h
  exact Bool.noConfusion h

theorem scanOp_open (b : Char) (hb : b ≠ '(') (d : Int) (i : Nat) (cs : Str) :
    scanOp b d i ('(' :: cs) = scanOp b (d + 1) (i + 1) cs := by
  rw [scanOp]
  have h : ¬ ('(' = b) := fun e => hb e.symm
  simp [h]

theorem scanOp_close (b : Char) (hb : b ≠ ')') (d : Int) (i : Nat) (cs : Str) :
    scanOp b d i (')' :: cs) = scanOp b (d - 1) (i + 1) cs := by
  rw [scanOp]
  have h : ¬ (')' = b) := fun e => hb e.symm
  simp [h]

theorem scanOp_other (b c : Char) (h1 : c ≠ '(') (h2 : c ≠ ')') (d : Int)
    (h : c ≠ b ∨ d ≠ 0) (i : Nat) (cs : Str) :
    scanOp b d i (c :: cs) = scanOp b d (i + 1) cs := by
  rw [scanOp]
  simp only [h1, h2, if_false]
  rw [if_neg]
  rintro ⟨hd, hc⟩
  rcases h with h | h
  · exact h hc
  · exact h hd

theorem scanOp_found (b : Char) (h1 : b ≠ '(') (h2 : b ≠ ')') (i : Nat) (cs : Str) :
    scanOp b 0 i (b :: cs) = (some i, 0) := by
  rw [scanOp]
  simp [h1, h2]

theorem scanOp_deep (T : Spec.Expr)
    (hv : ∀ v ∈ T.vars, v ≠ [] ∧ ∀ c ∈ v, isAsciiLetter c = true) :
    ∀ (o : Spec.Connective) (d : Int) (i : Nat) (rest : Str), 0 < d →
      scanOp o.symbol d i (T.render ++ rest) = scanOp o.symbol d (i + T.render.length) rest := by
  induction T with
  | var v =>
    intro o d i rest _
    have hl := (hv v (List.mem_singleton_self v)).2
    exact scanOp_plain _ v (fun c hc => ⟨(letter_plain (hl c hc)).1, (letter_plain (hl c hc)).2.1,
      letter_ne_symbol (hl c hc) o⟩) d i rest
  | neg e ih =>
    intro o d i rest hd
    simp only [Spec.Expr.render, List.cons_append, List.length_cons]
    rw [scanOp_other _ _ (by decide) (by decide) d (Or.inl (symbol_facts o).2.2.1.symm),
      ih hv o d _ rest hd]
    congr 1; omega
  | paren e ih =>
    intro o d i rest hd
    have hr : (Spec.Expr.paren e).render ++ rest = '(' :: (e.render ++ ')' :: rest) := by
      simp [Spec.Expr.render]
    have hlen : (Spec.Expr.paren e).render.length = e.render.length + 2 := by
      simp [Spec.Expr.render]
    rw [hr, hlen, scanOp_open _ (symbol_facts o).1, ih hv o (d + 1) _ _ (by omega),
      scanOp_close _ (symbol_facts o).2.1, Int.add_sub_cancel]
    congr 1; omega
  | bin op a b iha ihb =>
    intro o d i rest hd
    have hva : ∀ v ∈ a.vars, v ≠ [] ∧ ∀ c ∈ v, isAsciiLetter c = true :=
      fun v h => hv v (List.mem_append_left _ h)
    have hvb : ∀ v ∈ b.vars, v ≠ [] ∧ ∀ c ∈ v, isAsciiLetter c = true :=
      fun v h => hv v (List.mem_append_right _ h)
    simp only [Spec.Expr.render, List.append_assoc, List.cons_append, List.length_append,
      List.length_cons]
    rw [iha hva o d _ _ hd,
      scanOp_other _ _ (symbol_facts op).1 (symbol_facts op).2.1 d (Or.inr (by omega)),
      ihb hvb o d _ rest hd]
    congr 1; omega

theorem scanOp_skip (T : Spec.Expr)
    (hv : ∀ v ∈ T.vars, v ≠ [] ∧ ∀ c ∈ v, isAsciiLetter c = true) (hs : T.Shaped) :
    ∀ (o : Spec.Connective) (i : Nat) (rest : Str), o.level < T.level →
      scanOp o.symbol 0 i (T.render ++ rest) = scanOp o.symbol 0 (i + T.render.length) rest := by
  induction T with
  | var v =>
    intro o i rest _
    have hl := (hv v (List.mem_singleton_self v)).2
    exact scanOp_plain _ v (fun c hc => ⟨(letter_plain (hl c hc)).1, (letter_plain (hl c hc)).2.1,
      letter_ne_symbol (hl c hc) o⟩) 0 i rest
  | neg e ih =>
    intro o i rest _
    simp only [Spec.Expr.Shaped] at hs
    have := connective_level_le o
    simp only [Spec.Expr.render, List.cons_append, List.length_cons]
    rw [scanOp_other _ _ (by decide) (by decide) 0 (Or.inl (symbol_facts o).2.2.1.symm),
      ih hv hs.2 o _ rest (by omega)]
    congr 1; omega
  | paren e _ =>
    intro o i rest _
    have hr : (Spec.Expr.paren e).render ++ rest = '(' :: (e.render ++ ')' :: rest) := by
      simp [Spec.Expr.render]
    have hlen : (Spec.Expr.paren e).render.length = e.render.length + 2 := by
      simp [Spec.Expr.render]
    rw [hr, hlen, scanOp_open _ (symbol_facts o).1, scanOp_deep e hv o (0 + 1) _ _ (by omega),
      scanOp_close _ (symbol_facts o).2.1, Int.add_sub_cancel]
    congr 1; omega
  | bin op a b iha ihb =>
    intro o i rest hlt
    have hva : ∀ v ∈ a.vars, v ≠ [] ∧ ∀ c ∈ v, isAsciiLetter c = true :=
      fun v h => hv v (List.mem_append_left _ h)
    have hvb : ∀ v ∈ b.vars, v ≠ [] ∧ ∀ c ∈ v, isAsciiLetter c = true :=
      fun v h => hv v (List.mem_append_right _ h)
    simp only [Spec.Expr.Shaped] at hs
    rw [level_bin] at hlt
    simp only [Spec.Expr.render, List.append_assoc, List.cons_append, List.length_append,
      List.length_cons]
    rw [iha hva hs.2.2.1 o _ _ (by omega),
      scanOp_other _ _ (symbol_facts op).1 (symbol_facts op).2.1 0
        (Or.inl (symbol_ne_of_level (by omega))),
      ihb hvb hs.2.2.2 o _ rest (by omega)]
    congr 1; omega

theorem scanOp_skip_all (T : Spec.Expr)
    (hv : ∀ v ∈ T.vars, v ≠ [] ∧ ∀ c ∈ v, isAsciiLetter c = true) (hs : T.Shaped)
    (o : Spec.Connective) (hlt : o.level < T.level) :
    scanOp o.symbol 0 0 T.render = (none, 0) := by
  have := scanOp_skip T hv hs o 0 [] hlt
  rw [List.append_nil] at this
  rw [this]; rfl

theorem scanOp_split (op : Spec.Connective) (a b : Spec.Expr)
    (hv : ∀ v ∈ (Spec.Expr.bin op a b).vars, v ≠ [] ∧ ∀ c ∈ v, isAsciiLetter c = true)
    (hs : (Spec.Expr.bin op a b).Shaped) :
    scanOp op.symbol 0 0 (Spec.Expr.bin op a b).render = (some a.render.length, 0) := by
  simp only [Spec.Expr.Shaped] at hs
  simp only [Spec.Expr.render]
  rw [scanOp_skip a (fun v h => hv v (List.mem_append_left _ h)) hs.2.2.1 op 0 _ hs.1,
    scanOp_found _ (symbol_facts op).1 (symbol_facts op).2.1, Nat.zero_add]

theorem findOp_none_of_level (T : Spec.Expr)
    (hv : ∀ v ∈ T.vars, v ≠ [] ∧ ∀ c ∈ v, isAsciiLetter c = true) (hs : T.Shaped)
    (hl : 4 ≤ T.level) : findOp binaryOps 0 T.render = none := by
  have h0 := scanOp_skip_all T hv hs Spec.Connective.IFF (Nat.lt_of_lt_of_le (by decide) hl)
  have h1 := scanOp_skip_all T hv hs Spec.Connective.IMPLIES (Nat.lt_of_lt_of_le (by decide) hl)
  have h2 := scanOp_skip_all T hv hs Spec.Connective.OR (Nat.lt_of_lt_of_le (by decide) hl)
  have h3 := scanOp_skip_all T hv hs Spec.Connective.AND (Nat.lt_of_lt_of_le (by decide) hl)
  simp only [Spec.Connective.symbol] at h0 h1 h2 h3
  simp only [binaryOps, findOp, h0, h1, h2, h3]

theorem findOp_split (op : Spec.Connective) (a b : Spec.Expr)
    (hv : ∀ v ∈ (Spec.Expr.bin op a b).vars, v ≠ [] ∧ ∀ c ∈ v, isAsciiLetter c = true)
    (hs : (Spec.Expr.bin op a b).Shaped) :
    findOp binaryOps 0 (Spec.Expr.bin op a b).render = some (a.render.length, op.symbol) := by
  have hfound := scanOp_split op a b hv hs
  have hskip : ∀ o : Spec.Connective, o.level < op.level →
      scanOp o.symbol 0 0 (Spec.Expr.bin op a b).render = (none, 0) :=
    fun o ho => scanOp_skip_all _ hv hs o (by rw [level_bin]; exact ho)
  cases op with
  | IFF =>
    simp only [Spec.Connective.symbol] at hfound
    simp only [binaryOps, findOp, hfound, Spec.Connective.symbol]
  | IMPLIES =>
    have h0 := hskip Spec.Connective.IFF (by decide)
    simp only [Spec.Connective.symbol] at hfound h0
    simp only [binaryOps, findOp, hfound, h0, Spec.Connective.symbol]
  | OR =>
    have h0 := hskip Spec.Connective.IFF (by decide)
    have h1 := hskip Spec.Connective.IMPLIES (by decide)
    simp only [Spec.Connective.symbol] at hfound h0 h1
    simp only [binaryOps, findOp, hfound, h0, h1, Spec.Connective.symbol]
  | AND =>
    have h0 := hskip Spec.Connective.IFF (by decide)
    have h1 := hskip Spec.Connective.IMPLIES (by decide)
    have h2 := hskip Spec.Connective.OR (by decide)
    simp only [Spec.Connective.symbol] at hfound h0 h1 h2
    simp only [binaryOps, findOp, hfound, h0, h1, h2, Spec.Connective.symbol]
/-! ## Parentheses of the text of a derivation -/

theorem render_ne_nil (T : Spec.Expr)
    (hv : ∀ v ∈ T.vars, v ≠ [] ∧ ∀ c ∈ v, isAsciiLetter c = true) : T.render ≠ [] := by
  induction T with
  | var v => exact (hv v (List.mem_singleton_self v)).1
  | neg e _ => simp [Spec.Expr.render]
  | paren e _ => simp [Spec.Expr.render]
  | bin op a b _ _ => simp [Spec.Expr.render]

theorem nodes_le_length (T : Spec.Expr)
    (hv : ∀ v ∈ T.vars, v ≠ [] ∧ ∀ c ∈ v, isAsciiLetter c = true) :
    T.nodes ≤ T.render.length := by
  induction T with
  | var v => exact List.length_pos.2 (hv v (List.mem_singleton_self v)).1
  | neg e ih => have := ih hv; simp only [Spec.Expr.render, Spec.Expr.nodes, List.length_cons]; omega
  | paren e ih =>
    have := ih hv
    simp only [Spec.Expr.render, Spec.Expr.nodes, List.length_cons, List.length_append,
      List.length_singleton]
    omega
  | bin op a b iha ihb =>
    have := iha (fun v h => hv v (List.mem_append_left _ h))
    have := ihb (fun v h => hv v (List.mem_append_right _ h))
    simp only [Spec.Expr.render, Spec.Expr.nodes, List.length_cons, List.length_append]
    omega

theorem render_whitespace (T : Spec.Expr)
    (hv : ∀ v ∈ T.vars, v ≠ [] ∧ ∀ c ∈ v, isAsciiLetter c = true) :
    ∀ c ∈ T.render, isJsWhitespace c = false := by
  induction T with
  | var v => exact fun c hc => (letter_plain ((hv v (List.mem_singleton_self v)).2 c hc)).2.2.2.2.2
  | neg e ih =>
    intro c hc
    simp only [Spec.Expr.render, List.mem_cons] at hc
    rcases hc with h | h
    · rw [h]; decide
    · exact ih hv c h
  | paren e ih =>
    intro c hc
    simp only [Spec.Expr.render, List.mem_cons, List.mem_append, List.mem_singleton,
      List.not_mem_nil, or_false] at hc
    rcases hc with (h | h) | h
    · rw [h]; decide
    · exact ih hv c h
    · rw [h]; decide
  | bin op a b iha ihb =>
    intro c hc
    simp only [Spec.Expr.render, List.mem_cons, List.mem_append] at hc
    rcases hc with h | h | h
    · exact iha (fun v h => hv v (List.mem_append_left _ h)) c h
    · rw [h]; exact (symbol_facts op).2.2.2.2
    · exact ihb (fun v h => hv v (List.mem_append_right _ h)) c h

theorem stripWhitespace_render (T : Spec.Expr)
    (hv : ∀ v ∈ T.vars, v ≠ [] ∧ ∀ c ∈ v, isAsciiLetter c = true) :
    stripWhitespace T.render = T.render :=
  stripWhitespace_of_plain _ (render_whitespace T hv)

theorem isBalancedFrom_other (c : Char) (h1 : c ≠ '(') (h2 : c ≠ ')') (d : Int) (hd : 0 ≤ d)
    (cs : Str) : isBalancedFrom d (c :: cs) = isBalancedFrom d cs := by
  rw [isBalancedFrom]
  simp only [h1, h2, if_false]
  rw [if_neg (by omega)]

theorem isBalancedFrom_open (d : Int) (hd : 0 ≤ d) (cs : Str) :
    isBalancedFrom d ('(' :: cs) = isBalancedFrom (d + 1) cs := by
  rw [isBalancedFrom]
  simp only [if_true]
  rw [if_neg (by omega)]

theorem isBalancedFrom_close (d : Int) (cs : Str) :
    isBalancedFrom d (')' :: cs) = if d - 1 < 0 then false else isBalancedFrom (d - 1) cs := by
  rw [isBalancedFrom]
  have h : ¬ (')' = '(') := by decide
  simp only [h, if_false, if_true]

theorem isBalancedFrom_letters (v : Str) (hl : ∀ c ∈ v, isAsciiLetter c = true) (d : Int)
    (hd : 0 ≤ d) (rest : Str) : isBalancedFrom d (v ++ rest) = isBalancedFrom d rest := by
  induction v with
  | nil => rfl
  | cons c cs ih =>
    have hc := letter_plain (hl c (List.mem_cons_self _ _))
    rw [List.cons_append, isBalancedFrom_other c hc.1 hc.2.1 d hd,
      ih (fun e he => hl e (List.mem_cons_of_mem _ he))]

theorem isBalancedFrom_render (T : Spec.Expr)
    (hv : ∀ v ∈ T.vars, v ≠ [] ∧ ∀ c ∈ v, isAsciiLetter c = true) :
    ∀ (d : Int) (rest : Str), 0 ≤ d →
      isBalancedFrom d (T.render ++ rest) = isBalancedFrom d rest := by
  induction T with
  | var v =>
    intro d rest hd
    exact isBalancedFrom_letters v (hv v (List.mem_singleton_self v)).2 d hd rest
  | neg e ih =>
    intro d rest hd
    simp only [Spec.Expr.render, List.cons_append]
    rw [isBalancedFrom_other _ (by decide) (by decide) d hd, ih hv d rest hd]
  | paren e ih =>
    intro d rest hd
    have hr : (Spec.Expr.paren e).render ++ rest = '(' :: (e.render ++ ')' :: rest) := by
      simp [Spec.Expr.render]
    rw [hr, isBalancedFrom_open d hd, ih hv (d + 1) _ (by omega), isBalancedFrom_close,
      if_neg (by omega), Int.add_sub_cancel]
  | bin op a b iha ihb =>
    intro d rest hd
    simp only [Spec.Expr.render, List.append_assoc, List.cons_append]
    rw [iha (fun v h => hv v (List.mem_append_left _ h)) d _ hd,
      isBalancedFrom_other _ (symbol_facts op).1 (symbol_facts op).2.1 d hd,
      ihb (fun v h => hv v (List.mem_append_right _ h)) d rest hd]

theorem isBalanced_render (T : Spec.Expr)
    (hv : ∀ v ∈ T.vars, v ≠ [] ∧ ∀ c ∈ v, isAsciiLetter c = true) :
    isBalanced T.render = true := by
  have := isBalancedFrom_render T hv 0 [] (Int.le_refl 0)
  rw [List.append_nil] at this
  unfold isBalanced
  rw [this]; rfl

theorem isBalancedFrom_after_open (T : Spec.Expr)
    (hv : ∀ v ∈ T.vars, v ≠ [] ∧ ∀ c ∈ v, isAsciiLetter c = true) :
    ∀ (w rest : Str), T.render = '(' :: w → isBalancedFrom 0 (w ++ rest) = false := by
  induction T with
  | var v =>
    intro w rest h
    have := (letter_plain ((hv v (List.mem_singleton_self v)).2 '('
      (by simp only [Spec.Expr.render] at h; rw [h]; exact List.mem_cons_self _ _))).1
    exact absurd rfl this
  | neg e _ =>
    intro w rest h
    simp only [Spec.Expr.render, List.cons.injEq] at h
    exact absurd h.1 (by decide)
  | paren e _ =>
    intro w rest h
    simp only [Spec.Expr.render, List.cons_append, List.cons.injEq, true_and] at h
    rw [← h, List.append_assoc, isBalancedFrom_render e hv 0 _ (Int.le_refl 0),
      List.singleton_append, isBalancedFrom_close]
    rfl
  | bin op a b iha _ =>
    intro w rest h
    have hva : ∀ v ∈ a.vars, v ≠ [] ∧ ∀ c ∈ v, isAsciiLetter c = true :=
      fun v h => hv v (List.mem_append_left _ h)
    simp only [Spec.Expr.render] at h
    obtain ⟨c, w', hw'⟩ := List.exists_cons_of_ne_nil (render_ne_nil a hva)
    rw [hw', List.cons_append, List.cons.injEq] at h
    rw [h.1] at hw'
    rw [← h.2, List.append_assoc]
    exact iha hva w' _ hw'

theorem sliceInner_paren (s : Str) : sliceInner ('(' :: s ++ [')']) = s := by
  simp [sliceInner]

theorem head?_paren (s : Str) : ('(' :: s ++ [')']).head? = some '(' := rfl

theorem getLast?_paren (s : Str) : ('(' :: s ++ [')']).getLast? = some ')' := by
  rw [List.getLast?_append]
  simp

theorem sliceInner_bin (w rest : Str) (c : Char) (hrest : rest ≠ []) :
    sliceInner (c :: w ++ rest) = w ++ rest.dropLast := by
  simp only [sliceInner, List.cons_append, List.drop_succ_cons, List.drop_zero]
  exact List.dropLast_append_of_ne_nil _ hrest

theorem stripBalanced_render (T : Spec.Expr)
    (hv : ∀ v ∈ T.vars, v ≠ [] ∧ ∀ c ∈ v, isAsciiLetter c = true) :
    ∀ n, T.nodes ≤ n → stripBalanced n T.render = T.core.render := by
  induction T with
  | var v =>
    intro n _
    refine stripBalanced_of_head n _ ?_
    intro h
    obtain ⟨c, w, hw⟩ := List.exists_cons_of_ne_nil (hv v (List.mem_singleton_self v)).1
    simp only [Spec.Expr.render] at h
    rw [hw] at h
    simp only [List.head?_cons, Option.some.injEq] at h
    have := (letter_plain ((hv v (List.mem_singleton_self v)).2 c
      (by rw [hw]; exact List.mem_cons_self _ _))).1
    exact this h
  | neg e _ =>
    intro n _
    exact stripBalanced_of_head n _ (by simp [Spec.Expr.render])
  | paren e ih =>
    intro n hn
    cases n with
    | zero => simp only [Spec.Expr.nodes] at hn; omega
    | succ n =>
      simp only [Spec.Expr.nodes] at hn
      simp only [Spec.Expr.render, Spec.Expr.core]
      rw [stripBalanced, if_pos ⟨head?_paren _, getLast?_paren _, by
        rw [sliceInner_paren]; exact isBalanced_render e hv⟩, sliceInner_paren]
      exact ih hv n (by omega)
  | bin op a b _ _ =>
    intro n _
    cases n with
    | zero => rfl
    | succ n =>
      have hva : ∀ v ∈ a.vars, v ≠ [] ∧ ∀ c ∈ v, isAsciiLetter c = true :=
        fun v h => hv v (List.mem_append_left _ h)
      rw [stripBalanced, if_neg]
      · rfl
      · rintro ⟨hh, -, hb⟩
        simp only [Spec.Expr.render] at hh hb
        obtain ⟨c, w, hw⟩ := List.exists_cons_of_ne_nil (render_ne_nil a hva)
        rw [hw] at hh hb
        simp only [List.cons_append, List.head?_cons, Option.some.injEq] at hh
        rw [hh] at hw
        rw [sliceInner_bin w _ c (List.cons_ne_nil _ _)] at hb
        unfold isBalanced at hb
        rw [isBalancedFrom_after_open a hva w _ hw] at hb
        exact Bool.noConfusion hb
/-! ## The builder on the text of a derivation -/

theorem processSubExpression_congr (vars : List Str) (n : Nat) (st : Builder) (s1 s2 : Str)
    (pg : Option Str) (side : Str)
    (h : stripBalanced (stripWhitespace s1).length (stripWhitespace s1) =
      stripBalanced (stripWhitespace s2).length (stripWhitespace s2)) :
    processSubExpression vars (n + 1) st s1 pg side =
      processSubExpression vars (n + 1) st s2 pg side := by
  rw [processSubExpression, processSubExpression]
  simp only [h]

theorem stripped_render (T : Spec.Expr)
    (hv : ∀ v ∈ T.vars, v ≠ [] ∧ ∀ c ∈ v, isAsciiLetter c = true) :
    stripBalanced (stripWhitespace T.render).length (stripWhitespace T.render) =
      T.core.render := by
  rw [stripWhitespace_render T hv]
  exact stripBalanced_render T hv _ (nodes_le_length T hv)

theorem toBinOp_symbol (op : Spec.Connective) : op.toBinOp.symbol = op.symbol := by
  cases op <;> rfl

theorem processSubExpression_shaped (vars : List Str) (T : Spec.Expr)
    (hv : ∀ v ∈ T.vars, v ≠ [] ∧ ∀ c ∈ v, isAsciiLetter c = true)
    (hd : ∀ v ∈ T.vars, v ∈ vars) (hs : T.Shaped) :
    ∀ (fuel : Nat) (st : Builder) (pg : Option Str) (side : Str), T.render.length < fuel →
      processSubExpression vars fuel st T.render pg side =
        some (Except.ok (T.erase.emit st pg side)) := by
  induction T with
  | var v =>
    intro fuel st pg side hf
    cases fuel with
    | zero => omega
    | succ n =>
      exact processSubExpression_leaf vars n st v pg side (hv v (List.mem_singleton_self v)).2
        (hd v (List.mem_singleton_self v))
  | paren e ih =>
    intro fuel st pg side hf
    cases fuel with
    | zero => omega
    | succ n =>
      rw [processSubExpression_congr vars n st (Spec.Expr.paren e).render e.render pg side
        (by rw [stripped_render _ hv, stripped_render e hv]; rfl)]
      refine ih hv hd hs (n + 1) st pg side ?_
      simp only [Spec.Expr.render, List.length_cons, List.length_append,
        List.length_singleton] at hf
      omega
  | neg e ih =>
    intro fuel st pg side hf
    cases fuel with
    | zero => omega
    | succ n =>
      have hstrip : stripBalanced (stripWhitespace (Spec.Expr.neg e).render).length
          (stripWhitespace (Spec.Expr.neg e).render) = '¬' :: e.render :=
        stripped_render _ hv
      have hfind : findOp binaryOps 0 ('¬' :: e.render) = none :=
        findOp_none_of_level (Spec.Expr.neg e) hv hs (Nat.le_refl 4)
      simp only [Spec.Expr.Shaped] at hs
      simp only [Spec.Expr.render, List.length_cons] at hf
      rw [processSubExpression]
      simp only [hstrip, hfind, List.head?_cons, if_true, List.drop_succ_cons, List.drop_zero]
      rw [ih hv hd hs.2 n _ _ _ (by omega)]
      rfl
  | bin op a b iha ihb =>
    intro fuel st pg side hf
    cases fuel with
    | zero => omega
    | succ n =>
      have hva : ∀ v ∈ a.vars, v ≠ [] ∧ ∀ c ∈ v, isAsciiLetter c = true :=
        fun v h => hv v (List.mem_append_left _ h)
      have hvb : ∀ v ∈ b.vars, v ≠ [] ∧ ∀ c ∈ v, isAsciiLetter c = true :=
        fun v h => hv v (List.mem_append_right _ h)
      have hstrip : stripBalanced (stripWhitespace (Spec.Expr.bin op a b).render).length
          (stripWhitespace (Spec.Expr.bin op a b).render) = a.render ++ op.symbol :: b.render :=
        stripped_render _ hv
      have hfind : findOp binaryOps 0 (a.render ++ op.symbol :: b.render) =
          some (a.render.length, op.symbol) := findOp_split op a b hv hs
      simp only [Spec.Expr.Shaped] at hs
      simp only [Spec.Expr.render, List.length_cons, List.length_append] at hf
      rw [processSubExpression]
      simp only [hstrip, hfind, take_length_append, drop_length_succ_append]
      rw [iha hva (fun v h => hd v (List.mem_append_left _ h)) hs.2.2.1 n _ _ _ (by omega)]
      simp only
      rw [ihb hvb (fun v h => hd v (List.mem_append_right _ h)) hs.2.2.2 n _ _ _ (by omega)]
      simp only [Spec.Expr.erase, Spec.Formula.emit, Spec.builderGateType, toBinOp_symbol]
theorem erase_vars (E : Spec.Expr) : E.erase.vars = E.vars := by
  induction E with
  | var v => rfl
  | neg e ih => simpa [Spec.Expr.erase, Spec.Formula.vars, Spec.Expr.vars] using ih
  | paren e ih => simpa [Spec.Expr.erase, Spec.Expr.vars] using ih
  | bin op a b iha ihb => simp [Spec.Expr.erase, Spec.Formula.vars, Spec.Expr.vars, iha, ihb]

theorem countP_letters (v : Str) (hl : ∀ c ∈ v, isAsciiLetter c = true) :
    v.countP (fun c => decide (c ∈ Spec.connectiveSymbols)) = 0 := by
  rw [List.countP_eq_zero]
  intro c hc
  have h := letter_plain (hl c hc)
  simp only [decide_eq_true_eq, Spec.connectiveSymbols, List.mem_cons, List.mem_singleton,
    List.not_mem_nil, or_false]
  have hb := h.2.2.1
  simp only [binaryOps, List.mem_cons, List.mem_singleton, List.not_mem_nil, or_false] at hb
  rintro (e | e | e | e | e)
  · exact h.2.2.2.1 e
  · exact hb (Or.inr (Or.inr (Or.inr e)))
  · exact hb (Or.inr (Or.inr (Or.inl e)))
  · exact hb (Or.inr (Or.inl e))
  · exact hb (Or.inl e)

theorem symbol_mem_connectiveSymbols (o : Spec.Connective) :
    o.symbol ∈ Spec.connectiveSymbols := by
  cases o <;> decide

theorem countP_render (E : Spec.Expr)
    (hv : ∀ v ∈ E.vars, v ≠ [] ∧ ∀ c ∈ v, isAsciiLetter c = true) :
    E.render.countP (fun c => decide (c ∈ Spec.connectiveSymbols)) = E.erase.size := by
  induction E with
  | var v => exact countP_letters v (hv v (List.mem_singleton_self v)).2
  | neg e ih =>
    simp only [Spec.Expr.render, Spec.Expr.erase, Spec.Formula.size]
    rw [List.countP_cons_of_pos _ _ (by decide), ih hv]
  | paren e ih =>
    simp only [Spec.Expr.render, Spec.Expr.erase]
    rw [List.countP_append, List.countP_cons_of_neg _ _ (by decide), ih hv]
    rfl
  | bin op a b iha ihb =>
    simp only [Spec.Expr.render, Spec.Expr.erase, Spec.Formula.size]
    rw [List.countP_append, List.countP_cons_of_pos _ _
      (by simpa using symbol_mem_connectiveSymbols op),
      iha (fun v h => hv v (List.mem_append_left _ h)),
      ihb (fun v h => hv v (List.mem_append_right _ h))]
    omega

theorem generateCircuitDiagram_render (vars : List Str) (T : Spec.Expr)
    (hvars : ∀ v ∈ T.vars, v ∈ vars ∧ v ≠ [] ∧ ∀ c ∈ v, isAsciiLetter c = true) :
    (∀ v ∈ T.norm.vars, v ≠ [] ∧ ∀ c ∈ v, isAsciiLetter c = true) ∧
    generateCircuitDiagram T.render vars =
      some (Except.ok (T.norm.erase.emit Builder.initial none [])) := by
  obtain ⟨hr, hv, hs⟩ := norm_spec T
  have hvN : ∀ v ∈ T.norm.vars, v ≠ [] ∧ ∀ c ∈ v, isAsciiLetter c = true :=
    fun v h => (hvars v ((hv v).1 h)).2
  refine ⟨hvN, ?_⟩
  unfold generateCircuitDiagram
  rw [← hr, stripWhitespace_render T.norm hvN]
  exact processSubExpression_shaped vars T.norm hvN (fun v h => (hvars v ((hv v).1 h)).1) hs
    _ _ _ _ (Nat.lt_succ_self _)

theorem find?_of_mem_nodup (G : List Gate) (hnd : (G.map Gate.id).Nodup) (g : Gate)
    (hg : g ∈ G) : G.find? (fun h => h.id = g.id) = some g := by
  induction G with
  | nil => exact absurd hg (List.not_mem_nil g)
  | cons h hs ih =>
    rw [List.map_cons, List.nodup_cons] at hnd
    rcases List.mem_cons.1 hg with e | hmem
    · subst e
      simp [List.find?_cons]
    · have hne : h.id ≠ g.id := fun e => hnd.1 (e ▸ List.mem_map_of_mem Gate.id hmem)
      rw [List.find?_cons]
      simp only [hne, decide_False]
      exact ih hnd.2 hmem

theorem find?_none_of_ne (G : List Gate) (x : Str) (h : ∀ g ∈ G, g.id ≠ x) :
    G.find? (fun g => g.id = x) = none := by
  rw [List.find?_eq_none]
  intro g hg
  simpa using h g hg

theorem preorderFrom_gatesOf (G : List Gate) (hnd : (G.map Gate.id).Nodup) (F : Spec.Formula) :
    ∀ (c : Nat) (u : Bool), (∀ g ∈ F.gatesOf c u, g ∈ G) →
      (∀ v ∈ F.vars, ∀ g ∈ G, g.id ≠ v) →
      ∀ fuel, F.size ≤ fuel →
        Spec.preorderFrom G fuel (F.outOf c) = (F.gatesOf c u).map Gate.id := by
  induction F with
  | var v =>
    intro c u _ hv fuel _
    cases fuel with
    | zero => rfl
    | succ n =>
      simp only [Spec.preorderFrom, Spec.Formula.outOf,
        find?_none_of_ne G v (hv v (List.mem_singleton_self v))]
      rfl
  | not a ih =>
    intro c u hsub hv fuel hf
    cases fuel with
    | zero => simp only [Spec.Formula.size] at hf; omega
    | succ n =>
      simp only [Spec.Formula.size] at hf
      simp only [Spec.Formula.gatesOf] at hsub
      have hroot := find?_of_mem_nodup G hnd _ (hsub _ (List.mem_cons_self _ _))
      simp only at hroot
      rw [show (Spec.Formula.not a).outOf c = gateIdOf (c + 1) from rfl]
      simp only [Spec.preorderFrom, hroot, Spec.Formula.gatesOf,
        List.map_cons, List.flatMap_cons, List.flatMap_nil, List.append_nil]
      rw [ih (c + 1) true (fun g hg => hsub g (List.mem_cons_of_mem _ hg)) hv n (by omega)]
  | bin op a b iha ihb =>
    intro c u hsub hv fuel hf
    cases fuel with
    | zero => simp only [Spec.Formula.size] at hf; omega
    | succ n =>
      simp only [Spec.Formula.size] at hf
      simp only [Spec.Formula.gatesOf] at hsub
      have hroot := find?_of_mem_nodup G hnd _ (hsub _ (List.mem_cons_self _ _))
      simp only at hroot
      rw [show (Spec.Formula.bin op a b).outOf c = gateIdOf (c + 1) from rfl]
      simp only [Spec.preorderFrom, hroot, Spec.Formula.gatesOf,
        List.map_cons, List.map_append, List.flatMap_cons, List.flatMap_nil, List.append_nil]
      rw [iha (c + 1) false
          (fun g hg => hsub g (List.mem_cons_of_mem _ (List.mem_append_left _ hg)))
          (fun v h => hv v (List.mem_append_left _ h)) n (by omega),
        ihb (c + 1 + a.size) false
          (fun g hg => hsub g (List.mem_cons_of_mem _ (List.mem_append_right _ hg)))
          (fun v h => hv v (List.mem_append_right _ h)) n (by omega)]

/-- C18: for every expression generated by the grammar `E ::= v | ¬E | (E) |
E∧E | E∨E | E→E | E↔E` over declared variables named by ASCII letters, the
builder succeeds and emits exactly one gate per operator symbol of the
expression; the gates are, in the order of their creation, gate1, gate2, ...,
gateN, pairwise distinct. The ids are assigned in pre-order: the pre-order
traversal of the emitted graph from the output (a gate, then what is reached
from its first input, then what is reached from its second input) visits
gate1, gate2, ..., gateN in this order; so every gate that is an input of a
gate has a larger number than that gate, and of two gates that are the inputs
of one gate the left one has the smaller number. The graph is that of a
derivation `S` of the same string, in the shape read by script2.js: the
output, the gates with their types and inputs, and the connections are those
of the tree of `S` numbered in pre-order from 1. -/
theorem generateCircuitDiagram_preorder (vars : List Str) (T : Spec.Expr)
    (hvars : ∀ v ∈ T.vars, v ∈ vars ∧ v ≠ [] ∧ ∀ c ∈ v, isAsciiLetter c = true) :
    ∃ out b, generateCircuitDiagram T.render vars = some (Except.ok (out, b)) ∧
      b.gates.length = T.render.countP (fun c => c ∈ Spec.connectiveSymbols) ∧
      b.gates.map Gate.id = (List.range' 1 b.gates.length).map gateIdOf ∧
      (b.gates.map Gate.id).Nodup ∧
      (∀ fuel, b.gates.length ≤ fuel →
        Spec.preorderFrom b.gates fuel out = b.gates.map Gate.id) ∧
      (∀ g ∈ b.gates, ∀ k, g.id = gateIdOf k → ∀ m, gateIdOf m ∈ g.inputs → k < m) ∧
      (∀ g ∈ b.gates, ∀ i j, g.inputs = [gateIdOf i, gateIdOf j] → i < j) ∧
      (∃ S : Spec.Expr, S.render = T.render ∧ S.Shaped ∧ out = S.erase.outOf 0 ∧
        b.gates = S.erase.gatesOf 0 false ∧ b.connections = S.erase.connsOf 0 none []) := by
  obtain ⟨hvN, hrun⟩ := generateCircuitDiagram_render vars T hvars
  obtain ⟨ho, hg, hc, -⟩ := emit_eq T.norm.erase Builder.initial none []
    (fun g hg => absurd hg (List.not_mem_nil g))
  simp only [Builder.initial, List.nil_append, parentIsNot] at ho hg hc
  have hlen : (T.norm.erase.emit Builder.initial none []).2.gates.length = T.norm.erase.size := by
    rw [show (T.norm.erase.emit Builder.initial none []).2.gates = _ from hg, gatesOf_length]
  have hids : (T.norm.erase.emit Builder.initial none []).2.gates.map Gate.id =
      (List.range' 1 T.norm.erase.size).map gateIdOf := by
    rw [show (T.norm.erase.emit Builder.initial none []).2.gates = _ from hg]
    exact gatesOf_ids _ 0 false
  have hnd : ((T.norm.erase.emit Builder.initial none []).2.gates.map Gate.id).Nodup := by
    rw [hids]
    exact (List.nodup_range' 1 _).map fun _ _ h => gateIdOf_injective h
  have hnotvar : ∀ x ∈ T.norm.erase.vars, ∀ m, x ≠ gateIdOf m := by
    intro x hx m
    rw [erase_vars] at hx
    exact gateIdOf_ne_letters m x (hvN x hx).2
  have hin : ∀ g ∈ (T.norm.erase.emit Builder.initial none []).2.gates,
      g ∈ T.norm.erase.gatesOf 0 false := by
    intro g h
    rw [show (T.norm.erase.emit Builder.initial none []).2.gates = _ from hg] at h
    exact h
  refine ⟨_, _, hrun, ?_, ?_, hnd, ?_, ?_, ?_, ?_⟩
  · rw [hlen, ← countP_render T.norm hvN, (norm_spec T).1]
  · rw [hlen]; exact hids
  · intro fuel hf
    rw [hlen] at hf
    have h := preorderFrom_gatesOf _ hnd T.norm.erase 0 false
      (fun g h => by
        rw [show (T.norm.erase.emit Builder.initial none []).2.gates = _ from hg]; exact h)
      (fun v hv g hgm e => by
        obtain ⟨j, -, -, hj⟩ := gatesOf_id_mem _ _ _ _ (hin g hgm)
        exact hnotvar v hv j (e.symm.trans hj)) fuel hf
    rw [show (T.norm.erase.emit Builder.initial none []).1 = _ from ho, h,
      show (T.norm.erase.emit Builder.initial none []).2.gates = _ from hg]
  · intro g hgm k hk m hm
    obtain ⟨k', -, hid, h1, -⟩ := gatesOf_inputs _ 0 false g (hin g hgm)
    have hkk : k = k' := gateIdOf_injective (hk.symm.trans hid)
    rcases h1 _ hm with h | ⟨m', hm', he⟩
    · exact absurd rfl (hnotvar _ h m)
    · rw [hkk, gateIdOf_injective he]; exact hm'
  · intro g hgm i j hij
    obtain ⟨k', -, -, -, h2⟩ := gatesOf_inputs _ 0 false g (hin g hgm)
    rcases h2 _ _ hij with h | h | ⟨i', j', hlt, hi, hj⟩
    · exact absurd rfl (hnotvar _ h i)
    · exact absurd rfl (hnotvar _ h j)
    · rw [gateIdOf_injective hi, gateIdOf_injective hj]; exact hlt
  · exact ⟨T.norm, (norm_spec T).1, (norm_spec T).2.2, ho, hg, hc⟩

/-- Witness for C18: `(p∧q)∨¬r` has three operator symbols and gives the
gates gate1, gate2 and gate3, visited in this order by the pre-order
traversal from the output. -/
theorem generateCircuitDiagram_preorder_witness :
    ∃ out b, generateCircuitDiagram "(p∧q)∨¬r".toList [['p'], ['q'], ['r']] =
        some (Except.ok (out, b)) ∧
      b.gates.length = 3 ∧
      b.gates.map Gate.id = ["gate1".toList, "gate2".toList, "gate3".toList] ∧
      Spec.preorderFrom b.gates 3 out = ["gate1".toList, "gate2".toList, "gate3".toList] := by
  obtain ⟨out, b, hrun, hlen, hids, -, hpre, -⟩ :=
    generateCircuitDiagram_preorder [['p'], ['q'], ['r']]
      (Spec.Expr.bin Spec.Connective.OR
        (Spec.Expr.paren (Spec.Expr.bin Spec.Connective.AND (Spec.Expr.var ['p'])
          (Spec.Expr.var ['q'])))
        (Spec.Expr.neg (Spec.Expr.var ['r']))) (by decide)
  have h3 : b.gates.length = 3 := hlen
  have hl : b.gates.map Gate.id = ["gate1".toList, "gate2".toList, "gate3".toList] := by
    rw [hids, h3]; rfl
  refine ⟨out, b, hrun, h3, hl, ?_⟩
  rw [hpre 3 (by omega), hl]

/-! ## The evaluator of script2.js on the text of a derivation -/

theorem wrapsWhole_other (c : Char) (h1 : c ≠ '(') (h2 : c ≠ ')') (d : Int) (hd : d ≠ 0)
    (cs : Str) : wrapsWhole d (c :: cs) = wrapsWhole d cs := by
  rw [wrapsWhole]
  simp only [h1, h2, if_false]
  rw [if_neg (fun h => hd h.1)]

theorem wrapsWhole_open (d : Int) (hd : 0 ≤ d) (cs : Str) :
    wrapsWhole d ('(' :: cs) = wrapsWhole (d + 1) cs := by
  rw [wrapsWhole]
  have h : ¬ ('(' = ')') := by decide
  simp only [h, if_true, if_false]
  rw [if_neg (fun h => by omega)]

theorem wrapsWhole_close (d : Int) (cs : Str) :
    wrapsWhole d (')' :: cs) = if d - 1 = 0 ∧ cs ≠ [] then false else wrapsWhole (d - 1) cs := by
  rw [wrapsWhole]
  have h : ¬ (')' = '(') := by decide
  simp only [h, if_true, if_false]

theorem wrapsWhole_letters (v : Str) (hl : ∀ c ∈ v, isAsciiLetter c = true) (d : Int)
    (hd : d ≠ 0) (rest : Str) : wrapsWhole d (v ++ rest) = wrapsWhole d rest := by
  induction v with
  | nil => rfl
  | cons c cs ih =>
    have hc := letter_plain (hl c (List.mem_cons_self _ _))
    rw [List.cons_append, wrapsWhole_other c hc.1 hc.2.1 d hd,
      ih (fun e he => hl e (List.mem_cons_of_mem _ he))]

theorem wrapsWhole_render (T : Spec.Expr)
    (hv : ∀ v ∈ T.vars, v ≠ [] ∧ ∀ c ∈ v, isAsciiLetter c = true) :
    ∀ (d : Int) (rest : Str), 0 < d → wrapsWhole d (T.render ++ rest) = wrapsWhole d rest := by
  induction T with
  | var v =>
    intro d rest hd
    exact wrapsWhole_letters v (hv v (List.mem_singleton_self v)).2 d (by omega) rest
  | neg e ih =>
    intro d rest hd
    simp only [Spec.Expr.render, List.cons_append]
    rw [wrapsWhole_other _ (by decide) (by decide) d (by omega), ih hv d rest hd]
  | paren e ih =>
    intro d rest hd
    have hr : (Spec.Expr.paren e).render ++ rest = '(' :: (e.render ++ ')' :: rest) := by
      simp [Spec.Expr.render]
    rw [hr, wrapsWhole_open d (by omega), ih hv (d + 1) _ (by omega), wrapsWhole_close,
      if_neg (fun h => by omega), Int.add_sub_cancel]
  | bin op a b iha ihb =>
    intro d rest hd
    simp only [Spec.Expr.render, List.append_assoc, List.cons_append]
    rw [iha (fun v h => hv v (List.mem_append_left _ h)) d _ hd,
      wrapsWhole_other _ (symbol_facts op).1 (symbol_facts op).2.1 d (by omega),
      ihb (fun v h => hv v (List.mem_append_right _ h)) d rest hd]

theorem wrapsWhole_after_open (T : Spec.Expr)
    (hv : ∀ v ∈ T.vars, v ≠ [] ∧ ∀ c ∈ v, isAsciiLetter c = true) :
    ∀ (w rest : Str), T.render = '(' :: w → rest ≠ [] → wrapsWhole 1 (w ++ rest) = false := by
  induction T with
  | var v =>
    intro w rest h _
    have := (letter_plain ((hv v (List.mem_singleton_self v)).2 '('
      (by simp only [Spec.Expr.render] at h; rw [h]; exact List.mem_cons_self _ _))).1
    exact absurd rfl this
  | neg e _ =>
    intro w rest h _
    simp only [Spec.Expr.render, List.cons.injEq] at h
    exact absurd h.1 (by decide)
  | paren e _ =>
    intro w rest h hrest
    simp only [Spec.Expr.render, List.cons_append, List.cons.injEq, true_and] at h
    rw [← h, List.append_assoc, wrapsWhole_render e hv 1 _ (by decide),
      List.singleton_append, wrapsWhole_close, if_pos ⟨by decide, hrest⟩]
  | bin op a b iha _ =>
    intro w rest h _
    have hva : ∀ v ∈ a.vars, v ≠ [] ∧ ∀ c ∈ v, isAsciiLetter c = true :=
      fun v h => hv v (List.mem_append_left _ h)
    simp only [Spec.Expr.render] at h
    obtain ⟨c, w', hw'⟩ := List.exists_cons_of_ne_nil (render_ne_nil a hva)
    rw [hw', List.cons_append, List.cons.injEq] at h
    rw [h.1] at hw'
    rw [← h.2, List.append_assoc]
    exact iha hva w' _ hw' (by simp)

theorem stripOuter_of_head (fuel : Nat) (s : Str) (h : s.head? ≠ some '(') :
    stripOuter fuel s = s := by
  cases fuel with
  | zero => rfl
  | succ n =>
    rw [stripOuter, if_neg]
    exact fun hc => h hc.1

theorem stripOuter_render (T : Spec.Expr)
    (hv : ∀ v ∈ T.vars, v ≠ [] ∧ ∀ c ∈ v, isAsciiLetter c = true) :
    ∀ n, T.nodes ≤ n → stripOuter n T.render = T.core.render := by
  induction T with
  | var v =>
    intro n _
    refine stripOuter_of_head n _ ?_
    intro h
    obtain ⟨c, w, hw⟩ := List.exists_cons_of_ne_nil (hv v (List.mem_singleton_self v)).1
    simp only [Spec.Expr.render] at h
    rw [hw] at h
    simp only [List.head?_cons, Option.some.injEq] at h
    have := (letter_plain ((hv v (List.mem_singleton_self v)).2 c
      (by rw [hw]; exact List.mem_cons_self _ _))).1
    exact this h
  | neg e _ =>
    intro n _
    exact stripOuter_of_head n _ (by simp [Spec.Expr.render])
  | paren e ih =>
    intro n hn
    cases n with
    | zero => simp only [Spec.Expr.nodes] at hn; omega
    | succ n =>
      simp only [Spec.Expr.nodes] at hn
      have hw : wrapsWhole 0 ('(' :: e.render ++ [')']) = true := by
        rw [List.cons_append, wrapsWhole_open 0 (Int.le_refl 0),
          wrapsWhole_render e hv (0 + 1) _ (by decide), wrapsWhole_close,
          if_neg (fun h => h.2 rfl)]
        rfl
      simp only [Spec.Expr.render, Spec.Expr.core]
      rw [stripOuter, if_pos ⟨head?_paren _, getLast?_paren _, hw⟩, sliceInner_paren]
      exact ih hv n (by omega)
  | bin op a b _ _ =>
    intro n _
    cases n with
    | zero => rfl
    | succ n =>
      have hva : ∀ v ∈ a.vars, v ≠ [] ∧ ∀ c ∈ v, isAsciiLetter c = true :=
        fun v h => hv v (List.mem_append_left _ h)
      rw [stripOuter, if_neg]
      · rfl
      · rintro ⟨hh, -, hb⟩
        simp only [Spec.Expr.render] at hh hb
        obtain ⟨c, w, hw⟩ := List.exists_cons_of_ne_nil (render_ne_nil a hva)
        rw [hw] at hh hb
        simp only [List.cons_append, List.head?_cons, Option.some.injEq] at hh
        rw [hh] at hw hb
        rw [List.cons_append, wrapsWhole_open 0 (Int.le_refl 0), Int.zero_add,
          wrapsWhole_after_open a hva w _ hw (List.cons_ne_nil _ _)] at hb
        exact Bool.noConfusion hb

theorem evaluate_congr (context : Obj) (n : Nat) (s1 s2 : Str)
    (h : stripOuter s1.length s1 = stripOuter s2.length s2) :
    evaluate context (n + 1) s1 = evaluate context (n + 1) s2 := by
  rw [evaluate, evaluate]
  simp only [h]

theorem applyOp_symbol (op : Spec.Connective) (x y : Bool) :
    applyOp op.symbol x y = op.toBinOp.apply x y := by
  cases op <;> cases x <;> cases y <;> rfl

theorem evaluate_shaped (context : Obj) (σ : Str → Bool) (T : Spec.Expr)
    (hv : ∀ v ∈ T.vars, v ≠ [] ∧ ∀ c ∈ v, isAsciiLetter c = true)
    (hc : ∀ v ∈ T.vars, context.get v = some (σ v))
    (hown : context.get "hasOwnProperty".toList = none) (hs : T.Shaped) :
    ∀ fuel : Nat, T.render.length < fuel →
      evaluate context fuel T.render = some (Except.ok (T.erase.value σ)) := by
  induction T with
  | var v =>
    intro fuel hf
    cases fuel with
    | zero => omega
    | succ n =>
      have hstrip : stripOuter (Spec.Expr.var v).render.length (Spec.Expr.var v).render = v :=
        stripOuter_render _ hv _ (nodes_le_length _ hv)
      have hfind : findOp binaryOps 0 v = none :=
        findOp_none_of_level (Spec.Expr.var v) hv hs (Nat.le_succ 4)
      have hneg : v.head? ≠ some '¬' := by
        intro h
        exact (letter_plain ((hv v (List.mem_singleton_self v)).2 '¬'
          (List.mem_of_mem_head? h))).2.2.2.1 rfl
      rw [evaluate]
      simp only [hstrip, hfind, if_neg hneg, hown, hc v (List.mem_singleton_self v)]
      rfl
  | paren e ih =>
    intro fuel hf
    cases fuel with
    | zero => omega
    | succ n =>
      rw [evaluate_congr context n (Spec.Expr.paren e).render e.render
        (by rw [stripOuter_render _ hv _ (nodes_le_length _ hv),
          stripOuter_render e hv _ (nodes_le_length e hv)]; rfl)]
      refine ih hv hc hs (n + 1) ?_
      simp only [Spec.Expr.render, List.length_cons, List.length_append,
        List.length_singleton] at hf
      omega
  | neg e ih =>
    intro fuel hf
    cases fuel with
    | zero => omega
    | succ n =>
      have hstrip : stripOuter (Spec.Expr.neg e).render.length (Spec.Expr.neg e).render =
          '¬' :: e.render := stripOuter_render _ hv _ (nodes_le_length _ hv)
      have hfind : findOp binaryOps 0 ('¬' :: e.render) = none :=
        findOp_none_of_level (Spec.Expr.neg e) hv hs (Nat.le_refl 4)
      simp only [Spec.Expr.Shaped] at hs
      simp only [Spec.Expr.render, List.length_cons] at hf
      rw [evaluate]
      simp only [hstrip, hfind, List.head?_cons, if_true, List.drop_succ_cons, List.drop_zero]
      rw [ih hv hc hs.2 n (by omega)]
      rfl
  | bin op a b iha ihb =>
    intro fuel hf
    cases fuel with
    | zero => omega
    | succ n =>
      have hva : ∀ v ∈ a.vars, v ≠ [] ∧ ∀ c ∈ v, isAsciiLetter c = true :=
        fun v h => hv v (List.mem_append_left _ h)
      have hvb : ∀ v ∈ b.vars, v ≠ [] ∧ ∀ c ∈ v, isAsciiLetter c = true :=
        fun v h => hv v (List.mem_append_right _ h)
      have hstrip : stripOuter (Spec.Expr.bin op a b).render.length
          (Spec.Expr.bin op a b).render = a.render ++ op.symbol :: b.render :=
        stripOuter_render _ hv _ (nodes_le_length _ hv)
      have hfind : findOp binaryOps 0 (a.render ++ op.symbol :: b.render) =
          some (a.render.length, op.symbol) := findOp_split op a b hv hs
      simp only [Spec.Expr.Shaped] at hs
      simp only [Spec.Expr.render, List.length_cons, List.length_append] at hf
      rw [evaluate]
      simp only [hstrip, hfind, take_length_append, drop_length_succ_append]
      rw [iha hva (fun v h => hc v (List.mem_append_left _ h)) hs.2.2.1 n (by omega)]
      simp only
      rw [ihb hvb (fun v h => hc v (List.mem_append_right _ h)) hs.2.2.2 n (by omega)]
      simp only [Spec.Expr.erase, Spec.Formula.value, applyOp_symbol]

end Script2

namespace Script

/-! ## The shunting-yard loop on the text of a derivation -/

theorem connective_mem_binarySymbols (o : Spec.Connective) : o.symbol ∈ Spec.binarySymbols := by
  cases o <;> decide

theorem connective_mem_connectiveSymbols (o : Spec.Connective) :
    o.symbol ∈ Spec.connectiveSymbols := by
  cases o <;> decide

theorem rank_symbol (o : Spec.Connective) : Spec.rank o.symbol = o.level := by
  cases o <;> rfl

theorem shouldPop_rank : ∀ x ∈ Spec.connectiveSymbols, ∀ t ∈ Spec.connectiveSymbols,
    shouldPop [x] [t] =
      decide (Spec.rank t < Spec.rank x ∨ (Spec.rank x = Spec.rank t ∧ t ≠ '→' ∧ t ≠ '¬')) := by
  decide

theorem shouldPop_paren (t : Str) : shouldPop ['('] t = false := by
  simp [shouldPop]

theorem popOperators_popped (t : Str) (P : List Str) (hP : ∀ x ∈ P, shouldPop x t = true) :
    ∀ (out ctx : List Str), Spec.StopsAt ctx t →
      popOperators t out (P ++ ctx) = (out ++ P, ctx) := by
  induction P with
  | nil =>
    intro out ctx hstop
    cases ctx with
    | nil => simp [popOperators]
    | cons top rest =>
      rw [List.nil_append, popOperators, hstop top rest rfl]
      simp
  | cons x xs ih =>
    intro out ctx hstop
    rw [List.cons_append, popOperators, if_pos (hP x (List.mem_cons_self _ _)),
      ih (fun y hy => hP y (List.mem_cons_of_mem _ hy)) _ ctx hstop]
    simp

theorem symbol_ne_implies {op : Spec.Connective} (h : op ≠ Spec.Connective.IMPLIES) :
    op.symbol ≠ '→' ∧ op.symbol ≠ '¬' := by
  cases op <;> first | exact absurd rfl h | decide

theorem level_eq_iff {o o2 : Spec.Connective} : o.level = o2.level ↔ o = o2 := by
  cases o <;> cases o2 <;> decide

theorem level_four_right (e : Spec.Expr) (h : e.level = 4) : e.rootRight = true := by
  cases e with
  | var v => rw [Script2.level_var] at h; omega
  | neg e => rfl
  | paren e => rw [Script2.level_paren] at h; omega
  | bin op a b =>
    have := Script2.connective_level_le op
    rw [Script2.level_bin] at h; omega

theorem level_one_right (e : Spec.Expr) (h : e.level = 1) : e.rootRight = true := by
  cases e with
  | var v => rw [Script2.level_var] at h; omega
  | neg e => rfl
  | paren e => rw [Script2.level_paren] at h; omega
  | bin op a b =>
    rw [Script2.level_bin] at h
    cases op with
    | IMPLIES => rfl
    | IFF => exact absurd h (by decide)
    | OR => exact absurd h (by decide)
    | AND => exact absurd h (by decide)

theorem rootRight_bin (op : Spec.Connective) (a b : Spec.Expr)
    (h : (Spec.Expr.bin op a b).rootRight = true) : op = Spec.Connective.IMPLIES := by
  cases op with
  | IMPLIES => rfl
  | IFF => exact Bool.noConfusion h
  | OR => exact Bool.noConfusion h
  | AND => exact Bool.noConfusion h

theorem admits_stops (ctx : List Str) (op : Spec.Connective) (a b : Spec.Expr)
    (h : Spec.Admits ctx (Spec.Expr.bin op a b)) : Spec.StopsAt ctx [op.symbol] := by
  intro top rest hctx
  rcases h top rest hctx with h | ⟨c, hc, hmem, hr⟩
  · rw [h]; exact shouldPop_paren _
  · rw [hc, shouldPop_rank c hmem _ (connective_mem_connectiveSymbols op), rank_symbol,
      Script2.level_bin] at *
    simp only [decide_eq_false_iff_not, not_or, not_and]
    rcases hr with hr | ⟨hr, hright⟩
    · exact ⟨by omega, fun e => by omega⟩
    · have hop := rootRight_bin op a b hright
      subst hop
      exact ⟨by omega, fun _ hne => absurd rfl hne⟩

theorem admits_left (ctx : List Str) (op : Spec.Connective) (a b : Spec.Expr)
    (h : Spec.Admits ctx (Spec.Expr.bin op a b)) (hlt : op.level < a.level) :
    Spec.Admits ctx a := by
  intro top rest hctx
  rcases h top rest hctx with h | ⟨c, hc, hmem, hr⟩
  · exact Or.inl h
  · refine Or.inr ⟨c, hc, hmem, Or.inl ?_⟩
    rw [Script2.level_bin] at hr
    rcases hr with hr | ⟨hr, -⟩ <;> omega

theorem admits_push (ctx : List Str) (op : Spec.Connective) (T : Spec.Expr)
    (h : op.level < T.level ∨ (op.level = T.level ∧ T.rootRight = true)) :
    Spec.Admits ([op.symbol] :: ctx) T := by
  intro top rest hctx
  simp only [List.cons.injEq] at hctx
  refine Or.inr ⟨op.symbol, hctx.1.symm, connective_mem_connectiveSymbols op, ?_⟩
  rw [rank_symbol]
  exact h

theorem admits_neg (ctx : List Str) (e : Spec.Expr) (h : 4 ≤ e.level) :
    Spec.Admits (['¬'] :: ctx) e := by
  intro top rest hctx
  simp only [List.cons.injEq] at hctx
  refine Or.inr ⟨'¬', hctx.1.symm, by decide, ?_⟩
  have hr : Spec.rank '¬' = 4 := rfl
  rw [hr]
  rcases Nat.lt_or_ge 4 e.level with h5 | h4
  · exact Or.inl h5
  · exact Or.inr ⟨by omega, level_four_right e (by omega)⟩

theorem admits_paren (ctx : List Str) (e : Spec.Expr) : Spec.Admits (['('] :: ctx) e := by
  intro top rest hctx
  simp only [List.cons.injEq] at hctx
  exact Or.inl hctx.1.symm

theorem admits_nil (T : Spec.Expr) : Spec.Admits [] T := by
  intro top rest hctx
  exact absurd hctx (by simp)

theorem mem_pendOf {x : Str} {p : Option Spec.Connective} (h : x ∈ Spec.pendOf p) :
    ∃ op, p = some op ∧ x = [op.symbol] := by
  cases p with
  | none => simp [Spec.pendOf] at h
  | some op =>
    simp only [Spec.pendOf, List.mem_singleton] at h
    exact ⟨op, rfl, h⟩

theorem syOut_pending (T : Spec.Expr) (hs : T.Shaped) :
    ∀ (p : Option Spec.Connective) (bound : Nat), bound ≤ T.level →
      (∀ op, p = some op → bound ≤ op.level) →
      ∀ x ∈ (T.syOut p).2, ∃ c, x = [c] ∧ c ∈ Spec.connectiveSymbols ∧ bound ≤ Spec.rank c := by
  induction T with
  | var v =>
    intro p bound _ hp x hx
    obtain ⟨op, hop, hxe⟩ := mem_pendOf hx
    exact ⟨op.symbol, hxe, connective_mem_connectiveSymbols op, by
      rw [rank_symbol]; exact hp op hop⟩
  | neg e ih =>
    intro p bound hb hp x hx
    simp only [Spec.Expr.Shaped] at hs
    rw [Script2.level_neg] at hb
    simp only [Spec.Expr.syOut, List.mem_append, List.mem_cons] at hx
    rcases hx with hx | hx | hx
    · exact ih hs.2 none bound (by omega) (fun _ h => absurd h (by simp)) x hx
    · exact ⟨'¬', hx, by decide, hb⟩
    · obtain ⟨op, hop, hxe⟩ := mem_pendOf hx
      exact ⟨op.symbol, hxe, connective_mem_connectiveSymbols op, by
        rw [rank_symbol]; exact hp op hop⟩
  | paren e _ =>
    intro p bound _ hp x hx
    obtain ⟨op, hop, hxe⟩ := mem_pendOf hx
    exact ⟨op.symbol, hxe, connective_mem_connectiveSymbols op, by
      rw [rank_symbol]; exact hp op hop⟩
  | bin o a b _ ihb =>
    intro p bound hb hp x hx
    simp only [Spec.Expr.Shaped] at hs
    rw [Script2.level_bin] at hb
    simp only [Spec.Expr.syOut] at hx
    split_ifs at hx with h1 h2
    · exact ihb hs.2.2.2 (some o) bound (by omega) (fun op h => by
        simp only [Option.some.injEq] at h; rw [← h]; exact hb) x hx
    · simp only [List.mem_append, List.mem_cons] at hx
      rcases hx with hx | hx | hx
      · exact ihb hs.2.2.2 none bound (by omega) (fun _ h => absurd h (by simp)) x hx
      · exact ⟨o.symbol, hx, connective_mem_connectiveSymbols o, by rw [rank_symbol]; exact hb⟩
      · obtain ⟨op, hop, hxe⟩ := mem_pendOf hx
        exact ⟨op.symbol, hxe, connective_mem_connectiveSymbols op, by
          rw [rank_symbol]; exact hp op hop⟩
    · simp only [List.mem_append] at hx
      rcases hx with hx | hx
      · exact ihb hs.2.2.2 (some o) bound (by omega) (fun op h => by
          simp only [Option.some.injEq] at h; rw [← h]; exact hb) x hx
      · obtain ⟨op, hop, hxe⟩ := mem_pendOf hx
        exact ⟨op.symbol, hxe, connective_mem_connectiveSymbols op, by
          rw [rank_symbol]; exact hp op hop⟩

theorem pending_popped (T : Spec.Expr) (hs : T.Shaped) (op : Spec.Connective)
    (hlt : op.level < T.level) :
    ∀ x ∈ (T.syOut none).2, shouldPop x [op.symbol] = true := by
  intro x hx
  obtain ⟨c, hc, hmem, hr⟩ := syOut_pending T hs none T.level (Nat.le_refl _)
    (fun _ h => absurd h (by simp)) x hx
  rw [hc, shouldPop_rank c hmem _ (connective_mem_connectiveSymbols op), rank_symbol]
  simp only [decide_eq_true_eq]
  exact Or.inl (by omega)

theorem shouldPop_self (op : Spec.Connective) (h : op ≠ Spec.Connective.IMPLIES) :
    shouldPop [op.symbol] [op.symbol] = true := by
  cases op <;> first | exact absurd rfl h | decide

theorem pending_ne_paren (T : Spec.Expr) (hs : T.Shaped) :
    ∀ x ∈ (T.syOut none).2, x ≠ ['('] := by
  intro x hx
  obtain ⟨c, hc, hmem, -⟩ := syOut_pending T hs none 0 (Nat.zero_le _)
    (fun _ h => absurd h (by simp)) x hx
  rw [hc]
  intro e
  simp only [List.cons.injEq, and_true] at e
  rw [e] at hmem
  exact absurd hmem (by decide)

theorem popToParen_popped (P : List Str) (hP : ∀ x ∈ P, x ≠ ['(']) :
    ∀ (out ctx : List Str),
      popToParen out (P ++ ['('] :: ctx) = (out ++ P, ['('] :: ctx) := by
  induction P with
  | nil => intro out ctx; simp [popToParen]
  | cons x xs ih =>
    intro out ctx
    rw [List.cons_append, popToParen, if_pos (hP x (List.mem_cons_self _ _)),
      ih (fun y hy => hP y (List.mem_cons_of_mem _ hy))]
    simp


theorem shuntingStep_open (state : List Str × List Str) :
    shuntingStep state ['('] = (state.1, ['('] :: state.2) := by
  unfold shuntingStep
  rw [if_neg (by decide), if_pos rfl]

theorem shuntingStep_close (state : List Str × List Str) :
    shuntingStep state [')'] =
      ((popToParen state.1 state.2).1, (popToParen state.1 state.2).2.tail) := by
  unfold shuntingStep
  rw [if_neg (by decide), if_neg (by decide), if_pos rfl]

theorem shuntingStep_connective (op : Spec.Connective) (out P ctx : List Str)
    (hP : ∀ x ∈ P, shouldPop x [op.symbol] = true) (hstop : Spec.StopsAt ctx [op.symbol]) :
    shuntingStep (out, P ++ ctx) [op.symbol] = (out ++ P, [op.symbol] :: ctx) := by
  rw [shuntingStep_symbol (connective_mem_binarySymbols op)]
  simp only [popOperators_popped _ P hP out ctx hstop]

theorem foldl_shuntingStep_expr (T : Spec.Expr) (hv : ∀ v ∈ T.vars, Spec.IsVariableName v)
    (hs : T.Shaped) :
    (∀ (out ctx rest : List Str), Spec.Admits ctx T →
      (T.tokens ++ rest).foldl shuntingStep (out, ctx) =
        rest.foldl shuntingStep (out ++ (T.syOut none).1, (T.syOut none).2 ++ ctx)) ∧
    (∀ (op : Spec.Connective) (out ctx rest : List Str), op ≠ Spec.Connective.IMPLIES →
      op.level ≤ T.level → Spec.StopsAt ctx [op.symbol] →
      (T.tokens ++ rest).foldl shuntingStep (out, [op.symbol] :: ctx) =
        rest.foldl shuntingStep
          (out ++ (T.syOut (some op)).1, (T.syOut (some op)).2 ++ ctx)) := by
  induction T with
  | var v =>
    have hname : Spec.IsVariableName v := hv v (List.mem_singleton_self _)
    constructor
    · intro out ctx rest _
      simp [Spec.Expr.tokens, Spec.Expr.syOut, Spec.pendOf, shuntingStep_name hname]
    · intro op out ctx rest _ _ _
      simp [Spec.Expr.tokens, Spec.Expr.syOut, Spec.pendOf, shuntingStep_name hname]
  | neg e ih =>
    simp only [Spec.Expr.Shaped] at hs
    obtain ⟨ih1, -⟩ := ih hv hs.2
    constructor
    · intro out ctx rest _
      simp only [Spec.Expr.tokens, List.cons_append, List.foldl_cons, shuntingStep_neg]
      rw [ih1 _ _ _ (admits_neg ctx e hs.1)]
      simp [Spec.Expr.syOut, Spec.pendOf]
    · intro op out ctx rest _ _ _
      simp only [Spec.Expr.tokens, List.cons_append, List.foldl_cons, shuntingStep_neg]
      rw [ih1 _ _ _ (admits_neg _ e hs.1)]
      simp [Spec.Expr.syOut, Spec.pendOf]
  | paren e ih =>
    simp only [Spec.Expr.Shaped] at hs
    obtain ⟨ih1, -⟩ := ih hv hs
    have hne := pending_ne_paren e hs
    constructor
    · intro out ctx rest _
      simp only [Spec.Expr.tokens, List.cons_append, List.append_assoc, List.foldl_cons,
        shuntingStep_open]
      rw [ih1 _ _ _ (admits_paren ctx e)]
      simp only [List.singleton_append, List.foldl_cons, shuntingStep_close,
        popToParen_popped _ hne, List.tail_cons]
      simp [Spec.Expr.syOut, Spec.pendOf]
    · intro op out ctx rest _ _ _
      simp only [Spec.Expr.tokens, List.cons_append, List.append_assoc, List.foldl_cons,
        shuntingStep_open]
      rw [ih1 _ _ _ (admits_paren _ e)]
      simp only [List.singleton_append, List.foldl_cons, shuntingStep_close,
        popToParen_popped _ hne, List.tail_cons]
      simp [Spec.Expr.syOut, Spec.pendOf]
  | bin o a b iha ihb =>
    simp only [Spec.Expr.Shaped] at hs
    obtain ⟨hla, hlb, hsa, hsb⟩ := hs
    obtain ⟨iha1, -⟩ := iha (fun v h => hv v (List.mem_append_left _ h)) hsa
    obtain ⟨ihb1, ihb2⟩ := ihb (fun v h => hv v (List.mem_append_right _ h)) hsb
    have hpop := pending_popped a hsa o hla
    have h1 : ∀ (out ctx rest : List Str), Spec.Admits ctx (Spec.Expr.bin o a b) →
        ((Spec.Expr.bin o a b).tokens ++ rest).foldl shuntingStep (out, ctx) =
          rest.foldl shuntingStep (out ++ ((Spec.Expr.bin o a b).syOut none).1,
            ((Spec.Expr.bin o a b).syOut none).2 ++ ctx) := by
      intro out ctx rest hadm
      have hstop := admits_stops ctx o a b hadm
      simp only [Spec.Expr.tokens, List.append_assoc, List.cons_append]
      rw [iha1 _ _ _ (admits_left ctx o a b hadm hla)]
      simp only [List.foldl_cons, shuntingStep_connective o _ _ _ hpop hstop]
      by_cases himp : o = Spec.Connective.IMPLIES
      · rw [ihb1 _ _ _ (admits_push ctx o b (by
          rcases Nat.lt_or_ge o.level b.level with h | h
          · exact Or.inl h
          · have he : b.level = 1 := by
              rw [himp] at h hlb
              have h1 : Spec.Connective.IMPLIES.level = 1 := rfl
              omega
            exact Or.inr ⟨by rw [himp, he]; rfl, level_one_right b he⟩))]
        simp [Spec.Expr.syOut, Spec.pendOf, himp, List.append_assoc]
      · rw [ihb2 o _ _ _ himp hlb hstop]
        simp [Spec.Expr.syOut, Spec.pendOf, himp, List.append_assoc]
    refine ⟨h1, ?_⟩
    intro op out ctx rest hop hle hstop
    rw [Script2.level_bin] at hle
    by_cases hsame : op = o
    · subst hsame
      have hpop2 : ∀ x ∈ (a.syOut none).2 ++ [[op.symbol]], shouldPop x [op.symbol] = true := by
        intro x hx
        rcases List.mem_append.1 hx with h | h
        · exact hpop x h
        · rw [List.mem_singleton.1 h]; exact shouldPop_self op hop
      simp only [Spec.Expr.tokens, List.append_assoc, List.cons_append]
      rw [iha1 _ _ _ (admits_push ctx op a (Or.inl hla))]
      have hstack : (a.syOut none).2 ++ [op.symbol] :: ctx =
          ((a.syOut none).2 ++ [[op.symbol]]) ++ ctx := by simp
      simp only [List.foldl_cons]
      rw [hstack, shuntingStep_connective op _ _ _ hpop2 hstop, ihb2 op _ _ _ hop hlb hstop]
      simp [Spec.Expr.syOut, List.append_assoc]
    · have hlt : op.level < o.level := by
        rcases Nat.lt_or_ge op.level o.level with h | h
        · exact h
        · exact absurd (level_eq_iff.1 (Nat.le_antisymm hle h)) hsame
      rw [h1 out _ rest (admits_push ctx op _ (Or.inl (by rw [Script2.level_bin]; exact hlt)))]
      by_cases himp : o = Spec.Connective.IMPLIES
      · subst himp
        simp [Spec.Expr.syOut, Spec.pendOf, hop, List.append_assoc]
      · simp [Spec.Expr.syOut, Spec.pendOf, himp, hsame, List.append_assoc]


theorem matchTokensFrom_expr (T : Spec.Expr) :
    (∀ v ∈ T.vars, Spec.IsVariableName v) →
    ∀ rest : Str, (∀ c, rest.head? = some c → isAsciiLetter c = false) →
      matchTokensFrom [] (T.render ++ rest) = T.tokens ++ matchTokensFrom [] rest := by
  induction T with
  | var v =>
    intro hv rest hrest
    have hname : Spec.IsVariableName v := hv v (List.mem_singleton_self _)
    simp only [Spec.Expr.render, Spec.Expr.tokens]
    rw [matchTokensFrom_letters v hname.2.1, List.nil_append]
    cases rest with
    | nil => simp [matchTokensFrom, flushRun, hname.1]
    | cons c cs =>
      rw [matchTokensFrom_nonletter v c cs (hrest c rfl), flushRun_of_ne_nil hname.1]
  | neg e ih =>
    intro hv rest hrest
    simp only [Spec.Expr.render, Spec.Expr.tokens, List.cons_append]
    rw [matchTokensFrom_symbol '¬' _ (by decide) (by decide), ih hv rest hrest]
  | paren e ih =>
    intro hv rest hrest
    simp only [Spec.Expr.render, Spec.Expr.tokens, List.cons_append, List.append_assoc]
    rw [matchTokensFrom_symbol '(' _ (by decide) (by decide),
      ih hv _ (by intro c hc; simp at hc; subst hc; decide),
      List.nil_append, matchTokensFrom_symbol ')' _ (by decide) (by decide)]
    simp
  | bin op a b iha ihb =>
    intro hv rest hrest
    have hop := symbol_chars (connective_mem_binarySymbols op)
    simp only [Spec.Expr.render, Spec.Expr.tokens, List.cons_append, List.append_assoc]
    rw [iha (fun v h => hv v (List.mem_append_left _ h)) _
        (by intro c hc; simp at hc; subst hc; exact hop.1),
      matchTokensFrom_symbol op.symbol _ hop.1 hop.2,
      ihb (fun v h => hv v (List.mem_append_right _ h)) rest hrest]

theorem matchTokens_expr (T : Spec.Expr) (hv : ∀ v ∈ T.vars, Spec.IsVariableName v) :
    matchTokens T.render = T.tokens := by
  have := matchTokensFrom_expr T hv [] (by simp)
  simpa [matchTokens, matchTokensFrom, flushRun] using this

theorem shuntingYard_expr (T : Spec.Expr) (hv : ∀ v ∈ T.vars, Spec.IsVariableName v)
    (hs : T.Shaped) : shuntingYard T.render = (T.syOut none).1 ++ (T.syOut none).2 := by
  unfold shuntingYard
  have := (foldl_shuntingStep_expr T hv hs).1 [] [] [] (admits_nil T)
  rw [List.append_nil] at this
  simp [matchTokens_expr T hv, this]

theorem evalStep_connective (context : Obj) (op : Spec.Connective) (x y : Bool)
    (stack : List JSVal) :
    evalStep context (JSVal.bool y :: JSVal.bool x :: stack) [op.symbol] =
      Except.ok (JSVal.bool (op.toBinOp.apply x y) :: stack) := by
  rw [← Script2.toBinOp_symbol]
  exact evalStep_binary context op.toBinOp x y stack

theorem apply_assoc (op : Spec.Connective) (h : op ≠ Spec.Connective.IMPLIES) (x y z : Bool) :
    op.toBinOp.apply (op.toBinOp.apply x y) z = op.toBinOp.apply x (op.toBinOp.apply y z) := by
  cases op <;> first | exact absurd rfl h | (cases x <;> cases y <;> cases z <;> rfl)

theorem evalTokens_syOut (context : Obj) (σ : Str → Bool) (T : Spec.Expr)
    (hv : ∀ v ∈ T.vars, Spec.IsVariableName v)
    (hc : ∀ v ∈ T.vars, context.get v = some (σ v)) :
    (∀ (stack : List JSVal) (rest : List Str),
      evalTokens context stack ((T.syOut none).1 ++ ((T.syOut none).2 ++ rest)) =
        evalTokens context (JSVal.bool (T.erase.value σ) :: stack) rest) ∧
    (∀ (op : Spec.Connective) (acc : Bool) (stack : List JSVal) (rest : List Str),
      op ≠ Spec.Connective.IMPLIES →
      evalTokens context (JSVal.bool acc :: stack)
          ((T.syOut (some op)).1 ++ ((T.syOut (some op)).2 ++ rest)) =
        evalTokens context (JSVal.bool (op.toBinOp.apply acc (T.erase.value σ)) :: stack)
          rest) := by
  induction T with
  | var v =>
    have hname : Spec.IsVariableName v := hv v (List.mem_singleton_self _)
    have hget : context.get v = some (σ v) := hc v (List.mem_singleton_self _)
    constructor
    · intro stack rest
      simp only [Spec.Expr.syOut, Spec.pendOf, List.singleton_append, List.nil_append,
        evalTokens, evalStep_name hname, contextGet, hget]
      rfl
    · intro op acc stack rest _
      simp only [Spec.Expr.syOut, Spec.pendOf, List.singleton_append, evalTokens,
        evalStep_name hname, contextGet, hget, evalStep_connective]
      rfl
  | neg e ih =>
    obtain ⟨ih1, -⟩ := ih hv hc
    constructor
    · intro stack rest
      simp only [Spec.Expr.syOut, Spec.pendOf, List.append_assoc, List.cons_append,
        List.nil_append]
      rw [ih1]
      simp only [evalTokens, evalStep_neg]
      rfl
    · intro op acc stack rest _
      simp only [Spec.Expr.syOut, Spec.pendOf, List.append_assoc, List.cons_append,
        List.nil_append]
      rw [ih1]
      simp only [evalTokens, evalStep_neg, evalStep_connective]
      rfl
  | paren e ih =>
    obtain ⟨ih1, -⟩ := ih hv hc
    constructor
    · intro stack rest
      simp only [Spec.Expr.syOut, Spec.pendOf, List.append_assoc, List.nil_append]
      rw [ih1]
      rfl
    · intro op acc stack rest _
      simp only [Spec.Expr.syOut, Spec.pendOf, List.append_assoc, List.cons_append,
        List.nil_append]
      rw [ih1]
      simp only [evalTokens, evalStep_connective]
      rfl
  | bin o a b iha ihb =>
    obtain ⟨iha1, -⟩ := iha (fun v h => hv v (List.mem_append_left _ h))
      (fun v h => hc v (List.mem_append_left _ h))
    obtain ⟨ihb1, ihb2⟩ := ihb (fun v h => hv v (List.mem_append_right _ h))
      (fun v h => hc v (List.mem_append_right _ h))
    constructor
    · intro stack rest
      by_cases himp : o = Spec.Connective.IMPLIES
      · subst himp
        simp only [Spec.Expr.syOut, Spec.pendOf, List.append_assoc, List.cons_append,
          List.nil_append, if_true, if_false, if_neg (show ¬ (none = some
            Spec.Connective.IMPLIES) from fun h => Option.noConfusion h)]
        rw [iha1, ihb1]
        simp only [evalTokens, evalStep_connective]
        rfl
      · simp only [Spec.Expr.syOut, Spec.pendOf, List.append_assoc, List.cons_append,
          List.nil_append, List.append_nil, if_neg himp, if_neg (show ¬ (none = some o) from
            fun h => Option.noConfusion h)]
        rw [iha1, ihb2 o _ _ _ himp]
        rfl
    · intro op acc stack rest hop
      by_cases hsame : op = o
      · subst hsame
        simp only [Spec.Expr.syOut, List.append_assoc, List.cons_append, if_true]
        rw [iha1]
        simp only [evalTokens, evalStep_connective]
        rw [ihb2 op _ _ _ hop, apply_assoc op hop]
        rfl
      · have hne : ¬ (some op = some o) := fun e => hsame (Option.some.inj e)
        by_cases himp : o = Spec.Connective.IMPLIES
        · subst himp
          simp only [Spec.Expr.syOut, Spec.pendOf, List.append_assoc, List.cons_append,
            List.nil_append, if_neg hne, if_true]
          rw [iha1, ihb1]
          simp only [evalTokens, evalStep_connective]
          rfl
        · simp only [Spec.Expr.syOut, Spec.pendOf, List.append_assoc, List.cons_append,
            List.nil_append, if_neg hne, if_neg himp]
          rw [iha1, ihb2 o _ _ _ himp]
          simp only [List.singleton_append, evalTokens, evalStep_connective]
          rfl

end Script

namespace Script2

/-! ## The two evaluators agree -/

theorem mem_of_get_eq_some (o : Obj) (k : Str) (b : Bool) (h : o.get k = some b) :
    (k, b) ∈ o := by
  unfold Obj.get at h
  induction o with
  | nil => simp at h
  | cons kv rest ih =>
    obtain ⟨k', b'⟩ := kv
    by_cases hk : k = k'
    · subst hk
      simp only [List.lookup_cons, beq_self_eq_true, Option.some.injEq] at h
      rw [h]; exact List.mem_cons_self _ _
    · have hbeq : (k == k') = false := by simpa using hk
      simp only [List.lookup_cons, hbeq] at h
      exact List.mem_cons_of_mem _ (ih h)

/-- C19: with the declared variable `constructor`, a run of ASCII letters,
assigned true, `evaluateLogicalExpression` of script2.js evaluates the
expression `constructor` to true, while `evaluateParsedExpression` of
script.js takes the token for an operator (it passes the test `token in
OPERATORS`) and fails with a TypeError: the two do not return the same
boolean. -/
theorem evaluators_disagree_inherited_name :
    evaluateLogicalExpression "constructor".toList [("constructor".toList, true)] =
      some (Except.ok true) ∧
    Script.evaluateParsedExpression "constructor".toList [("constructor".toList, true)] =
      Except.error JSError.typeError := by
  constructor <;> decide

/-- Apart from inherited names the two evaluators agree: for every
expression generated by the grammar `E ::= v |
¬E | (E) | E∧E | E∨E | E→E | E↔E` and every assignment whose names are
variable names of the tokenizer (non-empty runs of ASCII letters that are not
inherited property names such as `constructor`) and which gives a value to
every variable of the expression, `evaluateParsedExpression` of script.js and
`evaluateLogicalExpression` of script2.js return the same boolean. -/
theorem evaluators_agree (T : Spec.Expr) (context : Obj)
    (hnames : ∀ kv ∈ context, Spec.IsVariableName kv.1)
    (htotal : ∀ v ∈ T.vars, (context.get v).isSome = true) :
    ∃ b : Bool,
      Script.evaluateParsedExpression T.render context = Except.ok (JSVal.bool b) ∧
      evaluateLogicalExpression T.render context = some (Except.ok b) := by
  obtain ⟨hr, hvars, hs⟩ := norm_spec T
  have hc : ∀ v ∈ T.norm.vars, context.get v = some ((context.get v).getD false) := by
    intro v hv
    have := htotal v ((hvars v).1 hv)
    rcases hget : context.get v with _ | b
    · rw [hget] at this; exact Bool.noConfusion this
    · rfl
  have hname : ∀ v ∈ T.norm.vars, Spec.IsVariableName v := by
    intro v hv
    exact hnames _ (mem_of_get_eq_some context v _ (hc v hv))
  have hletters : ∀ v ∈ T.norm.vars, v ≠ [] ∧ ∀ c ∈ v, isAsciiLetter c = true :=
    fun v hv => ⟨(hname v hv).1, (hname v hv).2.1⟩
  have hown : context.get "hasOwnProperty".toList = none := by
    rcases hget : context.get "hasOwnProperty".toList with _ | b
    · rfl
    · have hn : Spec.IsVariableName "hasOwnProperty".toList :=
        hnames _ (mem_of_get_eq_some context _ b hget)
      exact absurd hn (by decide)
  refine ⟨T.norm.erase.value fun v => (context.get v).getD false, ?_, ?_⟩
  · have hev := (Script.evalTokens_syOut context (fun v => (context.get v).getD false) T.norm
      hname hc).1 [] []
    rw [List.append_nil] at hev
    unfold Script.evaluateParsedExpression
    rw [← hr, Script.shuntingYard_expr T.norm hname hs, hev]
    rfl
  · unfold evaluateLogicalExpression
    rw [← hr]
    simp only [stripWhitespace_render T.norm hletters]
    exact evaluate_shaped context _ T.norm hletters hc hown hs _ (Nat.lt_succ_self _)

/-- An instance: on `p↔q↔r` with p, q and r false script.js
computes (p↔q)↔r and script2.js computes p↔(q↔r); both give false. -/
theorem evaluators_agree_witness :
    Script.evaluateParsedExpression "p↔q↔r".toList
        [(['p'], false), (['q'], false), (['r'], false)] = Except.ok (JSVal.bool false) ∧
    evaluateLogicalExpression "p↔q↔r".toList
        [(['p'], false), (['q'], false), (['r'], false)] = some (Except.ok false) ∧
    Script.shuntingYard "p↔q↔r".toList = [['p'], ['q'], ['↔'], ['r'], ['↔']] := by
  obtain ⟨b, h1, h2⟩ := evaluators_agree
    (Spec.Expr.bin Spec.Connective.IFF (Spec.Expr.var ['p'])
      (Spec.Expr.bin Spec.Connective.IFF (Spec.Expr.var ['q']) (Spec.Expr.var ['r'])))
    [(['p'], false), (['q'], false), (['r'], false)] (by decide) (by decide)
  have hb : Script.evaluateParsedExpression "p↔q↔r".toList
      [(['p'], false), (['q'], false), (['r'], false)] = Except.ok (JSVal.bool false) := by
    decide
  have hs : Script.evaluateParsedExpression "p↔q↔r".toList
      [(['p'], false), (['q'], false), (['r'], false)] = Except.ok (JSVal.bool b) := h1
  rw [hb] at hs
  simp only [Except.ok.injEq, JSVal.bool.injEq] at hs
  rw [← hs] at h2
  exact ⟨hb, h2, by decide⟩

end Script2

end LogicEngine
